import Mathlib

/-!
Verification development for a Python library of mergeable priority-queue
engines (binomial heap, skew-binomial heap, Fibonacci heap).

The Python code is shallowly embedded as executable Lean definitions:

* binomial trees become an inductive type whose `children` list is the
  leftmost-child / right-sibling chain of the Python nodes;
* the Python `forest : list[Optional[Node]]` becomes `List (Option _)`;
* the Fibonacci heap, whose nodes form cyclic pointer structures, is
  embedded as an arena: a list of node records addressed by stable
  indices, with `parent`, `child`, `next` and `prev` stored as indices,
  so Python identity comparison (`is`) becomes index equality;
* a raised Python exception becomes an `Except PyErr` result paired with
  the state as it is at the moment of the raise;
* Python `while` loops that can diverge on malformed states are given a
  fuel parameter and return `none` when the fuel runs out (modelling
  divergence); all fuel recursion is structural so that closed runs
  reduce by `rfl` and `decide`.
-/

/-- The Python exception kinds that the embedded operations can raise. -/
inductive PyErr where
  | indexError
  | attributeError
  | valueError
  | assertionError
  | runtimeError
deriving DecidableEq

/-!
## Binomial heap (`binomial_heap.py`)

A Python `Node` has fields `key`, `value`, `child` (leftmost child) and
`sibling` (next sibling to the right).  A whole tree is represented by
the inductive `BTree`, whose `children` list is the chain
`child, child.sibling, child.sibling.sibling, ...` of the Python node.
Python dataclass equality (`==`, used by `list.index`) is structural
equality of `BTree`.
-/

inductive BTree (K V : Type) where
  | node (key : K) (value : V) (children : List (BTree K V))

variable {K V : Type}

mutual

/-- Structural equality of binomial trees (Python dataclass `==`). -/
def BTree.beq [DecidableEq K] [DecidableEq V] : BTree K V → BTree K V → Bool
  | .node k1 v1 c1, .node k2 v2 c2 =>
    decide (k1 = k2) && decide (v1 = v2) && BTree.beqList c1 c2

def BTree.beqList [DecidableEq K] [DecidableEq V] :
    List (BTree K V) → List (BTree K V) → Bool
  | [], [] => true
  | t :: ts, u :: us => BTree.beq t u && BTree.beqList ts us
  | _, _ => false

end

mutual

theorem bTreeBeq_iff [DecidableEq K] [DecidableEq V] :
    ∀ t u : BTree K V, BTree.beq t u = true ↔ t = u
  | .node k1 v1 c1, .node k2 v2 c2 => by
    simp [BTree.beq, bTreeBeqList_iff c1 c2, and_assoc]

theorem bTreeBeqList_iff [DecidableEq K] [DecidableEq V] :
    ∀ ts us : List (BTree K V), BTree.beqList ts us = true ↔ ts = us
  | [], [] => by simp [BTree.beqList]
  | [], _ :: _ => by simp [BTree.beqList]
  | _ :: _, [] => by simp [BTree.beqList]
  | t :: ts, u :: us => by
    simp [BTree.beqList, bTreeBeq_iff t u, bTreeBeqList_iff ts us]

end

instance [DecidableEq K] [DecidableEq V] : DecidableEq (BTree K V) :=
  fun t u => decidable_of_iff _ (bTreeBeq_iff t u)

def BTree.key : BTree K V → K
  | .node k _ _ => k

def BTree.value : BTree K V → V
  | .node _ v _ => v

def BTree.children : BTree K V → List (BTree K V)
  | .node _ _ c => c

mutual

/-- Number of nodes in a binomial tree. -/
def BTree.count : BTree K V → Nat
  | .node _ _ c => 1 + BTree.countList c

def BTree.countList : List (BTree K V) → Nat
  | [] => 0
  | t :: ts => BTree.count t + BTree.countList ts

end

/-- `NodeAbstract.link`: the root with the larger key becomes the leftmost
child of the root with the smaller-or-equal key (`if root.key > other.key`
swaps the roles, then `other.sibling = root.child; root.child = other`). -/
def bLink [LinearOrder K] (t u : BTree K V) : BTree K V :=
  if u.key < t.key then .node u.key u.value (t :: u.children)
  else .node t.key t.value (u :: t.children)

/-- `BinomialHeapAbstract._one_bit_full_adder`, generic in the `link`
operation (the skew subclass inherits this method but dispatches to an
order-aware `link`).  Transcribes the `if` ladder of the source: the
branches are on `a`, `b` and `carry` being `None` or a node. -/
def oneBitFullAdderG (link : α → α → α) :
    Option α → Option α → Option α → Option α × Option α
  | none, none, none => (none, none)
  | none, none, some c => (some c, none)
  | none, some b, none => (some b, none)
  | none, some b, some c => (none, some (link c b))
  | some a, none, none => (some a, none)
  | some a, none, some c => (none, some (link a c))
  | some a, some b, none => (none, some (link a b))
  | some a, some b, some c => (some c, some (link a b))

/-- Body of `BinomialHeapAbstract._add_root_lists` once `list1` is
exhausted: keep adding the entries of `list2` (paired with `None` from
`zip_longest`) into the running carry. -/
def addGoB (link : α → α → α) : List (Option α) → Option α → List (Option α)
  | [], none => []
  | [], some c => [some c]
  | b :: l2, c =>
    let tc := oneBitFullAdderG link none b c
    tc.1 :: addGoB link l2 tc.2

/-- The `zip_longest` loop of `BinomialHeapAbstract._add_root_lists`:
process the two position-indexed forests entry by entry, threading the
carry, and append the final carry if it is set. -/
def addGo (link : α → α → α) :
    List (Option α) → List (Option α) → Option α → List (Option α)
  | [], l2, c => addGoB link l2 c
  | a :: l1, l2, c =>
    let tc := oneBitFullAdderG link a (l2.headD none) c
    tc.1 :: addGo link l1 l2.tail tc.2

/-- `BinomialHeapAbstract._add_root_lists`. -/
def addRootLists (link : α → α → α)
    (l1 l2 : List (Option α)) : List (Option α) :=
  addGo link l1 l2 none

/-- `min(filter(None, forest), key=attrgetter("key"))`: the first root with
the minimal key, or `none` when every entry is `None` (in which case the
Python `min` raises `ValueError`). -/
def minRoot [LinearOrder K] (l : List (Option (BTree K V))) :
    Option (BTree K V) :=
  l.foldl
    (fun acc o =>
      match acc, o with
      | none, o => o
      | some m, none => some m
      | some m, some t => if t.key < m.key then some t else some m)
    none

/-- The `while self.forest and self.forest[-1] is None: self.forest.pop()`
loop of `extract_min`. -/
def dropTrailingNones (l : List (Option α)) : List (Option α) :=
  (l.reverse.dropWhile (fun o => o.isNone)).reverse

/-- The observable state of a `BinomialHeap`: its `forest` and `size`
attributes (Python `size` is an `int`). -/
structure BinHeap (K V : Type) where
  forest : List (Option (BTree K V))
  size : Int
deriving DecidableEq

/-- `BinomialHeapAbstract.__init__` with no items. -/
def binInit : BinHeap K V := ⟨[], 0⟩

/-- `BinomialHeapAbstract.enqueue`: merge a fresh singleton into the
forest with the carry algorithm and bump the size.  (The Python method
also returns the new node; no claim uses that handle.) -/
def binEnqueue [LinearOrder K] (s : BinHeap K V) (k : K) (v : V) :
    BinHeap K V :=
  { forest := addRootLists bLink s.forest [some (.node k v [])]
    size := s.size + 1 }

/-- `BinomialHeapAbstract.find_min`. -/
def binFindMin [LinearOrder K] (s : BinHeap K V) : Except PyErr (K × V) :=
  match s.forest with
  | [] => .error .indexError
  | _ =>
    match minRoot s.forest with
    | none => .error .valueError
    | some m => .ok (m.key, m.value)

/-- `BinomialHeapAbstract.extract_min`, threading the state so that the
state at the moment of a raise is returned alongside the error.  Mirrors
the source: find the first minimal root, locate it with `list.index`
(structural equality), fracture its children, `pop` it out of the forest
(shifting later entries left), strip trailing `None`s, reverse the
fracture list and re-merge it with the carry algorithm. -/
def binExtractMin [LinearOrder K] [DecidableEq K] [DecidableEq V]
    (s : BinHeap K V) : Except PyErr (K × V) × BinHeap K V :=
  match s.forest with
  | [] => (.error .indexError, s)
  | _ =>
    match minRoot s.forest with
    | none => (.error .valueError, s)
    | some m =>
      let idx := s.forest.findIdx (fun o => decide (o = some m))
      let fractures := m.children
      let f1 := s.forest.eraseIdx idx
      let f2 := dropTrailingNones f1
      let f3 := addRootLists bLink f2 ((fractures.reverse).map some)
      (.ok (m.key, m.value), ⟨f3, s.size - 1⟩)

/-- Build a heap by `enqueue`-ing a list of keys (with unit values), as
the constructor `BinomialHeap(items)` does. -/
def binFromList (ks : List Int) : BinHeap Int Unit :=
  ks.foldl (fun s k => binEnqueue s k ()) binInit

/-- `Heap.sorted`: `while len(self) > 0: yield self.extract_min()`,
collected into a list of keys; the fuel bounds the number of
extractions. -/
def binSortedKeys : Nat → BinHeap Int Unit → List Int
  | 0, _ => []
  | fuel + 1, s =>
    if s.size > 0 then
      match binExtractMin s with
      | (.ok (k, _), s2) => k :: binSortedKeys fuel s2
      | (.error _, _) => []
    else []


/-!
## Skew binomial heap (`skew_binomial_heap.py`)

`SkewBinomialHeap` is declared as `@dataclass(slots=True, init=False)` and
adds no fields of its own, so constructing it runs the inherited
`BinomialHeapAbstract.__init__`, which initializes only the attributes
`forest` and `size`.  Every overridden skew operation reads `self.trees`,
an attribute that no code path ever initializes; in Python, reading a
missing attribute raises `AttributeError`.  The embedding therefore keeps
a `trees : Option (List (SkewTree K V))` component, `none` meaning the
attribute is not set, and each access of an unset attribute produces
`PyErr.attributeError` with the state unchanged.
-/

inductive SkewTree (K V : Type) where
  | node (key : K) (value : V) (children : List (SkewTree K V)) (order : Nat)

mutual

/-- Structural equality of skew nodes (Python dataclass `==`, which also
compares the `order` field). -/
def SkewTree.beq [DecidableEq K] [DecidableEq V] :
    SkewTree K V → SkewTree K V → Bool
  | .node k1 v1 c1 d1, .node k2 v2 c2 d2 =>
    decide (k1 = k2) && decide (v1 = v2) && SkewTree.beqList c1 c2
      && decide (d1 = d2)

def SkewTree.beqList [DecidableEq K] [DecidableEq V] :
    List (SkewTree K V) → List (SkewTree K V) → Bool
  | [], [] => true
  | t :: ts, u :: us => SkewTree.beq t u && SkewTree.beqList ts us
  | _, _ => false

end

mutual

theorem skewTreeBeq_iff [DecidableEq K] [DecidableEq V] :
    ∀ t u : SkewTree K V, SkewTree.beq t u = true ↔ t = u
  | .node k1 v1 c1 d1, .node k2 v2 c2 d2 => by
    simp [SkewTree.beq, skewTreeBeqList_iff c1 c2, and_assoc]

theorem skewTreeBeqList_iff [DecidableEq K] [DecidableEq V] :
    ∀ ts us : List (SkewTree K V), SkewTree.beqList ts us = true ↔ ts = us
  | [], [] => by simp [SkewTree.beqList]
  | [], _ :: _ => by simp [SkewTree.beqList]
  | _ :: _, [] => by simp [SkewTree.beqList]
  | t :: ts, u :: us => by
    simp [SkewTree.beqList, skewTreeBeq_iff t u, skewTreeBeqList_iff ts us]

end

instance [DecidableEq K] [DecidableEq V] : DecidableEq (SkewTree K V) :=
  fun t u => decidable_of_iff _ (skewTreeBeq_iff t u)

def SkewTree.key : SkewTree K V → K
  | .node k _ _ _ => k

def SkewTree.value : SkewTree K V → V
  | .node _ v _ _ => v

def SkewTree.children : SkewTree K V → List (SkewTree K V)
  | .node _ _ c _ => c

def SkewTree.order : SkewTree K V → Nat
  | .node _ _ _ d => d

/-- The skew `Node.link`: the inherited binomial link followed by
`root.order += 1`. -/
def sLink [LinearOrder K] (t u : SkewTree K V) : SkewTree K V :=
  if u.key < t.key then .node u.key u.value (t :: u.children) (u.order + 1)
  else .node t.key t.value (u :: t.children) (t.order + 1)

/-- `Node.skew_link`.  The `assert self.order == other.order` raises
`AssertionError` when violated.  Type A (`singleton.key` strictly below
both root keys) rewires `singleton.child = self; self.sibling = other`,
producing exactly the chain `[self, other]` (the call sites pass detached
roots whose `sibling` is `None`, and the fresh singleton has no children).
Type B performs a normal link and then prepends the singleton to the new
root chain without a further order bump. -/
def sSkewLink [LinearOrder K] (t u : SkewTree K V)
    (singleton : Option (SkewTree K V)) : Except PyErr (SkewTree K V) :=
  if t.order ≠ u.order then .error .assertionError
  else
    match singleton with
    | some sg =>
      if sg.key < t.key ∧ sg.key < u.key then
        .ok (.node sg.key sg.value [t, u] (t.order + 1))
      else
        match sLink t u with
        | .node k v cs d => .ok (.node k v (sg :: cs) d)
    | none => .ok (sLink t u)

/-- The state of a `SkewBinomialHeap` object: the inherited `forest` and
`size` attributes plus the optional `trees` attribute (`none` when the
attribute was never assigned, which is the case after `__init__`). -/
structure SkewState (K V : Type) where
  forest : List (Option (BTree K V))
  size : Int
  trees : Option (List (SkewTree K V))

/-- A freshly constructed `SkewBinomialHeap()`: the inherited constructor
sets `forest = []` and `size = 0` and nothing sets `trees`. -/
def skewInit : SkewState K V := ⟨[], 0, none⟩

/-- `SkewBinomialHeap._insert_singleton`.  The very first expression,
`len(self.trees)`, reads the `trees` attribute, so an unset attribute
raises `AttributeError` before anything is mutated. -/
def skewInsertSingleton [LinearOrder K] [DecidableEq K] [DecidableEq V]
    (s : SkewState K V) (nd : SkewTree K V) :
    (Except PyErr Unit) × SkewState K V :=
  match s.trees with
  | none => (.error .attributeError, s)
  | some ts =>
    match ts.reverse with
    | r1 :: r2 :: rest =>
      if r2.order = r1.order then
        match sSkewLink r1 r2 (some nd) with
        | .error e => (.error e, { s with trees := some rest.reverse })
        | .ok t => (.ok (), { s with trees := some (rest.reverse ++ [t]) })
      else (.ok (), { s with trees := some (ts ++ [nd]) })
    | _ => (.ok (), { s with trees := some (ts ++ [nd]) })

/-- `SkewBinomialHeap.enqueue`: build the singleton node, try to insert
it, and only on success increment `size` (the Python `self.size += 1`
line is only reached if `_insert_singleton` returned normally). -/
def skewEnqueue [LinearOrder K] [DecidableEq K] [DecidableEq V]
    (s : SkewState K V) (k : K) (v : V) :
    (Except PyErr Unit) × SkewState K V :=
  match skewInsertSingleton s (.node k v [] 0) with
  | (.error e, s2) => (.error e, s2)
  | (.ok _, s2) => (.ok (), { s2 with size := s2.size + 1 })

/-- `find_min` is inherited from `BinomialHeapAbstract` and reads the
(initialized, always empty) `forest` attribute. -/
def skewFindMin [LinearOrder K] (s : SkewState K V) : Except PyErr (K × V) :=
  match s.forest with
  | [] => .error .indexError
  | _ =>
    match minRoot s.forest with
    | none => .error .valueError
    | some m => .ok (m.key, m.value)

/-- `min(filter(None, self.trees), key=attrgetter("key"))`: first tree
with the minimal key (list elements are nodes, hence all truthy). -/
def minTree [LinearOrder K] : SkewTree K V → List (SkewTree K V) → SkewTree K V
  | m, [] => m
  | m, t :: ts => minTree (if t.key < m.key then t else m) ts

/-- `all(a >= b for a, b in zip(lst, lst[1:]))` over tree orders. -/
def isSortedDesc : List Nat → Bool
  | [] => true
  | [_] => true
  | a :: b :: t => decide (b ≤ a) && isSortedDesc (b :: t)

/-- The normalization loop of `SkewBinomialHeap.extract_min`:
`while len(lst) >= 2 and lst[-2].order == lst[-1].order:` pop the last
two trees and append their link. -/
def normalizeLinks [LinearOrder K] (l : List (SkewTree K V)) :
    List (SkewTree K V) :=
  match hrev : l.reverse with
  | r1 :: r2 :: rest =>
    if r2.order = r1.order then normalizeLinks (rest.reverse ++ [sLink r1 r2])
    else l
  | _ => l
termination_by l.length
decreasing_by
  have hlen : l.length = rest.length + 2 := by
    rw [← List.length_reverse l, hrev]; simp
  simp [hlen]

/-- The two-list branch of the generator `iter_with_rank` (both input
lists already reversed to increasing order): walk the orders from `0` to
`max_order`, yielding up to one tree from each list per order, stopping
early once both index cursors are exhausted. -/
def iwrGo (t1 t2 : List (SkewTree K V)) (maxOrder : Nat)
    (order i1 i2 : Nat) :
    List (Option (SkewTree K V) × Option (SkewTree K V)) :=
  if h : order > maxOrder then []
  else
    let o1 := t1.get? i1
    let o2 := t2.get? i2
    let c1 : Bool := o1.any (fun t => t.order == order)
    let c2 : Bool := o2.any (fun t => t.order == order)
    let step :
        (Option (SkewTree K V) × Option (SkewTree K V)) × Nat × Nat :=
      if c1 && c2 then ((o1, o2), (i1 + 1, i2 + 1))
      else if c1 then ((o1, none), (i1 + 1, i2))
      else if c2 then ((none, o2), (i1, i2 + 1))
      else ((none, none), (i1, i2))
    step.1 ::
      (if step.2.1 ≥ t1.length ∧ step.2.2 ≥ t2.length then []
       else iwrGo t1 t2 maxOrder (order + 1) step.2.1 step.2.2)
termination_by maxOrder + 1 - order
decreasing_by omega

/-- The single-list branches of `iter_with_rank`. -/
def iwrOne (t1 : List (SkewTree K V)) (maxOrder : Nat)
    (order i1 : Nat) : List (Option (SkewTree K V)) :=
  if i1 ≥ t1.length ∨ order > maxOrder then []
  else
    match t1.get? i1 with
    | none => []
    | some t =>
      if t.order = order then some t :: iwrOne t1 maxOrder (order + 1) (i1 + 1)
      else none :: iwrOne t1 maxOrder (order + 1) i1
termination_by maxOrder + 1 - order
decreasing_by all_goals omega

/-- `iter_with_rank(trees1, trees2)`: `max_order` is read from the heads
before the in-place reversals. -/
def iterWithRank (trees1 trees2 : List (SkewTree K V)) :
    List (Option (SkewTree K V) × Option (SkewTree K V)) :=
  match trees1, trees2 with
  | h1 :: _, h2 :: _ =>
    iwrGo trees1.reverse trees2.reverse (max h1.order h2.order) 0 0 0
  | h1 :: _, [] =>
    (iwrOne trees1.reverse h1.order 0 0).map (fun o => (o, none))
  | [], h2 :: _ =>
    (iwrOne trees2.reverse h2.order 0 0).map
      (fun o => ((none : Option (SkewTree K V)), o))
  | [], [] => []

/-- The adder loop of `SkewBinomialHeap.extract_min`: fold the yielded
pairs through `_one_bit_full_adder` (dispatching to the skew `link`),
collecting the non-`None` position outputs. -/
def skewAdderFold [LinearOrder K]
    (pairs : List (Option (SkewTree K V) × Option (SkewTree K V))) :
    List (SkewTree K V) × Option (SkewTree K V) :=
  pairs.foldl
    (fun acc pr =>
      let tc := oneBitFullAdderG sLink pr.1 pr.2 acc.2
      (match tc.1 with
       | some t => acc.1 ++ [t]
       | none => acc.1,
       tc.2))
    ([], none)

/-- `for s in singletons: self._insert_singleton(s)`, stopping at the
first raised error. -/
def skewInsertAll [LinearOrder K] [DecidableEq K] [DecidableEq V]
    (s : SkewState K V) :
    List (SkewTree K V) → (Except PyErr Unit) × SkewState K V
  | [] => (.ok (), s)
  | t :: ts =>
    match skewInsertSingleton s t with
    | (.ok _, s2) => skewInsertAll s2 ts
    | (.error e, s2) => (.error e, s2)

/-- `SkewBinomialHeap.extract_min`.  The first statement
(`if not self.trees`) reads the `trees` attribute, so on every reachable
instance (where `trees` is unset) the call raises `AttributeError`
without mutating anything.  The rest transcribes the source: pick the
first minimal root, remove it with `list.pop(index)`, fracture its
children, split off the order-0 singletons of both operands, normalize
runs of equal-order trees by linking, check the order assertions, run the
ripple-carry adder over `iter_with_rank`, reverse the result and
re-insert the singletons, then decrement `size`.  (The Python
`while ...: raise ValueError` guard over trailing `None` entries can
never fire because the list elements are node objects.)  On an assertion
failure the state reflects the already performed `pop`, matching the
in-place mutation that precedes the asserts. -/
def skewExtractMin [LinearOrder K] [DecidableEq K] [DecidableEq V]
    (s : SkewState K V) : (Except PyErr (K × V)) × SkewState K V :=
  match s.trees with
  | none => (.error .attributeError, s)
  | some ts =>
    match ts with
    | [] => (.error .indexError, s)
    | t0 :: trest =>
      let mn := minTree t0 trest
      let idx := ts.findIdx (fun t => decide (t = mn))
      let fractures := mn.children
      let ts1 := ts.eraseIdx idx
      let fr2 :=
        (fractures.reverse).mergeSort (fun a b => decide (b.order ≤ a.order))
      let singletons1 := ts1.filter (fun t => decide (t.order = 0))
      let list1 := normalizeLinks (ts1.filter (fun t => decide (t.order ≠ 0)))
      let singletons2 := fr2.filter (fun t => decide (t.order = 0))
      let list2 := normalizeLinks (fr2.filter (fun t => decide (t.order ≠ 0)))
      if ((list1.map SkewTree.order).Nodup ∧ (list2.map SkewTree.order).Nodup
          ∧ isSortedDesc (list1.map SkewTree.order) = true
          ∧ isSortedDesc (list2.map SkewTree.order) = true) then
        let rc := skewAdderFold (iterWithRank list1 list2)
        let result :=
          match rc.2 with
          | some c => rc.1 ++ [c]
          | none => rc.1
        let s1 : SkewState K V := { s with trees := some result.reverse }
        match skewInsertAll s1 (singletons1 ++ singletons2) with
        | (.error e, s3) => (.error e, s3)
        | (.ok _, s3) => (.ok (mn.key, mn.value), { s3 with size := s3.size - 1 })
      else (.error .assertionError, { s with trees := some ts1 })

/-!
## Fibonacci heap (`fibonacci_heap.py`)

Nodes form cyclic pointer structures (a circular doubly linked root ring,
parent back-references), so the heap is embedded as an arena: the node
records live in a list, a node is addressed by its stable index, and the
pointer fields hold indices.  Python `is` comparisons become index
equality.  An extracted node stays in the arena (the Python object keeps
existing, merely unreachable), exactly as in the source.
-/

structure FNode (K V : Type) where
  key : K
  value : V
  degree : Nat
  marked : Bool
  parent : Option Nat
  child : Option Nat
  next : Nat
  prev : Nat
deriving DecidableEq

instance [Inhabited K] [Inhabited V] : Inhabited (FNode K V) :=
  ⟨⟨default, default, 0, false, none, none, 0, 0⟩⟩

structure FibHeap (K V : Type) where
  nodes : List (FNode K V)
  root : Option Nat
  size : Int
deriving DecidableEq

/-- `FibonacciHeap.__init__` with no items. -/
def fibInit : FibHeap K V := ⟨[], none, 0⟩

/-- Read the node record at index `i` (a stale or out-of-range index
yields a junk default record; the theorems carry range hypotheses where
this matters). -/
def getN [Inhabited K] [Inhabited V] (s : FibHeap K V) (i : Nat) : FNode K V :=
  s.nodes.getD i default

/-- Replace the record at index `i` (no-op when out of range, as such an
index never arises in the mirrored code paths). -/
def setN (s : FibHeap K V) (i : Nat) (n : FNode K V) : FibHeap K V :=
  { s with nodes := s.nodes.set i n }

def setNext [Inhabited K] [Inhabited V] (s : FibHeap K V) (i j : Nat) :
    FibHeap K V :=
  setN s i { getN s i with next := j }

def setPrev [Inhabited K] [Inhabited V] (s : FibHeap K V) (i j : Nat) :
    FibHeap K V :=
  setN s i { getN s i with prev := j }

def setParent [Inhabited K] [Inhabited V] (s : FibHeap K V) (i : Nat)
    (p : Option Nat) : FibHeap K V :=
  setN s i { getN s i with parent := p }

def setChild [Inhabited K] [Inhabited V] (s : FibHeap K V) (i : Nat)
    (c : Option Nat) : FibHeap K V :=
  setN s i { getN s i with child := c }

def setMarked [Inhabited K] [Inhabited V] (s : FibHeap K V) (i : Nat)
    (m : Bool) : FibHeap K V :=
  setN s i { getN s i with marked := m }

def setDegree [Inhabited K] [Inhabited V] (s : FibHeap K V) (i : Nat)
    (d : Nat) : FibHeap K V :=
  setN s i { getN s i with degree := d }

def setKey [Inhabited K] [Inhabited V] (s : FibHeap K V) (i : Nat)
    (k : K) : FibHeap K V :=
  setN s i { getN s i with key := k }

/-- `FibonacciHeap._merge_circular_doubly_linked_lists`: splice two
disjoint rings (`node1.next, node2.next = node2.next, node1.next`, then
repair the two `prev` pointers) and return the smaller-keyed of the two
entry nodes (`min` keeps its first argument on ties). -/
def mergeCDLL [LinearOrder K] [Inhabited K] [Inhabited V]
    (s : FibHeap K V) : Option Nat → Option Nat → FibHeap K V × Option Nat
  | none, n2 => (s, n2)
  | some i, none => (s, some i)
  | some i, some j =>
    let ni := (getN s i).next
    let nj := (getN s j).next
    let s1 := setNext s i nj
    let s2 := setNext s1 j ni
    let s3 := setPrev s2 (getN s2 i).next i
    let s4 := setPrev s3 (getN s3 j).next j
    (s4, some (if (getN s4 j).key < (getN s4 i).key then j else i))

/-- `FibonacciHeap.find_min`. -/
def fibFindMin [Inhabited K] [Inhabited V] (s : FibHeap K V) :
    Except PyErr (K × V) :=
  match s.root with
  | none => .error .indexError
  | some r => .ok ((getN s r).key, (getN s r).value)

/-- `FibonacciHeap.enqueue`: append a fresh self-ringed node to the arena,
splice it into the root ring, and return its index as the handle. -/
def fibEnqueue [LinearOrder K] [Inhabited K] [Inhabited V]
    (s : FibHeap K V) (k : K) (v : V) : FibHeap K V × Nat :=
  let i := s.nodes.length
  let nd : FNode K V := ⟨k, v, 0, false, none, none, i, i⟩
  let s1 : FibHeap K V := { s with nodes := s.nodes ++ [nd] }
  let m := mergeCDLL s1 s1.root (some i)
  ({ m.1 with root := m.2, size := s.size + 1 }, i)

/-- The parent-clearing loop of `extract_min`: walk the child ring of the
extracted minimum, setting every `parent` to `None`, until the walk
returns to the first child. -/
def clearParentsGo [Inhabited K] [Inhabited V] (stop : Nat) :
    Nat → FibHeap K V → Nat → Option (FibHeap K V)
  | 0, _, _ => none
  | fuel + 1, s, curr =>
    let s1 := setParent s curr none
    let nxt := (getN s1 curr).next
    if nxt = stop then some s1 else clearParentsGo stop fuel s1 nxt

/-- The traversal-snapshot loop of `extract_min`:
`while not to_visit or to_visit[0] is not curr: to_visit.append(curr);
curr = curr.next`. -/
def collectRing [Inhabited K] [Inhabited V] (s : FibHeap K V) :
    Nat → List Nat → Nat → Option (List Nat)
  | 0, _, _ => none
  | fuel + 1, acc, curr =>
    match acc.head? with
    | some first =>
      if first = curr then some acc
      else collectRing s fuel (acc ++ [curr]) ((getN s curr).next)
    | none => collectRing s fuel (acc ++ [curr]) ((getN s curr).next)

/-- `while curr.degree >= len(tree_table): tree_table.append(None)`. -/
def padTable (t : List (Option Nat)) (d : Nat) : List (Option Nat) :=
  t ++ List.replicate (d + 1 - t.length) none

/-- Break `maximum` out of the root list
(`maximum.next.prev = maximum.prev; maximum.prev.next = maximum.next`)
and make it a singleton ring. -/
def spliceOut [Inhabited K] [Inhabited V]
    (s : FibHeap K V) (maximum : Nat) : FibHeap K V :=
  let s := setPrev s (getN s maximum).next (getN s maximum).prev
  let s := setNext s (getN s maximum).prev (getN s maximum).next
  let s := setNext s maximum maximum
  setPrev s maximum maximum

/-- The body of one link in the consolidation: break `maximum` out of
the root list, make it a singleton, merge it into `minimum`'s child
list, re-parent it, clear its mark, and bump `minimum`'s degree. -/
def linkStep [LinearOrder K] [Inhabited K] [Inhabited V]
    (s : FibHeap K V) (minimum maximum : Nat) : FibHeap K V :=
  let s := spliceOut s maximum
  let m := mergeCDLL s (getN s minimum).child (some maximum)
  let s := setChild m.1 minimum m.2
  let s := setParent s maximum (some minimum)
  let s := setMarked s maximum false
  setDegree s minimum ((getN s minimum).degree + 1)

/-- The inner `while True` of the consolidation: keep linking the current
tree with the same-degree occupant of the degree table until a free slot
is found.  `min(curr, other)` keeps `curr` on ties and `max(other, curr)`
keeps `other`, so the two are always distinct nodes. -/
def innerCons [LinearOrder K] [Inhabited K] [Inhabited V] :
    Nat → FibHeap K V → List (Option Nat) → Nat →
    Option (FibHeap K V × List (Option Nat) × Nat)
  | 0, _, _, _ => none
  | fuel + 1, s, table, curr =>
    let d := (getN s curr).degree
    let table1 := padTable table d
    match table1.getD d none with
    | none => some (s, table1.set d (some curr), curr)
    | some other =>
      let table2 := table1.set d none
      let minimum := if (getN s other).key < (getN s curr).key then other
        else curr
      let maximum := if (getN s other).key < (getN s curr).key then curr
        else other
      innerCons fuel (linkStep s minimum maximum) table2 minimum

/-- The outer consolidation loop: process each snapshot root, then update
the tracked minimum with `if curr.key <= self.root.key: self.root = curr`
(the non-strict comparison moves the pointer onto the root-level node
after an equal-key link). -/
def consLoop [LinearOrder K] [Inhabited K] [Inhabited V] (fuel : Nat) :
    FibHeap K V → List (Option Nat) → List Nat → Nat →
    Option (FibHeap K V × Nat)
  | s, _, [], root => some (s, root)
  | s, table, curr :: rest, root =>
    match innerCons fuel s table curr with
    | none => none
    | some (s2, table2, curr2) =>
      let root2 := if (getN s2 curr2).key ≤ (getN s2 root).key then curr2
        else root
      consLoop fuel s2 table2 rest root2

/-- `FibonacciHeap.extract_min`.  Returns `none` when a loop exceeds its
fuel (which only happens on malformed rings, where the Python loop would
not terminate); otherwise mirrors the source: detach the minimum from the
ring, clear the parent pointers of its children, splice the children into the
ring, and consolidate when the ring is non-empty. -/
def fibExtractMin [LinearOrder K] [Inhabited K] [Inhabited V]
    (fuel : Nat) (s : FibHeap K V) :
    Option ((Except PyErr (K × V)) × FibHeap K V) :=
  match s.root with
  | none => some (.error .indexError, s)
  | some m =>
    let s := { s with size := s.size - 1 }
    let step1 : FibHeap K V × Option Nat :=
      if (getN s m).next = m then (s, none)
      else
        let sA := setNext s (getN s m).prev (getN s m).next
        let sB := setPrev sA (getN sA m).next (getN sA m).prev
        (sB, some ((getN sB m).next))
    let s1 := step1.1
    let cleared : Option (FibHeap K V) :=
      match (getN s1 m).child with
      | none => some s1
      | some c => clearParentsGo c fuel s1 c
    match cleared with
    | none => none
    | some s2 =>
      let m2 := mergeCDLL s2 step1.2 ((getN s2 m).child)
      let s3 : FibHeap K V := { m2.1 with root := m2.2 }
      match m2.2 with
      | none => some (.ok ((getN s3 m).key, (getN s3 m).value), s3)
      | some r =>
        match collectRing s3 fuel [] r with
        | none => none
        | some toVisit =>
          match consLoop fuel s3 [] toVisit r with
          | none => none
          | some (s4, rootF) =>
            some (.ok ((getN s4 m).key, (getN s4 m).value),
              { s4 with root := some rootF })

/-- `FibonacciHeap.__contains__`: a stack seeded with `self.root`; each
popped node pushes its `child` and then its `next`, with no visited set.
The stack top is the list head; fuel models divergence. -/
def fibContainsGo [Inhabited K] [Inhabited V] [DecidableEq K]
    (s : FibHeap K V) (x : K) :
    Nat → List (Option Nat) → Option Bool
  | 0, _ => none
  | _ + 1, [] => some false
  | fuel + 1, none :: rest => fibContainsGo s x fuel rest
  | fuel + 1, some i :: rest =>
    if (getN s i).key = x then some true
    else fibContainsGo s x fuel
      (some ((getN s i).next) :: (getN s i).child :: rest)

/-- `key in heap` for the Fibonacci engine. -/
def fibContains [Inhabited K] [Inhabited V] [DecidableEq K]
    (s : FibHeap K V) (x : K) (fuel : Nat) : Option Bool :=
  fibContainsGo s x fuel [s.root]

/-- Build a Fibonacci heap by `enqueue`-ing a list of keys. -/
def fibFromList (ks : List Int) : FibHeap Int Unit :=
  ks.foldl (fun s k => (fibEnqueue s k ()).1) fibInit

/-- `Heap.sorted` for the Fibonacci engine, collected into a key list;
the outer fuel bounds the number of extractions and each extraction gets
an inner fuel of 100. -/
def fibSortedKeys : Nat → FibHeap Int Unit → List Int
  | 0, _ => []
  | fuel + 1, s =>
    if s.size > 0 then
      match fibExtractMin 100 s with
      | some (.ok (k, _), s2) => k :: fibSortedKeys fuel s2
      | _ => []
    else []

/-!
## Decrease-key (modelled from the spec)

`fibonacci_heap.py` contains no `decrease_key` method at all; only the
private helper `_cascading_cut` exists.  The following three definitions
model the missing operation from the specification (section 4.4), using
the same arena primitives; the pointer mechanics of a single cut follow
the wording of the spec, which matches the cut steps of the existing
`_cascading_cut` helper.
-/

/-- Modelled from the spec: the sibling-ring splice of the cut step of
`decrease_key` (the node is spliced out of the child ring of its former
parent; the old neighbour pointers are read before being overwritten). -/
def cutSplice [LinearOrder K] [Inhabited K] [Inhabited V]
    (s : FibHeap K V) (i : Nat) : FibHeap K V :=
  if (getN s i).next ≠ i then
    setNext (setPrev s ((getN s i).next) ((getN s i).prev)) ((getN s i).prev)
      ((getN s i).next)
  else s

/-- Modelled from the spec: repair the `child` pointer of the former
parent when it pointed at the node being cut. -/
def cutFixChild [LinearOrder K] [Inhabited K] [Inhabited V]
    (s : FibHeap K V) (p i : Nat) : FibHeap K V :=
  if (getN s p).child = some i then
    (if (getN s i).next ≠ i then setChild s p (some ((getN s i).next))
     else setChild s p none)
  else s

/-- Modelled from the spec: the cut step of `decrease_key`, an operation
missing from the source.  Remove the node from the child list of its
parent, decrement the degree of the former parent, clear the mark of the
node, make it a singleton ring, splice it into the root ring, and clear
its parent pointer. -/
def cutNode [LinearOrder K] [Inhabited K] [Inhabited V]
    (s : FibHeap K V) (i : Nat) : FibHeap K V :=
  match (getN s i).parent with
  | none => s
  | some p =>
    let s1 := cutSplice s i
    let s2 := cutFixChild s1 p i
    let s3 := setDegree s2 p ((getN s2 p).degree - 1)
    let s4 := setMarked s3 i false
    let s5 := setPrev (setNext s4 i i) i i
    let m := mergeCDLL s5 s5.root (some i)
    let s6 : FibHeap K V := { m.1 with root := m.2 }
    setParent s6 i none

/-- Modelled from the spec: the cascading cut of `decrease_key` (an
operation missing from the source), applied to the former parent of a
node that was just cut: while the current node is a marked non-root, cut
it too and continue with its former parent; otherwise mark it and stop.
The fuel bounds the parent-chain walk. -/
def cascadeFrom [LinearOrder K] [Inhabited K] [Inhabited V] :
    Nat → FibHeap K V → Nat → Option (FibHeap K V)
  | 0, _, _ => none
  | fuel + 1, s, p =>
    match (getN s p).parent, (getN s p).marked with
    | some pp, true => cascadeFrom fuel (cutNode s p) pp
    | some _, false => some (setMarked s p true)
    | none, _ => some (setMarked s p true)

/-- Modelled from the spec: `decrease_key(handle, new_key)`, an operation
missing from the source.  A `new_key` greater than the current key is
rejected (the spec's `KeyIncreaseRejected`, modelled as `valueError`).
Otherwise overwrite the key in place; if the node is a root, update the
minimum pointer when the new key is smaller than the key of the current
minimum; if the node has a parent and the new key violates heap order
relative to the parent, cut the node and cascading-cut the former
parent.  The outer `Option` is fuel exhaustion of the cascading walk. -/
def fibDecreaseKey [LinearOrder K] [Inhabited K] [Inhabited V]
    (fuel : Nat) (s : FibHeap K V) (i : Nat) (v : K) :
    Option (Except PyErr (FibHeap K V)) :=
  if (getN s i).key < v then some (.error .valueError)
  else
    let s1 := setKey s i v
    match (getN s1 i).parent with
    | none =>
      match s1.root with
      | none => some (.ok s1)
      | some r =>
        some (.ok (if v < (getN s1 r).key then { s1 with root := some i }
          else s1))
    | some p =>
      if v < (getN s1 p).key then (cascadeFrom fuel (cutNode s1 i) p).map .ok
      else some (.ok s1)

/-!
## Arena bookkeeping lemmas

Field-preservation facts about the setters, used by the decrease-key
theorem: every setter leaves `root`, `size` and the arena length alone,
and a setter that does not write a given field leaves that field of every
node unchanged.
-/

variable [LinearOrder K] [Inhabited K] [Inhabited V]

theorem getN_setN (s : FibHeap K V) (i : Nat) (n : FNode K V) (k : Nat) :
    getN (setN s i n) k = if i = k ∧ i < s.nodes.length then n else getN s k := by
  unfold getN setN
  rcases Nat.lt_or_ge i s.nodes.length with h | h
  · rcases eq_or_ne i k with rfl | hne
    · simp [List.getD_eq_getElem?_getD, List.getElem?_set_self', h]
    · simp [List.getD_eq_getElem?_getD, List.getElem?_set_ne hne, hne]
  · rw [List.set_eq_of_length_le h]
    have hc : ¬ (i = k ∧ i < s.nodes.length) :=
      fun hc => absurd hc.2 (Nat.not_lt.mpr h)
    simp [hc]

theorem setN_length (s : FibHeap K V) (i : Nat) (n : FNode K V) :
    (setN s i n).nodes.length = s.nodes.length := by
  simp [setN]

theorem setN_root (s : FibHeap K V) (i : Nat) (n : FNode K V) :
    (setN s i n).root = s.root := rfl

theorem setN_size (s : FibHeap K V) (i : Nat) (n : FNode K V) :
    (setN s i n).size = s.size := rfl

theorem getN_setN_proj {A : Type} (f : FNode K V → A) (s : FibHeap K V)
    (i : Nat) (n : FNode K V) (h : f n = f (getN s i)) (k : Nat) :
    f (getN (setN s i n) k) = f (getN s k) := by
  rw [getN_setN]
  split
  · rename_i hc
    rw [h, hc.1]
  · rfl

theorem root_setNext (t : FibHeap K V) (i j : Nat) :
    (setNext t i j).root = t.root := rfl

theorem root_setPrev (t : FibHeap K V) (i j : Nat) :
    (setPrev t i j).root = t.root := rfl

theorem root_setChild (t : FibHeap K V) (i : Nat) (c : Option Nat) :
    (setChild t i c).root = t.root := rfl

theorem root_setMarked (t : FibHeap K V) (i : Nat) (m : Bool) :
    (setMarked t i m).root = t.root := rfl

theorem root_setDegree (t : FibHeap K V) (i d : Nat) :
    (setDegree t i d).root = t.root := rfl

theorem root_setParent (t : FibHeap K V) (i : Nat) (p : Option Nat) :
    (setParent t i p).root = t.root := rfl

theorem key_setNext (t : FibHeap K V) (i j k : Nat) :
    (getN (setNext t i j) k).key = (getN t k).key :=
  getN_setN_proj FNode.key t i { getN t i with next := j } rfl k

theorem key_setPrev (t : FibHeap K V) (i j k : Nat) :
    (getN (setPrev t i j) k).key = (getN t k).key :=
  getN_setN_proj FNode.key t i { getN t i with prev := j } rfl k

theorem key_setChild (t : FibHeap K V) (i : Nat) (c : Option Nat) (k : Nat) :
    (getN (setChild t i c) k).key = (getN t k).key :=
  getN_setN_proj FNode.key t i { getN t i with child := c } rfl k

theorem key_setMarked (t : FibHeap K V) (i : Nat) (m : Bool) (k : Nat) :
    (getN (setMarked t i m) k).key = (getN t k).key :=
  getN_setN_proj FNode.key t i { getN t i with marked := m } rfl k

theorem key_setDegree (t : FibHeap K V) (i d k : Nat) :
    (getN (setDegree t i d) k).key = (getN t k).key :=
  getN_setN_proj FNode.key t i { getN t i with degree := d } rfl k

theorem key_setParent (t : FibHeap K V) (i : Nat) (p : Option Nat) (k : Nat) :
    (getN (setParent t i p) k).key = (getN t k).key :=
  getN_setN_proj FNode.key t i { getN t i with parent := p } rfl k

theorem value_setNext (t : FibHeap K V) (i j k : Nat) :
    (getN (setNext t i j) k).value = (getN t k).value :=
  getN_setN_proj FNode.value t i { getN t i with next := j } rfl k

theorem value_setPrev (t : FibHeap K V) (i j k : Nat) :
    (getN (setPrev t i j) k).value = (getN t k).value :=
  getN_setN_proj FNode.value t i { getN t i with prev := j } rfl k

theorem value_setChild (t : FibHeap K V) (i : Nat) (c : Option Nat) (k : Nat) :
    (getN (setChild t i c) k).value = (getN t k).value :=
  getN_setN_proj FNode.value t i { getN t i with child := c } rfl k

theorem value_setMarked (t : FibHeap K V) (i : Nat) (m : Bool) (k : Nat) :
    (getN (setMarked t i m) k).value = (getN t k).value :=
  getN_setN_proj FNode.value t i { getN t i with marked := m } rfl k

theorem value_setDegree (t : FibHeap K V) (i d k : Nat) :
    (getN (setDegree t i d) k).value = (getN t k).value :=
  getN_setN_proj FNode.value t i { getN t i with degree := d } rfl k

theorem value_setParent (t : FibHeap K V) (i : Nat) (p : Option Nat) (k : Nat) :
    (getN (setParent t i p) k).value = (getN t k).value :=
  getN_setN_proj FNode.value t i { getN t i with parent := p } rfl k

theorem parent_setNext (t : FibHeap K V) (i j k : Nat) :
    (getN (setNext t i j) k).parent = (getN t k).parent :=
  getN_setN_proj FNode.parent t i { getN t i with next := j } rfl k

theorem parent_setPrev (t : FibHeap K V) (i j k : Nat) :
    (getN (setPrev t i j) k).parent = (getN t k).parent :=
  getN_setN_proj FNode.parent t i { getN t i with prev := j } rfl k

theorem parent_setChild (t : FibHeap K V) (i : Nat) (c : Option Nat) (k : Nat) :
    (getN (setChild t i c) k).parent = (getN t k).parent :=
  getN_setN_proj FNode.parent t i { getN t i with child := c } rfl k

theorem parent_setMarked (t : FibHeap K V) (i : Nat) (m : Bool) (k : Nat) :
    (getN (setMarked t i m) k).parent = (getN t k).parent :=
  getN_setN_proj FNode.parent t i { getN t i with marked := m } rfl k

theorem parent_setDegree (t : FibHeap K V) (i d k : Nat) :
    (getN (setDegree t i d) k).parent = (getN t k).parent :=
  getN_setN_proj FNode.parent t i { getN t i with degree := d } rfl k

theorem length_setNext (t : FibHeap K V) (i j : Nat) :
    (setNext t i j).nodes.length = t.nodes.length := setN_length ..

theorem length_setPrev (t : FibHeap K V) (i j : Nat) :
    (setPrev t i j).nodes.length = t.nodes.length := setN_length ..

theorem length_setChild (t : FibHeap K V) (i : Nat) (c : Option Nat) :
    (setChild t i c).nodes.length = t.nodes.length := setN_length ..

theorem length_setMarked (t : FibHeap K V) (i : Nat) (m : Bool) :
    (setMarked t i m).nodes.length = t.nodes.length := setN_length ..

theorem length_setDegree (t : FibHeap K V) (i d : Nat) :
    (setDegree t i d).nodes.length = t.nodes.length := setN_length ..

theorem length_setParent (t : FibHeap K V) (i : Nat) (p : Option Nat) :
    (setParent t i p).nodes.length = t.nodes.length := setN_length ..

/-- Observable-node agreement with a base state: same arena length, same
key and value at every index, and every parent pointer either unchanged
or cleared.  The cut and cascading-cut steps of decrease-key only rewire
ring pointers, marks, degrees and child pointers, so they preserve this
relation. -/
def ObsEq (B t : FibHeap K V) : Prop :=
  t.nodes.length = B.nodes.length ∧
  (∀ k, (getN t k).key = (getN B k).key) ∧
  (∀ k, (getN t k).value = (getN B k).value) ∧
  (∀ k, (getN t k).parent = (getN B k).parent ∨ (getN t k).parent = none)

theorem obsEq_refl (B : FibHeap K V) : ObsEq B B :=
  ⟨rfl, fun _ => rfl, fun _ => rfl, fun _ => Or.inl rfl⟩

theorem obsEq_setNext {B t : FibHeap K V} (h : ObsEq B t) (i j : Nat) :
    ObsEq B (setNext t i j) := by
  obtain ⟨hl, hk, hv, hp⟩ := h
  exact ⟨(length_setNext t i j).trans hl,
    fun k => (key_setNext t i j k).trans (hk k),
    fun k => (value_setNext t i j k).trans (hv k),
    fun k => (parent_setNext t i j k) ▸ hp k⟩

theorem obsEq_setPrev {B t : FibHeap K V} (h : ObsEq B t) (i j : Nat) :
    ObsEq B (setPrev t i j) := by
  obtain ⟨hl, hk, hv, hp⟩ := h
  exact ⟨(length_setPrev t i j).trans hl,
    fun k => (key_setPrev t i j k).trans (hk k),
    fun k => (value_setPrev t i j k).trans (hv k),
    fun k => (parent_setPrev t i j k) ▸ hp k⟩

theorem obsEq_setChild {B t : FibHeap K V} (h : ObsEq B t) (i : Nat)
    (c : Option Nat) : ObsEq B (setChild t i c) := by
  obtain ⟨hl, hk, hv, hp⟩ := h
  exact ⟨(length_setChild t i c).trans hl,
    fun k => (key_setChild t i c k).trans (hk k),
    fun k => (value_setChild t i c k).trans (hv k),
    fun k => (parent_setChild t i c k) ▸ hp k⟩

theorem obsEq_setMarked {B t : FibHeap K V} (h : ObsEq B t) (i : Nat)
    (m : Bool) : ObsEq B (setMarked t i m) := by
  obtain ⟨hl, hk, hv, hp⟩ := h
  exact ⟨(length_setMarked t i m).trans hl,
    fun k => (key_setMarked t i m k).trans (hk k),
    fun k => (value_setMarked t i m k).trans (hv k),
    fun k => (parent_setMarked t i m k) ▸ hp k⟩

theorem obsEq_setDegree {B t : FibHeap K V} (h : ObsEq B t) (i d : Nat) :
    ObsEq B (setDegree t i d) := by
  obtain ⟨hl, hk, hv, hp⟩ := h
  exact ⟨(length_setDegree t i d).trans hl,
    fun k => (key_setDegree t i d k).trans (hk k),
    fun k => (value_setDegree t i d k).trans (hv k),
    fun k => (parent_setDegree t i d k) ▸ hp k⟩

theorem parent_setParentNone (t : FibHeap K V) (i k : Nat) :
    (getN (setParent t i none) k).parent = (getN t k).parent ∨
      (getN (setParent t i none) k).parent = none := by
  unfold setParent
  rw [getN_setN]
  split
  · exact Or.inr rfl
  · exact Or.inl rfl

theorem obsEq_setParentNone {B t : FibHeap K V} (h : ObsEq B t) (i : Nat) :
    ObsEq B (setParent t i none) := by
  obtain ⟨hl, hk, hv, hp⟩ := h
  refine ⟨(length_setParent t i none).trans hl,
    fun k => (key_setParent t i none k).trans (hk k),
    fun k => (value_setParent t i none k).trans (hv k),
    fun k => ?_⟩
  rcases parent_setParentNone t i k with h2 | h2
  · rw [h2]; exact hp k
  · exact Or.inr h2

theorem obsEq_withRoot {B t : FibHeap K V} (h : ObsEq B t) (r : Option Nat) :
    ObsEq B { t with root := r } := h

theorem obsEq_mergeCDLL {B t : FibHeap K V} (h : ObsEq B t)
    (a b : Option Nat) : ObsEq B (mergeCDLL t a b).1 := by
  cases a with
  | none => exact h
  | some i =>
    cases b with
    | none => exact h
    | some j =>
      exact obsEq_setPrev (obsEq_setPrev (obsEq_setNext (obsEq_setNext h ..) ..) ..) ..

theorem root_mergeCDLL (t : FibHeap K V) (a b : Option Nat) :
    (mergeCDLL t a b).1.root = t.root := by
  cases a with
  | none => rfl
  | some i => cases b with
    | none => rfl
    | some j => rfl

theorem snd_mergeCDLL (t : FibHeap K V) (x y : Nat) :
    (mergeCDLL t (some x) (some y)).2 =
      some (if (getN t y).key < (getN t x).key then y else x) := by
  show (_, some (if _ < _ then y else x)).2 = _
  simp only [key_setPrev, key_setNext]

theorem value_setKey (t : FibHeap K V) (i : Nat) (v : K) (k : Nat) :
    (getN (setKey t i v) k).value = (getN t k).value :=
  getN_setN_proj FNode.value t i { getN t i with key := v } rfl k

theorem parent_setKey (t : FibHeap K V) (i : Nat) (v : K) (k : Nat) :
    (getN (setKey t i v) k).parent = (getN t k).parent :=
  getN_setN_proj FNode.parent t i { getN t i with key := v } rfl k

theorem key_setKey_self (t : FibHeap K V) (i : Nat) (v : K)
    (h : i < t.nodes.length) : (getN (setKey t i v) i).key = v := by
  unfold setKey
  rw [getN_setN]
  simp [h]

theorem key_setKey_ne (t : FibHeap K V) (i : Nat) (v : K) (k : Nat)
    (h : i ≠ k) : (getN (setKey t i v) k).key = (getN t k).key := by
  unfold setKey
  rw [getN_setN]
  simp [h]

theorem root_setKey (t : FibHeap K V) (i : Nat) (v : K) :
    (setKey t i v).root = t.root := rfl

theorem length_setKey (t : FibHeap K V) (i : Nat) (v : K) :
    (setKey t i v).nodes.length = t.nodes.length := setN_length ..

theorem obsEq_cutSplice {B t : FibHeap K V} (h : ObsEq B t) (i : Nat) :
    ObsEq B (cutSplice t i) := by
  unfold cutSplice
  split_ifs
  · exact obsEq_setNext (obsEq_setPrev h ..) ..
  · exact h

theorem root_cutSplice (t : FibHeap K V) (i : Nat) :
    (cutSplice t i).root = t.root := by
  unfold cutSplice
  split_ifs <;> simp [root_setNext, root_setPrev]

theorem key_cutSplice (t : FibHeap K V) (i k : Nat) :
    (getN (cutSplice t i) k).key = (getN t k).key := by
  unfold cutSplice
  split_ifs <;> simp [key_setNext, key_setPrev]

theorem obsEq_cutFixChild {B t : FibHeap K V} (h : ObsEq B t) (p i : Nat) :
    ObsEq B (cutFixChild t p i) := by
  unfold cutFixChild
  split_ifs
  · exact obsEq_setChild h ..
  · exact obsEq_setChild h ..
  · exact h

theorem root_cutFixChild (t : FibHeap K V) (p i : Nat) :
    (cutFixChild t p i).root = t.root := by
  unfold cutFixChild
  split_ifs <;> simp [root_setChild]

theorem key_cutFixChild (t : FibHeap K V) (p i k : Nat) :
    (getN (cutFixChild t p i) k).key = (getN t k).key := by
  unfold cutFixChild
  split_ifs <;> simp [key_setChild]

theorem obsEq_cutNode {B t : FibHeap K V} (h : ObsEq B t) (i : Nat) :
    ObsEq B (cutNode t i) := by
  unfold cutNode
  cases hp : (getN t i).parent with
  | none => exact h
  | some p =>
    exact obsEq_setParentNone
      (obsEq_withRoot
        (obsEq_mergeCDLL
          (obsEq_setPrev
            (obsEq_setNext
              (obsEq_setMarked
                (obsEq_setDegree
                  (obsEq_cutFixChild (obsEq_cutSplice h ..) ..) ..) ..) ..)
            ..) ..) _) _

theorem cutNode_root (t : FibHeap K V) (i p x : Nat)
    (hp : (getN t i).parent = some p) (hr : t.root = some x) :
    (cutNode t i).root =
      some (if (getN t i).key < (getN t x).key then i else x) := by
  unfold cutNode
  rw [hp]
  simp only [root_setParent, root_setPrev, root_setNext, root_setMarked,
    root_setDegree, root_cutFixChild, root_cutSplice, hr, snd_mergeCDLL,
    key_setPrev, key_setNext, key_setMarked, key_setDegree,
    key_cutFixChild, key_cutSplice]

theorem cascadeFrom_inv (B : FibHeap K V) (i : Nat) (L : List Nat)
    (hkmin : ∀ j ∈ L, j ≠ i → (getN B i).key < (getN B j).key)
    (hpar : ∀ j ∈ L, ∀ q, (getN B j).parent = some q → q ∈ L) :
    ∀ fuel (t : FibHeap K V) (p : Nat) (t2 : FibHeap K V), ObsEq B t →
      t.root = some i → p ∈ L →
      cascadeFrom fuel t p = some t2 → ObsEq B t2 ∧ t2.root = some i := by
  intro fuel
  induction fuel with
  | zero =>
    intro t p t2 _ _ _ hout
    exact absurd hout (by simp [cascadeFrom])
  | succ n ih =>
    intro t p t2 hobs hroot hp hout
    rw [cascadeFrom] at hout
    cases hpp : (getN t p).parent with
    | none =>
      rw [hpp] at hout
      simp only [] at hout
      cases hout
      exact ⟨obsEq_setMarked hobs .., (root_setMarked t p true).trans hroot⟩
    | some pp =>
      rw [hpp] at hout
      cases hm : (getN t p).marked with
      | false =>
        rw [hm] at hout
        simp only [] at hout
        cases hout
        exact ⟨obsEq_setMarked hobs .., (root_setMarked t p true).trans hroot⟩
      | true =>
        rw [hm] at hout
        simp only [] at hout
        have hcutroot : (cutNode t p).root = some i := by
          rw [cutNode_root t p pp i hpp hroot]
          have hkeq : ¬ (getN t p).key < (getN t i).key := by
            rcases eq_or_ne p i with rfl | hne
            · exact lt_irrefl _
            · rw [hobs.2.1 p, hobs.2.1 i]
              exact not_lt.mpr (le_of_lt (hkmin p hp hne))
          simp [hkeq]
        have hppB : (getN B p).parent = some pp := by
          rcases hobs.2.2.2 p with h2 | h2
          · rw [← h2]; exact hpp
          · rw [h2] at hpp; cases hpp
        exact ih (cutNode t p) pp t2 (obsEq_cutNode hobs p)
          hcutroot (hpar p hp pp hppB) hout

theorem root_withRoot (t : FibHeap K V) (r : Option Nat) :
    ({ t with root := r } : FibHeap K V).root = r := rfl

theorem getN_withRoot (t : FibHeap K V) (r : Option Nat) (k : Nat) :
    getN { t with root := r } k = getN t k := rfl

theorem fibFindMin_eq (t : FibHeap K V) (r : Nat) (h : t.root = some r) :
    fibFindMin t = .ok ((getN t r).key, (getN t r).value) := by
  unfold fibFindMin
  rw [h]

/-- C2: on the Fibonacci engine, decreasing the key of a present node to a
value below the key of every present node (equivalently, below the
current global minimum) makes `find_min` return the new key together
with the value stored at that node.  `decrease_key` is modelled from the
spec (the source has no such method).  The hypotheses quantify only over
a designated set `L` of present nodes — on a reachable heap, the nodes
of the realized forest, which excludes extracted ghost arena slots — and
express that the state is well formed there: the handle and the root
belong to `L`, members of `L` are in range, parent pointers of present
nodes stay inside `L` and are not self-referential, `v` is strictly
below the key of every present node, and the cascading-cut walk
terminates within the given fuel. -/
theorem fib_decrease_key_new_min (s : FibHeap K V) (i r : Nat) (v : K)
    (fuel : Nat) (s2 : FibHeap K V) (L : List Nat)
    (hL : ∀ j ∈ L, j < s.nodes.length)
    (hiL : i ∈ L)
    (hr : s.root = some r)
    (hrL : r ∈ L)
    (hpi : (getN s i).parent ≠ some i)
    (hpar : ∀ j ∈ L, ∀ q, (getN s j).parent = some q → q ∈ L)
    (hmin : ∀ j ∈ L, v < (getN s j).key)
    (hout : fibDecreaseKey fuel s i v = some (.ok s2)) :
    fibFindMin s2 = .ok (v, (getN s i).value) := by
  have hi : i < s.nodes.length := hL i hiL
  unfold fibDecreaseKey at hout
  rw [if_neg (lt_asymm (hmin i hiL))] at hout
  dsimp only [] at hout
  rw [parent_setKey] at hout
  have hk1i : (getN (setKey s i v) i).key = v := key_setKey_self s i v hi
  cases hcase : (getN s i).parent with
  | none =>
    rw [hcase] at hout
    dsimp only [] at hout
    rw [root_setKey, hr] at hout
    dsimp only [] at hout
    rcases eq_or_ne r i with rfl | hne
    · rw [hk1i] at hout
      simp only [lt_irrefl, if_false, Option.some.injEq,
        Except.ok.injEq] at hout
      subst hout
      rw [fibFindMin_eq (setKey s r v) r (by rw [root_setKey, hr])]
      rw [hk1i, value_setKey]
    · rw [key_setKey_ne s i v r (Ne.symm hne)] at hout
      rw [if_pos (hmin r hrL)] at hout
      simp only [Option.some.injEq, Except.ok.injEq] at hout
      subst hout
      rw [fibFindMin_eq _ i (root_withRoot (setKey s i v) (some i))]
      rw [getN_withRoot, getN_withRoot, hk1i, value_setKey]
  | some p =>
    rw [hcase] at hout
    dsimp only [] at hout
    have hpne : p ≠ i := fun he => hpi (he ▸ hcase)
    have hpL : p ∈ L := hpar i hiL p hcase
    rw [key_setKey_ne s i v p (Ne.symm hpne)] at hout
    rw [if_pos (hmin p hpL)] at hout
    cases hc : cascadeFrom fuel (cutNode (setKey s i v) i) p with
    | none =>
      rw [hc] at hout
      exact absurd hout (by simp)
    | some t =>
      rw [hc] at hout
      simp only [Option.map_some', Option.some.injEq,
        Except.ok.injEq] at hout
      subst hout
      have hp1 : (getN (setKey s i v) i).parent = some p := by
        rw [parent_setKey, hcase]
      have hr1 : (setKey s i v).root = some r := by rw [root_setKey, hr]
      have hcut : (cutNode (setKey s i v) i).root = some i := by
        rw [cutNode_root (setKey s i v) i p r hp1 hr1]
        rcases eq_or_ne r i with rfl | hne
        · simp [lt_irrefl]
        · rw [hk1i, key_setKey_ne s i v r (Ne.symm hne)]
          rw [if_pos (hmin r hrL)]
      have hinv := cascadeFrom_inv (setKey s i v) i L
        (by
          intro j hj hji
          rw [hk1i, key_setKey_ne s i v j (Ne.symm hji)]
          exact hmin j hj)
        (by
          intro j hj q hq
          rw [parent_setKey] at hq
          exact hpar j hj q hq)
        fuel (cutNode (setKey s i v) i) p t
        (obsEq_cutNode (obsEq_refl (setKey s i v)) i)
        hcut hpL hc
      obtain ⟨hobs2, hroot2⟩ := hinv
      rw [fibFindMin_eq t i hroot2]
      rw [hobs2.2.1 i, hobs2.2.2.1 i, hk1i, value_setKey]

/-- A Fibonacci heap with keys 1, 5 and 10 enqueued, for the
decrease-key witness. -/
def fibW0 : FibHeap Int Unit :=
  (fibEnqueue (fibEnqueue (fibEnqueue fibInit 1 ()).1 5 ()).1 10 ()).1

/-- The reachable state after one `extract_min`: arena slot 0 holds the
extracted ghost key 1, and the present nodes are slot 1 (key 5, the
designated root) and slot 2 (key 10, its child after consolidation). -/
def fibW1 : FibHeap Int Unit :=
  ((fibExtractMin 20 fibW0).getD (Except.error PyErr.indexError, fibW0)).2

/-- The state after decreasing the key of slot 2 to 3: below the current
global minimum 5, though not below the extracted ghost key 1. -/
def fibW2 : FibHeap Int Unit :=
  match fibDecreaseKey 5 fibW1 2 3 with
  | some (Except.ok t) => t
  | _ => fibW1

theorem fib_decrease_key_new_min_witness : fibFindMin fibW2 = .ok (3, ()) := by
  have h := fib_decrease_key_new_min fibW1 2 1 3 5 fibW2 [1, 2]
    (by decide) (by decide) rfl (by decide) (by decide)
    (by
      intro j hj q hq
      rcases List.mem_cons.1 hj with rfl | hj2
      · rw [show (getN fibW1 1).parent = none from rfl] at hq
        cases hq
      · rcases List.mem_cons.1 hj2 with rfl | hj3
        · rw [show (getN fibW1 2).parent = some 1 from rfl] at hq
          injection hq with h2
          subst h2
          decide
        · exact absurd hj3 (by simp))
    (by decide)
    rfl
  exact h

/-!
## Claim theorems
-/

theorem BTree.count_pos (t : BTree K V) : 1 ≤ t.count := by
  cases t
  rw [BTree.count]
  omega

theorem count_bLink [LinearOrder K] (t u : BTree K V) :
    (bLink t u).count = t.count + u.count := by
  cases t with
  | node k1 v1 c1 =>
    cases u with
    | node k2 v2 c2 =>
      unfold bLink
      split_ifs <;>
        simp [BTree.count, BTree.countList, BTree.key, BTree.value,
          BTree.children] <;> omega

/-- A one-node binomial tree with an integer key. -/
def leafI (k : Int) : BTree Int Unit := .node k () []

/-- C4 counterexample: with all three inputs present (three singleton
trees with keys 1, 2, 3), the adder emits the incoming carry itself,
unlinked, as the tree at this position (`(some c, some (a.link b))` in
the source), so the position output is not the link of any two trees,
contradicting the claim that with three present the other two are linked
to produce the tree at this position. -/
theorem bin_full_adder_three_cex :
    (oneBitFullAdderG bLink (some (leafI 1)) (some (leafI 2))
        (some (leafI 3))).1 = some (leafI 3)
    ∧ (oneBitFullAdderG bLink (some (leafI 1)) (some (leafI 2))
        (some (leafI 3))).2 = some (bLink (leafI 1) (leafI 2))
    ∧ ¬ (∃ t u : BTree Int Unit,
        (oneBitFullAdderG bLink (some (leafI 1)) (some (leafI 2))
          (some (leafI 3))).1 = some (bLink t u)) := by
  refine ⟨rfl, rfl, ?_⟩
  rintro ⟨t, u, h⟩
  rw [show (oneBitFullAdderG bLink (some (leafI 1)) (some (leafI 2))
    (some (leafI 3))).1 = some (leafI 3) from rfl] at h
  have h2 : leafI 3 = bLink t u := Option.some.inj h
  have h3 := congrArg BTree.count h2
  rw [count_bLink] at h3
  have h4 := BTree.count_pos t
  have h5 := BTree.count_pos u
  rw [show (leafI 3).count = 1 from rfl] at h3
  omega

/-- C4 (amended): the one-bit full adder passes a lone tree (or nothing)
through with no carry; with exactly two trees present it links them into
the carry for the next position and emits no tree at this position; with
all three present the incoming carry passes through unchanged as the tree
at this position while the trees from the two forests are linked into the
next carry.  Linking adds the node counts (the linked tree has the next
order) and makes the larger-key root the leftmost child of the
smaller-or-equal-key root. -/
theorem bin_full_adder_cases [LinearOrder K] (a b c : BTree K V) :
    oneBitFullAdderG bLink (none : Option (BTree K V)) none none
        = (none, none)
    ∧ oneBitFullAdderG bLink (some a) none none = (some a, none)
    ∧ oneBitFullAdderG bLink none (some b) none = (some b, none)
    ∧ oneBitFullAdderG bLink none none (some c) = (some c, none)
    ∧ oneBitFullAdderG bLink (some a) (some b) none
        = (none, some (bLink a b))
    ∧ oneBitFullAdderG bLink (some a) none (some c)
        = (none, some (bLink a c))
    ∧ oneBitFullAdderG bLink none (some b) (some c)
        = (none, some (bLink c b))
    ∧ oneBitFullAdderG bLink (some a) (some b) (some c)
        = (some c, some (bLink a b))
    ∧ (bLink a b).count = a.count + b.count
    ∧ (if b.key < a.key
       then (bLink a b).key = b.key
         ∧ (bLink a b).children.head? = some a
       else (bLink a b).key = a.key
         ∧ (bLink a b).children.head? = some b) := by
  refine ⟨rfl, rfl, rfl, rfl, rfl, rfl, rfl, rfl, count_bLink a b, ?_⟩
  unfold bLink
  split_ifs with h <;>
    simp [BTree.key, BTree.children]

/-- C1: the heap-sort property cannot hold for every engine, because the
skew-binomial engine cannot insert anything: its first `enqueue` on a
fresh instance raises `AttributeError` (the `trees` attribute is never
initialized), so no nonempty key multiset is ever stored and `sorted`
can never produce it.  On the spec example `[5, 3, 8, 1]` the binomial
and Fibonacci engines do produce the ascending key sequence. -/
theorem heap_sort_fails_on_skew_engine :
    (skewEnqueue (skewInit : SkewState Int Unit) 0 ()).1
        = .error .attributeError
    ∧ (skewEnqueue (skewInit : SkewState Int Unit) 0 ()).2 = skewInit
    ∧ binSortedKeys 10 (binFromList [5, 3, 8, 1]) = [1, 3, 5, 8]
    ∧ fibSortedKeys 10 (fibFromList [5, 3, 8, 1]) = [1, 3, 5, 8] :=
  ⟨rfl, rfl, by decide, rfl⟩

/-- The forest built by enqueueing the keys 3, 4, 5, 6, 1, 2, 7. -/
def binDemo7 : BinHeap Int Unit := binFromList [3, 4, 5, 6, 1, 2, 7]

/-- Claim-side predicate (from the wording of C3): every present tree
stored at forest index `i` has exactly `2 ^ i` nodes. -/
def forestShapeOK (f : List (Option (BTree K V))) : Bool :=
  (List.range f.length).all fun i =>
    match f.getD i none with
    | none => true
    | some t => decide (t.count = 2 ^ i)

/-- C3: `extract_min` removes the minimal root with `list.pop(index)`,
shifting every higher-order tree one index down, and then re-merges the
fractured children against the misaligned forest.  Extracting from the
7-element heap built from `[3, 4, 5, 6, 1, 2, 7]` (whose minimum is the
root of the order-1 tree) leaves a forest whose only tree sits at index 2
with 6 nodes, not `2 ^ 2 = 4`: the order/index invariant is broken and
the tree is not even a binomial tree. -/
theorem bin_extract_breaks_forest_shape :
    (binExtractMin binDemo7).1 = .ok (1, ())
    ∧ forestShapeOK (binExtractMin binDemo7).2.forest = false
    ∧ ((binExtractMin binDemo7).2.forest.map fun o => o.map BTree.count)
        = [none, none, some 6]
    ∧ (binExtractMin binDemo7).2.size = 6 :=
  ⟨rfl, rfl, rfl, rfl⟩

/-- C5: on every freshly constructed `SkewBinomialHeap` (and with any
key-value pair), `enqueue` raises `AttributeError`, and `extract_min`
raises `AttributeError` on every instance whose `trees` attribute is
unset, which is every instance constructible through the public
interface, since the inherited constructor initializes only `forest` and
`size`.  Consequently no element can ever be inserted. -/
theorem skew_ops_raise_attribute_error :
    (skewInit : SkewState Int Unit).trees = none
    ∧ (∀ (k : Int) (v : Unit) (f : List (Option (BTree Int Unit)))
        (sz : Int),
        (skewEnqueue ⟨f, sz, none⟩ k v).1 = .error .attributeError)
    ∧ (∀ (f : List (Option (BTree Int Unit))) (sz : Int),
        (skewExtractMin ⟨f, sz, none⟩).1 = .error .attributeError) :=
  ⟨rfl, fun _ _ _ _ => rfl, fun _ _ => rfl⟩

/-- C6: on freshly constructed empty heaps, `find_min` and `extract_min`
raise `IndexError` for the binomial and Fibonacci engines, and so does
the inherited skew `find_min`; but the overridden skew `extract_min`
raises `AttributeError` (its first statement reads the never-initialized
`trees` attribute), not the `EmptyHeap` `IndexError` the claim
requires. -/
theorem empty_heap_error_kinds :
    binFindMin (binInit : BinHeap Int Unit) = .error .indexError
    ∧ (binExtractMin (binInit : BinHeap Int Unit)).1 = .error .indexError
    ∧ fibFindMin (fibInit : FibHeap Int Unit) = .error .indexError
    ∧ fibExtractMin 1 (fibInit : FibHeap Int Unit)
        = some (.error .indexError, fibInit)
    ∧ skewFindMin (skewInit : SkewState Int Unit) = .error .indexError
    ∧ skewExtractMin (skewInit : SkewState Int Unit)
        = (.error .attributeError, skewInit) :=
  ⟨rfl, rfl, rfl, rfl, rfl, rfl⟩

/-- Three enqueues into a fresh Fibonacci heap. -/
def fibDemo0 : FibHeap Int Unit := fibFromList [1, 2, 3]

/-- The state after one `extract_min` (which removes key 1 and
consolidates keys 2 and 3 into one tree: key 3 becomes the child of the
root with key 2). -/
def fibDemo1 : FibHeap Int Unit :=
  match fibExtractMin 100 fibDemo0 with
  | some (_, s) => s
  | none => fibDemo0

/-- C7: Fibonacci `__contains__` pushes `node.next` of the circular root
ring with no visited set, so after enqueueing 1, 2, 3 and extracting the
minimum, the key 3 is present (stored at the child of the root) yet
`3 in heap` never terminates: for every fuel the traversal is still
running (the stack always has the root on top again).  The first
conjuncts certify that key 3 is indeed present in the post-extraction
heap reached through the public interface. -/
theorem fib_contains_diverges_on_present_key :
    (fibExtractMin 100 fibDemo0).map (fun p => p.1) = some (.ok (1, ()))
    ∧ fibDemo1.root = some 1
    ∧ (getN fibDemo1 1).child = some 2
    ∧ (getN fibDemo1 2).key = 3
    ∧ fibDemo1.size = 2
    ∧ ∀ fuel : Nat, fibContains fibDemo1 3 fuel = none := by
  refine ⟨rfl, rfl, rfl, rfl, rfl, ?_⟩
  have step : ∀ (n : Nat) (rest : List (Option Nat)),
      fibContainsGo fibDemo1 3 (n + 1) (some 1 :: rest)
        = fibContainsGo fibDemo1 3 n (some 1 :: some 2 :: rest) :=
    fun n rest => rfl
  have main : ∀ (fuel : Nat) (rest : List (Option Nat)),
      fibContainsGo fibDemo1 3 fuel (some 1 :: rest) = none := by
    intro fuel
    induction fuel with
    | zero => intro rest; rfl
    | succ n ih =>
      intro rest
      rw [step]
      exact ih _
  exact fun fuel => main fuel []

/-- The states of the skew engine reachable through its public interface
(construction, successful enqueues, successful extractions). -/
inductive SkewReach : SkewState Int Unit → Prop where
  | init : SkewReach skewInit
  | enq (s : SkewState Int Unit) (k : Int) (v : Unit) (u : Unit)
      (hs : SkewReach s) (hok : (skewEnqueue s k v).1 = .ok u) :
      SkewReach (skewEnqueue s k v).2
  | ext (s : SkewState Int Unit) (p : Int × Unit)
      (hs : SkewReach s) (hok : (skewExtractMin s).1 = .ok p) :
      SkewReach (skewExtractMin s).2

/-- C8: no mutation of the skew engine ever completes (both `enqueue` and
`extract_min` raise `AttributeError` on the only constructible state), so
every reachable state is the freshly constructed one and the claimed
order invariant is never exercised by any completed mutation. -/
theorem skew_reachable_states_are_initial (s : SkewState Int Unit)
    (h : SkewReach s) : s = skewInit := by
  induction h with
  | init => rfl
  | enq s k v u hs hok ih =>
    rw [ih]
    rfl
  | ext s p hs hok ih =>
    rw [ih]
    rfl

theorem skew_reachable_states_are_initial_witness :
    (skewInit : SkewState Int Unit) = skewInit :=
  skew_reachable_states_are_initial skewInit SkewReach.init

theorem binExtractMin_err_or_ok (s : BinHeap Int Unit) :
    (binExtractMin s).2 = s ∨ ∃ p, (binExtractMin s).1 = .ok p := by
  unfold binExtractMin
  split
  · left; rfl
  · split
    · left; rfl
    · right; exact ⟨_, rfl⟩

theorem fibExtractMin_error_state (fuel : Nat) (s : FibHeap Int Unit)
    (e : PyErr) (r : FibHeap Int Unit)
    (h : fibExtractMin fuel s = some (.error e, r)) : r = s := by
  unfold fibExtractMin at h
  split at h
  · injection h with h2
    injection h2 with h3 h4
    exact h4.symm
  · dsimp only [] at h
    repeat' split at h
    all_goals
      first
      | exact Option.noConfusion h
      | (injection h with h2
         injection h2 with h3 h4
         exact Except.noConfusion h3)

/-- C10: a mutating operation that raises leaves the observable state
exactly as it was: the binomial and Fibonacci `extract_min` raise only
the empty check before any mutation, the skew `enqueue` raises the
attribute error before touching any attribute, and the skew
`extract_min` on every constructible state (with `trees` unset) raises
immediately.  (`enqueue` on the binomial and Fibonacci engines never
raises: it is total in the embedding.) -/
theorem failed_mutations_leave_state_unchanged :
    (∀ (s : BinHeap Int Unit) (e : PyErr),
      (binExtractMin s).1 = .error e → (binExtractMin s).2 = s)
    ∧ (∀ (fuel : Nat) (s : FibHeap Int Unit) (e : PyErr)
        (r : FibHeap Int Unit),
      fibExtractMin fuel s = some (.error e, r) → r = s)
    ∧ (∀ (f : List (Option (BTree Int Unit))) (sz : Int) (k : Int)
        (v : Unit) (e : PyErr),
      (skewEnqueue ⟨f, sz, none⟩ k v).1 = .error e →
        (skewEnqueue ⟨f, sz, none⟩ k v).2 = ⟨f, sz, none⟩)
    ∧ (∀ (f : List (Option (BTree Int Unit))) (sz : Int) (e : PyErr)
        (r : SkewState Int Unit),
      skewExtractMin ⟨f, sz, none⟩ = (.error e, r) → r = ⟨f, sz, none⟩) := by
  refine ⟨?_, fibExtractMin_error_state, ?_, ?_⟩
  · intro s e h
    rcases binExtractMin_err_or_ok s with h2 | ⟨p, hp⟩
    · exact h2
    · rw [hp] at h
      exact Except.noConfusion h
  · intro f sz k v e h
    rfl
  · intro f sz e r h
    exact (congrArg Prod.snd h).symm

theorem failed_mutations_leave_state_unchanged_witness :
    (binExtractMin (binInit : BinHeap Int Unit)).2 = binInit :=
  failed_mutations_leave_state_unchanged.1 binInit .indexError rfl

/-!
## Circular ring realization

A circular doubly linked list in the arena is described by the list of
its member indices in cyclic order: every cyclically adjacent pair
`(a, b)` must satisfy `next a = b` and `prev b = a`.
-/

/-- The adjacency pairs along a list, closing back to `c` after the last
element. -/
def pathPairs : List Nat → Nat → List (Nat × Nat)
  | [], _ => []
  | [a], c => [(a, c)]
  | a :: b :: t, c => (a, b) :: pathPairs (b :: t) c

/-- The cyclic adjacency pairs of a list. -/
def cyclePairs : List Nat → List (Nat × Nat)
  | [] => []
  | x :: M => pathPairs (x :: M) x

theorem pathPairs_append :
    ∀ (A B : List Nat) (c : Nat),
      pathPairs (A ++ B) c = pathPairs A (B.headD c) ++ pathPairs B c
  | [], B, c => by simp [pathPairs]
  | [a], B, c => by cases B <;> simp [pathPairs]
  | a :: b :: t, B, c => by
    have ih := pathPairs_append (b :: t) B c
    rw [List.cons_append] at ih
    simp only [List.cons_append, pathPairs, List.append_eq, ih]

theorem pathPairs_fst :
    ∀ (A : List Nat) (c : Nat), (pathPairs A c).map Prod.fst = A
  | [], _ => rfl
  | [_], _ => rfl
  | a :: b :: t, c => by
    simp only [pathPairs, List.map_cons, pathPairs_fst (b :: t) c]

theorem pathPairs_snd :
    ∀ (A : List Nat) (c : Nat), (pathPairs A c).map Prod.snd = (A ++ [c]).tail
  | [], _ => rfl
  | [_], _ => rfl
  | a :: b :: t, c => by
    simp only [pathPairs, List.map_cons, pathPairs_snd (b :: t) c,
      List.cons_append, List.tail_cons]

theorem pathPairs_getLast_mem :
    ∀ (A : List Nat) (c : Nat) (h : A ≠ []), (A.getLast h, c) ∈ pathPairs A c
  | [a], c, _ => by simp [pathPairs]
  | a :: b :: t, c, _ => by
    rw [List.getLast_cons (by simp)]
    simp only [pathPairs, List.mem_cons]
    exact Or.inr (pathPairs_getLast_mem (b :: t) c (by simp))

theorem pathPairs_close_or :
    ∀ (A : List Nat) (c c2 : Nat) (p : Nat × Nat), p ∈ pathPairs A c →
      p ∈ pathPairs A c2 ∨ ∃ h : A ≠ [], p = (A.getLast h, c)
  | [], _, _, _, hp => absurd hp (by simp [pathPairs])
  | [a], c, c2, p, hp => by
    simp [pathPairs] at hp
    exact Or.inr ⟨by simp, by simp [hp, List.getLast]⟩
  | a :: b :: t, c, c2, p, hp => by
    simp only [pathPairs, List.mem_cons] at hp
    rcases hp with rfl | hp
    · exact Or.inl (by simp [pathPairs])
    · rcases pathPairs_close_or (b :: t) c c2 p hp with h | ⟨_, rfl⟩
      · exact Or.inl (by simp [pathPairs, h])
      · have hg : (a :: b :: t).getLast (by simp) = (b :: t).getLast (by simp) :=
          List.getLast_cons (by simp)
        exact Or.inr ⟨by simp, by rw [hg]⟩

theorem cyclePairs_cons (x : Nat) (M : List Nat) :
    cyclePairs (x :: M) = (x, M.headD x) :: pathPairs M x := by
  cases M with
  | nil => rfl
  | cons m M2 => rfl

/-- One adjacency constraint of a doubly linked ring. -/
def pairOK (s : FibHeap K V) (p : Nat × Nat) : Prop :=
  (getN s p.1).next = p.2 ∧ (getN s p.2).prev = p.1

/-- `L` lists the members of a well-formed circular doubly linked list in
the arena of `s`, in cyclic order. -/
def RingR (s : FibHeap K V) (L : List Nat) : Prop :=
  L.Nodup ∧ (∀ a ∈ L, a < s.nodes.length) ∧ ∀ p ∈ cyclePairs L, pairOK s p

theorem cyclePairs_append_mem (A B : List Nat) (p : Nat × Nat) :
    p ∈ cyclePairs (A ++ B) ↔ p ∈ cyclePairs (B ++ A) := by
  rcases A with _ | ⟨a, A2⟩
  · simp
  rcases B with _ | ⟨b, B2⟩
  · simp
  show p ∈ pathPairs ((a :: A2) ++ (b :: B2)) a ↔
    p ∈ pathPairs ((b :: B2) ++ (a :: A2)) b
  rw [pathPairs_append, pathPairs_append]
  simp only [List.headD_cons, List.mem_append]
  tauto

theorem RingR_append_comm {s : FibHeap K V} {A B : List Nat} :
    RingR s (A ++ B) ↔ RingR s (B ++ A) := by
  unfold RingR
  constructor <;> rintro ⟨h1, h2, h3⟩
  · exact ⟨(List.perm_append_comm.nodup_iff).1 h1,
      fun a ha => h2 a (by simp only [List.mem_append] at ha ⊢; tauto),
      fun p hp => h3 p ((cyclePairs_append_mem B A p).1 hp)⟩
  · exact ⟨(List.perm_append_comm.nodup_iff).1 h1,
      fun a ha => h2 a (by simp only [List.mem_append] at ha ⊢; tauto),
      fun p hp => h3 p ((cyclePairs_append_mem A B p).1 hp)⟩

theorem ringr_next_head {s : FibHeap K V} {x : Nat} {M : List Nat}
    (h : RingR s (x :: M)) : (getN s x).next = M.headD x := by
  have hp := h.2.2 (x, M.headD x) (by rw [cyclePairs_cons]; simp)
  exact hp.1

theorem ringr_prev_head {s : FibHeap K V} {x : Nat} {M : List Nat}
    (h : RingR s (x :: M)) (hM : M ≠ []) :
    (getN s x).prev = M.getLast hM := by
  have hmem : (M.getLast hM, x) ∈ cyclePairs (x :: M) := by
    rw [cyclePairs_cons]
    exact List.mem_cons_of_mem _ (pathPairs_getLast_mem M x hM)
  exact (h.2.2 _ hmem).2

theorem ringr_singleton_next {s : FibHeap K V} {x : Nat}
    (h : RingR s [x]) : (getN s x).next = x := ringr_next_head h

theorem ringr_singleton_prev {s : FibHeap K V} {x : Nat}
    (h : RingR s [x]) : (getN s x).prev = x := by
  have hp := h.2.2 (x, x) (by simp [cyclePairs, pathPairs])
  exact hp.2

theorem next_setParent (t : FibHeap K V) (i : Nat) (p : Option Nat) (k : Nat) :
    (getN (setParent t i p) k).next = (getN t k).next :=
  getN_setN_proj FNode.next t i { getN t i with parent := p } rfl k

theorem prev_setParent (t : FibHeap K V) (i : Nat) (p : Option Nat) (k : Nat) :
    (getN (setParent t i p) k).prev = (getN t k).prev :=
  getN_setN_proj FNode.prev t i { getN t i with parent := p } rfl k

theorem next_setChild (t : FibHeap K V) (i : Nat) (c : Option Nat) (k : Nat) :
    (getN (setChild t i c) k).next = (getN t k).next :=
  getN_setN_proj FNode.next t i { getN t i with child := c } rfl k

theorem prev_setChild (t : FibHeap K V) (i : Nat) (c : Option Nat) (k : Nat) :
    (getN (setChild t i c) k).prev = (getN t k).prev :=
  getN_setN_proj FNode.prev t i { getN t i with child := c } rfl k

theorem next_setMarked (t : FibHeap K V) (i : Nat) (m : Bool) (k : Nat) :
    (getN (setMarked t i m) k).next = (getN t k).next :=
  getN_setN_proj FNode.next t i { getN t i with marked := m } rfl k

theorem prev_setMarked (t : FibHeap K V) (i : Nat) (m : Bool) (k : Nat) :
    (getN (setMarked t i m) k).prev = (getN t k).prev :=
  getN_setN_proj FNode.prev t i { getN t i with marked := m } rfl k

theorem next_setDegree (t : FibHeap K V) (i d k : Nat) :
    (getN (setDegree t i d) k).next = (getN t k).next :=
  getN_setN_proj FNode.next t i { getN t i with degree := d } rfl k

theorem prev_setDegree (t : FibHeap K V) (i d k : Nat) :
    (getN (setDegree t i d) k).prev = (getN t k).prev :=
  getN_setN_proj FNode.prev t i { getN t i with degree := d } rfl k

theorem next_setKey (t : FibHeap K V) (i : Nat) (v : K) (k : Nat) :
    (getN (setKey t i v) k).next = (getN t k).next :=
  getN_setN_proj FNode.next t i { getN t i with key := v } rfl k

theorem prev_setKey (t : FibHeap K V) (i : Nat) (v : K) (k : Nat) :
    (getN (setKey t i v) k).prev = (getN t k).prev :=
  getN_setN_proj FNode.prev t i { getN t i with key := v } rfl k

theorem child_setNext (t : FibHeap K V) (i j k : Nat) :
    (getN (setNext t i j) k).child = (getN t k).child :=
  getN_setN_proj FNode.child t i { getN t i with next := j } rfl k

theorem child_setPrev (t : FibHeap K V) (i j k : Nat) :
    (getN (setPrev t i j) k).child = (getN t k).child :=
  getN_setN_proj FNode.child t i { getN t i with prev := j } rfl k

theorem child_setParent (t : FibHeap K V) (i : Nat) (p : Option Nat) (k : Nat) :
    (getN (setParent t i p) k).child = (getN t k).child :=
  getN_setN_proj FNode.child t i { getN t i with parent := p } rfl k

theorem child_setMarked (t : FibHeap K V) (i : Nat) (m : Bool) (k : Nat) :
    (getN (setMarked t i m) k).child = (getN t k).child :=
  getN_setN_proj FNode.child t i { getN t i with marked := m } rfl k

theorem child_setDegree (t : FibHeap K V) (i d k : Nat) :
    (getN (setDegree t i d) k).child = (getN t k).child :=
  getN_setN_proj FNode.child t i { getN t i with degree := d } rfl k

theorem degree_setNext (t : FibHeap K V) (i j k : Nat) :
    (getN (setNext t i j) k).degree = (getN t k).degree :=
  getN_setN_proj FNode.degree t i { getN t i with next := j } rfl k

theorem degree_setPrev (t : FibHeap K V) (i j k : Nat) :
    (getN (setPrev t i j) k).degree = (getN t k).degree :=
  getN_setN_proj FNode.degree t i { getN t i with prev := j } rfl k

theorem degree_setParent (t : FibHeap K V) (i : Nat) (p : Option Nat) (k : Nat) :
    (getN (setParent t i p) k).degree = (getN t k).degree :=
  getN_setN_proj FNode.degree t i { getN t i with parent := p } rfl k

theorem degree_setChild (t : FibHeap K V) (i : Nat) (c : Option Nat) (k : Nat) :
    (getN (setChild t i c) k).degree = (getN t k).degree :=
  getN_setN_proj FNode.degree t i { getN t i with child := c } rfl k

theorem degree_setMarked (t : FibHeap K V) (i : Nat) (m : Bool) (k : Nat) :
    (getN (setMarked t i m) k).degree = (getN t k).degree :=
  getN_setN_proj FNode.degree t i { getN t i with marked := m } rfl k

theorem next_setNext_self (t : FibHeap K V) (i j : Nat)
    (h : i < t.nodes.length) : (getN (setNext t i j) i).next = j := by
  unfold setNext
  rw [getN_setN]
  simp [h]

theorem next_setNext_ne (t : FibHeap K V) (i j k : Nat) (h : i ≠ k) :
    (getN (setNext t i j) k).next = (getN t k).next := by
  unfold setNext
  rw [getN_setN]
  simp [h]

theorem prev_setNext (t : FibHeap K V) (i j k : Nat) :
    (getN (setNext t i j) k).prev = (getN t k).prev :=
  getN_setN_proj FNode.prev t i { getN t i with next := j } rfl k

theorem prev_setPrev_self (t : FibHeap K V) (i j : Nat)
    (h : i < t.nodes.length) : (getN (setPrev t i j) i).prev = j := by
  unfold setPrev
  rw [getN_setN]
  simp [h]

theorem prev_setPrev_ne (t : FibHeap K V) (i j k : Nat) (h : i ≠ k) :
    (getN (setPrev t i j) k).prev = (getN t k).prev := by
  unfold setPrev
  rw [getN_setN]
  simp [h]

theorem next_setPrev (t : FibHeap K V) (i j k : Nat) :
    (getN (setPrev t i j) k).next = (getN t k).next :=
  getN_setN_proj FNode.next t i { getN t i with prev := j } rfl k

theorem pathPairs_mem_fst {A : List Nat} {c : Nat} {p : Nat × Nat}
    (hp : p ∈ pathPairs A c) : p.1 ∈ A := by
  have h2 : p.1 ∈ (pathPairs A c).map Prod.fst := List.mem_map_of_mem _ hp
  rwa [pathPairs_fst] at h2

theorem pathPairs_mem_snd {A : List Nat} {c : Nat} {p : Nat × Nat}
    (hp : p ∈ pathPairs A c) : p.2 ∈ (A ++ [c]).tail := by
  have h2 : p.2 ∈ (pathPairs A c).map Prod.snd := List.mem_map_of_mem _ hp
  rwa [pathPairs_snd] at h2

theorem pathPairs_fst_getLast :
    ∀ (A : List Nat) (c : Nat) (p : Nat × Nat), A.Nodup → p ∈ pathPairs A c →
      ∀ h : A ≠ [], p.1 = A.getLast h → p = (A.getLast h, c)
  | [], _, _, _, hp => absurd hp (by simp [pathPairs])
  | [a], c, p, _, hp => by
    intro h h1
    simp [pathPairs] at hp
    simp [hp, List.getLast]
  | a :: b :: t, c, p, hnd, hp => by
    intro h h1
    have hg : (a :: b :: t).getLast h = (b :: t).getLast (by simp) :=
      List.getLast_cons (by simp)
    simp only [pathPairs, List.mem_cons] at hp
    rcases hp with rfl | hp
    · exfalso
      have : a ∈ b :: t := by
        rw [show a = (a, b).1 from rfl, h1, hg]
        exact List.getLast_mem _
      exact (List.nodup_cons.1 hnd).1 this
    · rw [hg] at h1 ⊢
      exact pathPairs_fst_getLast (b :: t) c p (List.nodup_cons.1 hnd).2 hp
        (by simp) h1

theorem cyclePairs_mem_fst {L : List Nat} {p : Nat × Nat}
    (hp : p ∈ cyclePairs L) : p.1 ∈ L := by
  cases L with
  | nil => exact absurd hp (by simp [cyclePairs])
  | cons x M => exact pathPairs_mem_fst hp

theorem cyclePairs_mem_snd {L : List Nat} {p : Nat × Nat}
    (hp : p ∈ cyclePairs L) : p.2 ∈ L := by
  cases L with
  | nil => exact absurd hp (by simp [cyclePairs])
  | cons x M =>
    have h2 := pathPairs_mem_snd hp
    have h3 : ((x :: M) ++ [x]).tail = M ++ [x] := rfl
    rw [h3] at h2
    rcases List.mem_append.1 h2 with h4 | h4
    · exact List.mem_cons_of_mem _ h4
    · simp at h4
      simp [h4]

/-- Transfer a ring realization along pointwise-equal `next`, `prev` and
arena length. -/
theorem ringr_transfer {s s2 : FibHeap K V} {L : List Nat}
    (hlen : s2.nodes.length = s.nodes.length)
    (hnext : ∀ k, k ∈ L → (getN s2 k).next = (getN s k).next)
    (hprev : ∀ k, k ∈ L → (getN s2 k).prev = (getN s k).prev)
    (h : RingR s L) : RingR s2 L := by
  refine ⟨h.1, fun a ha => by rw [hlen]; exact h.2.1 a ha, fun p hp => ?_⟩
  have h2 := h.2.2 p hp
  exact ⟨(hnext p.1 (cyclePairs_mem_fst hp)).trans h2.1,
    (hprev p.2 (cyclePairs_mem_snd hp)).trans h2.2⟩

theorem ringr_setParent {s : FibHeap K V} {L : List Nat} (h : RingR s L)
    (i : Nat) (p : Option Nat) : RingR (setParent s i p) L :=
  ringr_transfer (length_setParent ..) (fun k _ => next_setParent ..)
    (fun k _ => prev_setParent ..) h

theorem ringr_setChild {s : FibHeap K V} {L : List Nat} (h : RingR s L)
    (i : Nat) (c : Option Nat) : RingR (setChild s i c) L :=
  ringr_transfer (length_setChild ..) (fun k _ => next_setChild ..)
    (fun k _ => prev_setChild ..) h

theorem ringr_setMarked {s : FibHeap K V} {L : List Nat} (h : RingR s L)
    (i : Nat) (m : Bool) : RingR (setMarked s i m) L :=
  ringr_transfer (length_setMarked ..) (fun k _ => next_setMarked ..)
    (fun k _ => prev_setMarked ..) h

theorem ringr_setDegree {s : FibHeap K V} {L : List Nat} (h : RingR s L)
    (i d : Nat) : RingR (setDegree s i d) L :=
  ringr_transfer (length_setDegree ..) (fun k _ => next_setDegree ..)
    (fun k _ => prev_setDegree ..) h

theorem ringr_setNext_notmem {s : FibHeap K V} {L : List Nat} (h : RingR s L)
    {i : Nat} (hi : i ∉ L) (j : Nat) : RingR (setNext s i j) L :=
  ringr_transfer (length_setNext ..)
    (fun k hk => next_setNext_ne s i j k (fun he => hi (he ▸ hk)))
    (fun k _ => prev_setNext ..) h

theorem ringr_setPrev_notmem {s : FibHeap K V} {L : List Nat} (h : RingR s L)
    {i : Nat} (hi : i ∉ L) (j : Nat) : RingR (setPrev s i j) L :=
  ringr_transfer (length_setPrev ..) (fun k _ => next_setPrev ..)
    (fun k hk => prev_setPrev_ne s i j k (fun he => hi (he ▸ hk))) h

/-- Removing the head of a realized ring: after the two pointer writes
(`prev` of the successor set to the predecessor, `next` of the
predecessor set to the successor, expressed pointwise so that every
statement order at the call sites is covered), the remaining list is a
realized ring. -/
theorem ring_erase_core {s s2 : FibHeap K V} {x : Nat} {M : List Nat}
    (h : RingR s (x :: M)) (hM : M ≠ [])
    (hlen : s2.nodes.length = s.nodes.length)
    (hnext : ∀ k, k ≠ (getN s x).prev → (getN s2 k).next = (getN s k).next)
    (hnext2 : (getN s2 ((getN s x).prev)).next = (getN s x).next)
    (hprev : ∀ k, k ≠ (getN s x).next → (getN s2 k).prev = (getN s k).prev)
    (hprev2 : (getN s2 ((getN s x).next)).prev = (getN s x).prev) :
    RingR s2 M := by
  have hnd : (x :: M).Nodup := h.1
  have hxM : x ∉ M := (List.nodup_cons.1 hnd).1
  have hndM : M.Nodup := (List.nodup_cons.1 hnd).2
  have hnx : (getN s x).next = M.headD x := ringr_next_head h
  have hpx : (getN s x).prev = (x :: M).getLast (by simp) := by
    rw [List.getLast_cons hM]
    exact ringr_prev_head h hM
  have hgl : (x :: M).getLast (by simp) = M.getLast hM := List.getLast_cons hM
  rcases M with _ | ⟨m, M2⟩
  · exact absurd rfl hM
  have hhead : (m :: M2).headD x = m := rfl
  refine ⟨hndM, fun a ha => by rw [hlen]; exact h.2.1 a (List.mem_cons_of_mem _ ha),
    fun p hp => ?_⟩
  rw [cyclePairs_cons, List.mem_cons] at hp
  -- the closing pair of the new ring, proved directly from the writes
  have hclose : pairOK s2 ((m :: M2).getLast (by simp), m) := by
    constructor
    · have := hnext2
      rw [hpx, hgl, hnx, hhead] at this
      exact this
    · have := hprev2
      rw [hnx, hhead, hpx, hgl] at this
      exact this
  rcases hp with rfl | hp
  · -- pair (m, headD M2 m)
    rcases M2 with _ | ⟨m2, M3⟩
    · -- singleton ring [m]: the pair is (m, m), which is the closing pair
      exact hclose
    · -- the pair (m, m2) was already a pair of the old ring
      have hold : pairOK s ((m, (m2 :: M3).headD m)) := by
        apply h.2.2
        rw [cyclePairs_cons]
        refine List.mem_cons_of_mem _ ?_
        show (m, (m2 :: M3).headD m) ∈ pathPairs (m :: m2 :: M3) x
        rw [show ((m2 : Nat) :: M3).headD m = m2 from rfl]
        simp [pathPairs]
      refine ⟨?_, ?_⟩
      · rw [hnext m ?hm]
        · exact hold.1
        · rw [hpx, hgl]
          intro he
          have : (m :: m2 :: M3).getLast (by simp) ∈ m2 :: M3 := by
            rw [List.getLast_cons (by simp)]
            exact List.getLast_mem _
          rw [← he] at this
          exact (List.nodup_cons.1 hndM).1 this
      · rw [hprev ((m2 :: M3).headD m) ?hm2]
        · exact hold.2
        · rw [hnx, hhead]
          show m2 ≠ m
          intro he
          exact (List.nodup_cons.1 hndM).1 (he ▸ List.mem_cons_self m2 M3)
  · -- p comes from pathPairs M2 m
    by_cases hfst : ∃ hne : M2 ≠ [], p.1 = M2.getLast hne
    · rcases hfst with ⟨hne, hfst⟩
      have hpe := pathPairs_fst_getLast M2 m p (List.nodup_cons.1 hndM).2 hp hne hfst
      have hgl2 : (m :: M2).getLast (by simp) = M2.getLast hne := List.getLast_cons hne
      rw [hpe]
      rw [← hgl2]
      exact hclose
    · push_neg at hfst
      rcases M2 with _ | ⟨a, b⟩
      · simp [pathPairs] at hp
      rcases pathPairs_close_or (a :: b) m x p hp with hp2 | ⟨hne, hpe2⟩
      · have hold : pairOK s p := by
          apply h.2.2
          rw [cyclePairs_cons]
          refine List.mem_cons_of_mem _ ?_
          show p ∈ pathPairs (m :: a :: b) x
          exact List.mem_cons_of_mem _ hp2
        refine ⟨?_, ?_⟩
        · rw [hnext p.1 ?h1]
          · exact hold.1
          · rw [hpx, hgl]
            have hg2 : (m :: a :: b).getLast (by simp)
                = (a :: b).getLast (by simp) := List.getLast_cons (by simp)
            rw [hg2]
            exact hfst (by simp)
        · rw [hprev p.2 ?h2]
          · exact hold.2
          · rw [hnx, hhead]
            have hsnd := pathPairs_mem_snd hp2
            intro he
            rw [he] at hsnd
            have hsnd2 : m ∈ b ++ [x] := by simpa using hsnd
            rcases List.mem_append.1 hsnd2 with h4 | h4
            · exact (List.nodup_cons.1 hndM).1 (List.mem_cons_of_mem _ h4)
            · simp at h4
              exact hxM (h4 ▸ List.mem_cons_self m (a :: b))
      · exact absurd (by rw [hpe2]) (hfst hne)

theorem headD_append_cons (B : List Nat) (j d : Nat) (A : List Nat) :
    (((B ++ [j]) ++ A).headD d) = B.headD j := by
  rcases B with _ | ⟨b, B2⟩ <;> rfl

/-- Splicing two disjoint realized rings (the effect of
`_merge_circular_doubly_linked_lists` entered at members `i` and `j`),
expressed pointwise: the merged cyclic order starts at `i`, follows the
second ring from the successor of `j` around to `j`, then the first ring
from the successor of `i` around. -/
theorem ring_merge_core {s s2 : FibHeap K V} {i j : Nat} {A B : List Nat}
    (h1 : RingR s (i :: A)) (h2 : RingR s (j :: B))
    (hdisj : ∀ a ∈ i :: A, a ∉ j :: B)
    (hlen : s2.nodes.length = s.nodes.length)
    (hxi : (getN s2 i).next = B.headD j)
    (hxj : (getN s2 j).next = A.headD i)
    (hxo : ∀ k, k ≠ i → k ≠ j → (getN s2 k).next = (getN s k).next)
    (hpnj : (getN s2 (B.headD j)).prev = i)
    (hpni : (getN s2 (A.headD i)).prev = j)
    (hpo : ∀ k, k ≠ B.headD j → k ≠ A.headD i →
      (getN s2 k).prev = (getN s k).prev) :
    RingR s2 (i :: (B ++ [j]) ++ A) := by
  have hperm : (i :: (B ++ [j]) ++ A).Perm ((i :: A) ++ (j :: B)) := by
    show (i :: ((B ++ [j]) ++ A)).Perm (i :: (A ++ (j :: B)))
    exact List.Perm.cons i
      (List.Perm.trans List.perm_append_comm
        (List.Perm.append_left A (List.perm_append_singleton j B)))
  have hnd : (i :: (B ++ [j]) ++ A).Nodup := by
    rw [hperm.nodup_iff]
    rw [List.nodup_append]
    exact ⟨h1.1, h2.1, fun a ha => hdisj a ha⟩
  have hbound : ∀ a ∈ i :: (B ++ [j]) ++ A, a < s2.nodes.length := by
    intro a ha
    rw [hlen]
    rcases List.mem_append.1 (hperm.mem_iff.1 ha) with h3 | h3
    · exact h1.2.1 a h3
    · exact h2.2.1 a h3
  refine ⟨hnd, hbound, fun p hp => ?_⟩
  have hBj : (B.headD j) ∈ j :: B := by
    rcases B with _ | ⟨b, B2⟩
    · simp
    · exact List.mem_cons_of_mem _ (List.mem_cons_self b B2)
  have hAi : (A.headD i) ∈ i :: A := by
    rcases A with _ | ⟨a, A2⟩
    · simp
    · exact List.mem_cons_of_mem _ (List.mem_cons_self a A2)
  rw [show (i :: (B ++ [j]) ++ A) = i :: ((B ++ [j]) ++ A) from rfl,
    cyclePairs_cons, List.mem_cons] at hp
  rcases hp with rfl | hp
  · -- the pair (i, head of second ring)
    rw [headD_append_cons]
    exact ⟨hxi, hpnj⟩
  · rw [pathPairs_append, pathPairs_append] at hp
    rcases List.mem_append.1 hp with hp2 | hp2
    · rcases List.mem_append.1 hp2 with hp3 | hp3
      · -- a pair inside B
        rcases B with _ | ⟨b, B2⟩
        · simp [pathPairs] at hp3
        rw [show (([j] : List Nat).headD (A.headD i)) = j from rfl] at hp3
        have hold : pairOK s p := by
          apply h2.2.2
          rw [cyclePairs_cons]
          exact List.mem_cons_of_mem _ hp3
        have hf := pathPairs_mem_fst hp3
        have hsnd := pathPairs_mem_snd hp3
        refine ⟨?_, ?_⟩
        · rw [hxo p.1 ?hne1 ?hne2]
          · exact hold.1
          · intro he
            exact hdisj i (List.mem_cons_self i A)
              (he ▸ List.mem_cons_of_mem _ hf)
          · intro he
            exact (List.nodup_cons.1 h2.1).1 (he ▸ hf)
        · rw [hpo p.2 ?hne3 ?hne4]
          · exact hold.2
          · show p.2 ≠ (b :: B2).headD j
            intro he
            rw [show ((b : Nat) :: B2).headD j = b from rfl] at he
            have : p.2 ∈ B2 ++ [j] := by simpa using hsnd
            rcases List.mem_append.1 this with h4 | h4
            · exact (List.nodup_cons.1 (List.nodup_cons.1 h2.1).2).1
                (he ▸ h4)
            · simp at h4
              rw [he] at h4
              exact (List.nodup_cons.1 h2.1).1
                (h4 ▸ List.mem_cons_self b B2)
          · intro he
            have : p.2 ∈ B2 ++ [j] := by simpa using hsnd
            have hmem : p.2 ∈ j :: b :: B2 := by
              rcases List.mem_append.1 this with h4 | h4
              · exact List.mem_cons_of_mem _ (List.mem_cons_of_mem _ h4)
              · simp at h4
                simp [h4]
            exact hdisj (A.headD i) hAi (he ▸ hmem)
      · -- the pair (j, head of first ring)
        have hp4 : p = (j, A.headD i) := by
          have hsing : pathPairs [j] (A.headD i) = [(j, A.headD i)] := rfl
          rw [hsing] at hp3
          exact List.mem_singleton.1 hp3
        rw [hp4]
        exact ⟨hxj, hpni⟩
    · -- a pair inside A
      rcases A with _ | ⟨a, A2⟩
      · simp [pathPairs] at hp2
      have hold : pairOK s p := by
        apply h1.2.2
        rw [cyclePairs_cons]
        exact List.mem_cons_of_mem _ hp2
      have hf := pathPairs_mem_fst hp2
      have hsnd := pathPairs_mem_snd hp2
      refine ⟨?_, ?_⟩
      · rw [hxo p.1 ?ha1 ?ha2]
        · exact hold.1
        · intro he
          exact (List.nodup_cons.1 h1.1).1 (he ▸ hf)
        · intro he
          exact hdisj p.1 (List.mem_cons_of_mem _ hf)
            (he ▸ List.mem_cons_self j B)
      · rw [hpo p.2 ?ha3 ?ha4]
        · exact hold.2
        · intro he
          have : p.2 ∈ A2 ++ [i] := by simpa using hsnd
          have hmem : p.2 ∈ i :: a :: A2 := by
            rcases List.mem_append.1 this with h4 | h4
            · exact List.mem_cons_of_mem _ (List.mem_cons_of_mem _ h4)
            · simp at h4
              simp [h4]
          exact hdisj p.2 hmem (he ▸ hBj)
        · show p.2 ≠ (a :: A2).headD i
          intro he
          rw [show ((a : Nat) :: A2).headD i = a from rfl] at he
          have : p.2 ∈ A2 ++ [i] := by simpa using hsnd
          rcases List.mem_append.1 this with h4 | h4
          · exact (List.nodup_cons.1 (List.nodup_cons.1 h1.1).2).1 (he ▸ h4)
          · simp at h4
            rw [he] at h4
            exact (List.nodup_cons.1 h1.1).1 (h4 ▸ List.mem_cons_self a A2)

/-!
## Rose-tree realization of Fibonacci trees

A rose tree of arena indices is realized at a node when the node's
degree equals its child count, its child pointer heads the child ring,
the children form a realized ring in the given cyclic order, and every
child realizes its own subtree.
-/

inductive ITree where
  | node (i : Nat) (cs : List ITree)

def ITree.idx : ITree → Nat
  | .node i _ => i

mutual

/-- All arena indices of a tree, root first. -/
def ITree.support : ITree → List Nat
  | .node i cs => i :: ITree.supportList cs

def ITree.supportList : List ITree → List Nat
  | [] => []
  | t :: ts => ITree.support t ++ ITree.supportList ts

end

theorem support_node (i : Nat) (cs : List ITree) :
    (ITree.node i cs).support = i :: ITree.supportList cs := rfl

theorem supportList_nil : ITree.supportList [] = [] := rfl

theorem supportList_cons (t : ITree) (ts : List ITree) :
    ITree.supportList (t :: ts) = t.support ++ ITree.supportList ts := rfl

theorem supportList_append :
    ∀ (A B : List ITree),
      ITree.supportList (A ++ B) = ITree.supportList A ++ ITree.supportList B
  | [], B => rfl
  | t :: A, B => by
    simp only [List.cons_append, supportList_cons, supportList_append A B,
      List.append_assoc]

theorem idx_mem_support : ∀ t : ITree, t.idx ∈ t.support
  | .node i cs => by simp [ITree.idx, support_node]

theorem mem_supportList_of_mem {ts : List ITree} {t : ITree} (ht : t ∈ ts)
    {x : Nat} (hx : x ∈ t.support) : x ∈ ITree.supportList ts := by
  induction ts with
  | nil => exact absurd ht (by simp)
  | cons u us ih =>
    rw [supportList_cons, List.mem_append]
    rcases List.mem_cons.1 ht with rfl | ht2
    · exact Or.inl hx
    · exact Or.inr (ih ht2)

theorem mem_supportList {ts : List ITree} {x : Nat} :
    x ∈ ITree.supportList ts ↔ ∃ t ∈ ts, x ∈ t.support := by
  induction ts with
  | nil => simp [supportList_nil]
  | cons u us ih =>
    rw [supportList_cons, List.mem_append, ih]
    simp

theorem idx_mem_supportList {ts : List ITree} {t : ITree} (ht : t ∈ ts) :
    t.idx ∈ ITree.supportList ts :=
  mem_supportList_of_mem ht (idx_mem_support t)

theorem map_idx_subset_supportList {ts : List ITree} {x : Nat}
    (hx : x ∈ ts.map ITree.idx) : x ∈ ITree.supportList ts := by
  rcases List.mem_map.1 hx with ⟨t, ht, rfl⟩
  exact idx_mem_supportList ht

/-- One adjacency constraint, decidably. -/
def pairOKB (s : FibHeap K V) (p : Nat × Nat) : Bool :=
  ((getN s p.1).next == p.2) && ((getN s p.2).prev == p.1)

/-- Decidable form of `RingR`. -/
def ringB (s : FibHeap K V) (L : List Nat) : Bool :=
  decide L.Nodup && L.all (fun a => decide (a < s.nodes.length))
    && (cyclePairs L).all (pairOKB s)

theorem ringB_iff {s : FibHeap K V} {L : List Nat} :
    ringB s L = true ↔ RingR s L := by
  simp [ringB, RingR, pairOKB, pairOK, List.all_eq_true, and_assoc]

mutual

/-- The realization check: degree counts the children, the child pointer
heads the child ring, the children ring is realized in order, and each
child realizes its subtree. -/
def treeRB (s : FibHeap K V) : ITree → Bool
  | .node i cs =>
    decide (i < s.nodes.length) && ((getN s i).degree == cs.length)
      && ((getN s i).child == (cs.map ITree.idx).head?)
      && ringB s (cs.map ITree.idx)
      && treeRBList s cs

def treeRBList (s : FibHeap K V) : List ITree → Bool
  | [] => true
  | t :: ts => treeRB s t && treeRBList s ts

end

theorem treeRB_node_iff {s : FibHeap K V} {i : Nat} {cs : List ITree} :
    treeRB s (.node i cs) = true ↔
      i < s.nodes.length ∧ (getN s i).degree = cs.length ∧
        (getN s i).child = (cs.map ITree.idx).head? ∧
        RingR s (cs.map ITree.idx) ∧ treeRBList s cs = true := by
  simp [treeRB, ringB_iff, and_assoc]

theorem treeRBList_iff {s : FibHeap K V} {ts : List ITree} :
    treeRBList s ts = true ↔ ∀ t ∈ ts, treeRB s t = true := by
  induction ts with
  | nil => simp [treeRBList]
  | cons u us ih => simp [treeRBList, ih]

mutual

/-- Every key in the tree is at least `lo`, and the tree is internally
heap-ordered. -/
def boundB (s : FibHeap K V) (lo : K) : ITree → Bool
  | .node i cs =>
    decide (lo ≤ (getN s i).key) && boundListB s (getN s i).key cs

def boundListB (s : FibHeap K V) (lo : K) : List ITree → Bool
  | [] => true
  | t :: ts => boundB s lo t && boundListB s lo ts

end

theorem boundB_node_iff {s : FibHeap K V} {lo : K} {i : Nat}
    {cs : List ITree} :
    boundB s lo (.node i cs) = true ↔
      lo ≤ (getN s i).key ∧ boundListB s (getN s i).key cs = true := by
  simp [boundB]

theorem boundListB_iff {s : FibHeap K V} {lo : K} {ts : List ITree} :
    boundListB s lo ts = true ↔ ∀ t ∈ ts, boundB s lo t = true := by
  induction ts with
  | nil => simp [boundListB]
  | cons u us ih => simp [boundListB, ih]

mutual

theorem bound_le {s : FibHeap K V} :
    ∀ {lo : K} (t : ITree), boundB s lo t = true →
      ∀ x ∈ t.support, lo ≤ (getN s x).key
  | lo, .node i cs, h, x, hx => by
    rw [boundB_node_iff] at h
    rw [support_node, List.mem_cons] at hx
    rcases hx with rfl | hx
    · exact h.1
    · exact le_trans h.1 (boundList_le cs h.2 x hx)

theorem boundList_le {s : FibHeap K V} {lo : K} :
    ∀ (ts : List ITree), boundListB s lo ts = true →
      ∀ x ∈ ITree.supportList ts, lo ≤ (getN s x).key
  | t :: ts, h, x, hx => by
    have h2 : boundB s lo t = true ∧ boundListB s lo ts = true := by
      simpa [boundListB] using h
    rw [supportList_cons, List.mem_append] at hx
    rcases hx with hx | hx
    · exact bound_le t h2.1 x hx
    · exact boundList_le ts h2.2 x hx

end

mutual

theorem bound_mono {s : FibHeap K V} :
    ∀ {lo lo2 : K} (t : ITree), lo2 ≤ lo → boundB s lo t = true →
      boundB s lo2 t = true
  | lo, lo2, .node i cs, hle, h => by
    rw [boundB_node_iff] at h ⊢
    exact ⟨le_trans hle h.1, h.2⟩

theorem boundList_mono {s : FibHeap K V} :
    ∀ {lo lo2 : K} (ts : List ITree), lo2 ≤ lo → boundListB s lo ts = true →
      boundListB s lo2 ts = true
  | _, _, [], _, _ => rfl
  | lo, lo2, t :: ts, hle, h => by
    have h2 : boundB s lo t = true ∧ boundListB s lo ts = true := by
      simpa [boundListB] using h
    have := bound_mono t hle h2.1
    have := boundList_mono ts hle h2.2
    simp [boundListB]
    exact ⟨bound_mono t hle h2.1, boundList_mono ts hle h2.2⟩

end

theorem getN_setN_ne {s : FibHeap K V} {i k : Nat} (n : FNode K V)
    (h : ¬ i = k) : getN (setN s i n) k = getN s k := by
  rw [getN_setN]
  simp [h]

theorem getN_setNext_ne {s : FibHeap K V} {i k : Nat} (j : Nat)
    (h : ¬ i = k) : getN (setNext s i j) k = getN s k :=
  getN_setN_ne _ h

theorem getN_setPrev_ne {s : FibHeap K V} {i k : Nat} (j : Nat)
    (h : ¬ i = k) : getN (setPrev s i j) k = getN s k :=
  getN_setN_ne _ h

theorem getN_setParent_ne {s : FibHeap K V} {i k : Nat} (p : Option Nat)
    (h : ¬ i = k) : getN (setParent s i p) k = getN s k :=
  getN_setN_ne _ h

theorem getN_setChild_ne {s : FibHeap K V} {i k : Nat} (c : Option Nat)
    (h : ¬ i = k) : getN (setChild s i c) k = getN s k :=
  getN_setN_ne _ h

theorem getN_setMarked_ne {s : FibHeap K V} {i k : Nat} (m : Bool)
    (h : ¬ i = k) : getN (setMarked s i m) k = getN s k :=
  getN_setN_ne _ h

theorem getN_setDegree_ne {s : FibHeap K V} {i k d : Nat}
    (h : ¬ i = k) : getN (setDegree s i d) k = getN s k :=
  getN_setN_ne _ h

mutual

/-- Transfer a tree realization to a state that agrees on every record
below the root and keeps the root's `degree` and `child`; the root's
ring pointers are free to change. -/
theorem treeRB_frame_root {s s2 : FibHeap K V} :
    ∀ (i : Nat) (cs : List ITree),
      s2.nodes.length = s.nodes.length →
      (∀ k ∈ ITree.supportList cs, getN s2 k = getN s k) →
      (getN s2 i).degree = (getN s i).degree →
      (getN s2 i).child = (getN s i).child →
      treeRB s (.node i cs) = true → treeRB s2 (.node i cs) = true
  | i, cs, hlen, heq, hdeg, hch, h => by
    rw [treeRB_node_iff] at h ⊢
    refine ⟨hlen ▸ h.1, hdeg ▸ h.2.1, hch ▸ h.2.2.1, ?_, ?_⟩
    · refine ringr_transfer hlen (fun k hk => ?_) (fun k hk => ?_) h.2.2.2.1
      · rw [heq k (map_idx_subset_supportList hk)]
      · rw [heq k (map_idx_subset_supportList hk)]
    · exact treeRBList_frame cs hlen heq h.2.2.2.2

theorem treeRBList_frame {s s2 : FibHeap K V} :
    ∀ (ts : List ITree),
      s2.nodes.length = s.nodes.length →
      (∀ k ∈ ITree.supportList ts, getN s2 k = getN s k) →
      treeRBList s ts = true → treeRBList s2 ts = true
  | [], _, _, _ => rfl
  | ITree.node i cs :: ts, hlen, heq, h => by
    have h2 : treeRB s (.node i cs) = true ∧ treeRBList s ts = true := by
      simpa [treeRBList] using h
    have heqi : getN s2 i = getN s i := by
      refine heq i ?_
      rw [supportList_cons]
      refine List.mem_append_left _ ?_
      rw [support_node]
      exact List.mem_cons_self i _
    have hsub : ∀ k ∈ ITree.supportList cs, getN s2 k = getN s k := by
      intro k hk
      refine heq k ?_
      rw [supportList_cons]
      refine List.mem_append_left _ ?_
      rw [support_node]
      exact List.mem_cons_of_mem _ hk
    have hts : ∀ k ∈ ITree.supportList ts, getN s2 k = getN s k := by
      intro k hk
      exact heq k (by rw [supportList_cons]; exact List.mem_append_right _ hk)
    have hA := treeRB_frame_root i cs hlen hsub (by rw [heqi]) (by rw [heqi]) h2.1
    have hB := treeRBList_frame ts hlen hts h2.2
    simp [treeRBList, hA, hB]

end

mutual

/-- Transfer a key lower bound to a state with the same keys
everywhere. -/
theorem boundB_keys {s s2 : FibHeap K V} :
    ∀ {lo : K} (t : ITree),
      (∀ k, (getN s2 k).key = (getN s k).key) →
      boundB s lo t = true → boundB s2 lo t = true
  | lo, .node i cs, hkeys, h => by
    rw [boundB_node_iff] at h ⊢
    rw [hkeys i]
    exact ⟨h.1, boundListB_keys cs hkeys h.2⟩

theorem boundListB_keys {s s2 : FibHeap K V} :
    ∀ {lo : K} (ts : List ITree),
      (∀ k, (getN s2 k).key = (getN s k).key) →
      boundListB s lo ts = true → boundListB s2 lo ts = true
  | _, [], _, _ => rfl
  | lo, t :: ts, hkeys, h => by
    have h2 : boundB s lo t = true ∧ boundListB s lo ts = true := by
      simpa [boundListB] using h
    simp [boundListB, boundB_keys t hkeys h2.1, boundListB_keys ts hkeys h2.2]

end

theorem key_mergeCDLL (s : FibHeap K V) (a b : Option Nat) (k : Nat) :
    (getN (mergeCDLL s a b).1 k).key = (getN s k).key := by
  cases a with
  | none => rfl
  | some i =>
    cases b with
    | none => rfl
    | some j =>
      show (getN (setPrev (setPrev (setNext (setNext s i _) j _) _ i) _ j) k).key = _
      simp only [key_setPrev, key_setNext]

theorem child_mergeCDLL (s : FibHeap K V) (a b : Option Nat) (k : Nat) :
    (getN (mergeCDLL s a b).1 k).child = (getN s k).child := by
  cases a with
  | none => rfl
  | some i =>
    cases b with
    | none => rfl
    | some j =>
      show (getN (setPrev (setPrev (setNext (setNext s i _) j _) _ i) _ j) k).child = _
      simp only [child_setPrev, child_setNext]

theorem degree_mergeCDLL (s : FibHeap K V) (a b : Option Nat) (k : Nat) :
    (getN (mergeCDLL s a b).1 k).degree = (getN s k).degree := by
  cases a with
  | none => rfl
  | some i =>
    cases b with
    | none => rfl
    | some j =>
      show (getN (setPrev (setPrev (setNext (setNext s i _) j _) _ i) _ j) k).degree = _
      simp only [degree_setPrev, degree_setNext]

theorem length_mergeCDLL (s : FibHeap K V) (a b : Option Nat) :
    (mergeCDLL s a b).1.nodes.length = s.nodes.length := by
  cases a with
  | none => rfl
  | some i =>
    cases b with
    | none => rfl
    | some j =>
      show (setPrev (setPrev (setNext (setNext s i _) j _) _ i) _ j).nodes.length = _
      simp only [length_setPrev, length_setNext]

theorem next_mergeCDLL_ne {s : FibHeap K V} {i j : Nat} (k : Nat)
    (hik : ¬ i = k) (hjk : ¬ j = k) :
    (getN (mergeCDLL s (some i) (some j)).1 k).next = (getN s k).next := by
  show (getN (setPrev (setPrev (setNext (setNext s i _) j _) _ i) _ j) k).next = _
  rw [next_setPrev, next_setPrev, next_setNext_ne _ _ _ _ hjk,
    next_setNext_ne _ _ _ _ hik]

theorem next_mergeCDLL_i {s : FibHeap K V} {i j : Nat} (hji : ¬ j = i)
    (hi : i < s.nodes.length) :
    (getN (mergeCDLL s (some i) (some j)).1 i).next = (getN s j).next := by
  show (getN (setPrev (setPrev (setNext (setNext s i _) j _) _ i) _ j) i).next = _
  rw [next_setPrev, next_setPrev, next_setNext_ne _ _ _ _ hji,
    next_setNext_self _ _ _ hi]

theorem next_mergeCDLL_j {s : FibHeap K V} {i j : Nat}
    (hj : j < s.nodes.length) :
    (getN (mergeCDLL s (some i) (some j)).1 j).next = (getN s i).next := by
  show (getN (setPrev (setPrev (setNext (setNext s i _) j _) _ i) _ j) j).next = _
  rw [next_setPrev, next_setPrev,
    next_setNext_self _ _ _ (by rw [length_setNext]; exact hj)]

theorem prev_mergeCDLL_ne {s : FibHeap K V} {i j : Nat} (hij : ¬ i = j)
    (hi : i < s.nodes.length) (hj : j < s.nodes.length) (k : Nat)
    (hk1 : ¬ (getN s j).next = k) (hk2 : ¬ (getN s i).next = k) :
    (getN (mergeCDLL s (some i) (some j)).1 k).prev = (getN s k).prev := by
  show (getN (setPrev (setPrev (setNext (setNext s i _) j _) _ i) _ j) k).prev = _
  have e1 : (getN (setNext (setNext s i ((getN s j).next)) j ((getN s i).next)) i).next
      = (getN s j).next := by
    rw [next_setNext_ne _ _ _ _ (fun h => hij h.symm), next_setNext_self _ _ _ hi]
  rw [e1]
  have e2 : (getN (setPrev (setNext (setNext s i ((getN s j).next)) j
      ((getN s i).next)) ((getN s j).next) i) j).next = (getN s i).next := by
    rw [next_setPrev,
      next_setNext_self _ _ _ (by rw [length_setNext]; exact hj)]
  rw [e2]
  rw [prev_setPrev_ne _ _ _ _ hk2, prev_setPrev_ne _ _ _ _ hk1,
    prev_setNext, prev_setNext]

theorem prev_mergeCDLL_nj {s : FibHeap K V} {i j : Nat} (hij : ¬ i = j)
    (hi : i < s.nodes.length) (hj : j < s.nodes.length)
    (hnn : ¬ (getN s i).next = (getN s j).next)
    (hnjlt : (getN s j).next < s.nodes.length) :
    (getN (mergeCDLL s (some i) (some j)).1 ((getN s j).next)).prev = i := by
  show (getN (setPrev (setPrev (setNext (setNext s i _) j _) _ i) _ j)
    ((getN s j).next)).prev = _
  have e1 : (getN (setNext (setNext s i ((getN s j).next)) j ((getN s i).next)) i).next
      = (getN s j).next := by
    rw [next_setNext_ne _ _ _ _ (fun h => hij h.symm), next_setNext_self _ _ _ hi]
  rw [e1]
  have e2 : (getN (setPrev (setNext (setNext s i ((getN s j).next)) j
      ((getN s i).next)) ((getN s j).next) i) j).next = (getN s i).next := by
    rw [next_setPrev,
      next_setNext_self _ _ _ (by rw [length_setNext]; exact hj)]
  rw [e2]
  rw [prev_setPrev_ne _ _ _ _ hnn]
  rw [prev_setPrev_self]
  rw [length_setNext, length_setNext]
  exact hnjlt

theorem prev_mergeCDLL_ni {s : FibHeap K V} {i j : Nat} (hij : ¬ i = j)
    (hi : i < s.nodes.length) (hj : j < s.nodes.length)
    (hnilt : (getN s i).next < s.nodes.length) :
    (getN (mergeCDLL s (some i) (some j)).1 ((getN s i).next)).prev = j := by
  show (getN (setPrev (setPrev (setNext (setNext s i _) j _) _ i) _ j)
    ((getN s i).next)).prev = _
  have e1 : (getN (setNext (setNext s i ((getN s j).next)) j ((getN s i).next)) i).next
      = (getN s j).next := by
    rw [next_setNext_ne _ _ _ _ (fun h => hij h.symm), next_setNext_self _ _ _ hi]
  rw [e1]
  have e2 : (getN (setPrev (setNext (setNext s i ((getN s j).next)) j
      ((getN s i).next)) ((getN s j).next) i) j).next = (getN s i).next := by
    rw [next_setPrev,
      next_setNext_self _ _ _ (by rw [length_setNext]; exact hj)]
  rw [e2]
  rw [prev_setPrev_self]
  rw [length_setPrev, length_setNext, length_setNext]
  exact hnilt

/-- The ring effect of `_merge_circular_doubly_linked_lists` on two
disjoint realized rings entered at `i` and `j`. -/
theorem ring_mergeCDLL {s : FibHeap K V} {i j : Nat} {A B : List Nat}
    (h1 : RingR s (i :: A)) (h2 : RingR s (j :: B))
    (hdisj : ∀ a ∈ i :: A, a ∉ j :: B) :
    RingR (mergeCDLL s (some i) (some j)).1 (i :: (B ++ [j]) ++ A) := by
  have hiA : i ∈ i :: A := List.mem_cons_self i A
  have hjB : j ∈ j :: B := List.mem_cons_self j B
  have hij : ¬ i = j := fun h => hdisj i hiA (h ▸ hjB)
  have hi : i < s.nodes.length := h1.2.1 i hiA
  have hj : j < s.nodes.length := h2.2.1 j hjB
  have hniA : (getN s i).next ∈ i :: A := by
    rw [ringr_next_head h1]
    rcases A with _ | ⟨a, A2⟩
    · simp
    · exact List.mem_cons_of_mem _ (List.mem_cons_self a A2)
  have hnjB : (getN s j).next ∈ j :: B := by
    rw [ringr_next_head h2]
    rcases B with _ | ⟨b, B2⟩
    · simp
    · exact List.mem_cons_of_mem _ (List.mem_cons_self b B2)
  have hnn : ¬ (getN s i).next = (getN s j).next :=
    fun h => hdisj _ hniA (h ▸ hnjB)
  refine ring_merge_core h1 h2 hdisj (length_mergeCDLL ..) ?_ ?_ ?_ ?_ ?_ ?_
  · rw [next_mergeCDLL_i (fun h => hij h.symm) hi, ringr_next_head h2]
  · rw [next_mergeCDLL_j hj, ringr_next_head h1]
  · intro k hk1 hk2
    exact next_mergeCDLL_ne k (fun h => hk1 h.symm) (fun h => hk2 h.symm)
  · rw [← ringr_next_head h2]
    exact prev_mergeCDLL_nj hij hi hj hnn (h2.2.1 _ hnjB)
  · rw [← ringr_next_head h1]
    exact prev_mergeCDLL_ni hij hi hj (h1.2.1 _ hniA)
  · intro k hk1 hk2
    refine prev_mergeCDLL_ne hij hi hj k ?_ ?_
    · rw [ringr_next_head h2]
      exact fun h => hk1 h.symm
    · rw [ringr_next_head h1]
      exact fun h => hk2 h.symm

theorem prev_setPrev_keep (t : FibHeap K V) (i k : Nat) :
    (getN (setPrev t i ((getN t k).prev)) k).prev = (getN t k).prev := by
  unfold setPrev
  rw [getN_setN]
  split
  · rfl
  · rfl

theorem spliceOut_eq (s : FibHeap K V) (x : Nat) :
    spliceOut s x =
      setPrev (setNext (setNext (setPrev s (getN s x).next (getN s x).prev)
        ((getN s x).prev) ((getN s x).next)) x x) x x := by
  show setPrev (setNext (setNext (setPrev s _ _) _ _) x x) x x = _
  rw [next_setPrev, prev_setPrev_keep]

theorem key_spliceOut (s : FibHeap K V) (x k : Nat) :
    (getN (spliceOut s x) k).key = (getN s k).key := by
  rw [spliceOut_eq]
  simp only [key_setPrev, key_setNext]

theorem child_spliceOut (s : FibHeap K V) (x k : Nat) :
    (getN (spliceOut s x) k).child = (getN s k).child := by
  rw [spliceOut_eq]
  simp only [child_setPrev, child_setNext]

theorem degree_spliceOut (s : FibHeap K V) (x k : Nat) :
    (getN (spliceOut s x) k).degree = (getN s k).degree := by
  rw [spliceOut_eq]
  simp only [degree_setPrev, degree_setNext]

theorem length_spliceOut (s : FibHeap K V) (x : Nat) :
    (spliceOut s x).nodes.length = s.nodes.length := by
  rw [spliceOut_eq]
  simp only [length_setPrev, length_setNext]

theorem next_spliceOut_ne (s : FibHeap K V) (x k : Nat)
    (h1 : ¬ (getN s x).prev = k) (h2 : ¬ x = k) :
    (getN (spliceOut s x) k).next = (getN s k).next := by
  rw [spliceOut_eq]
  rw [next_setPrev, next_setNext_ne _ _ _ _ h2, next_setNext_ne _ _ _ _ h1,
    next_setPrev]

theorem prev_spliceOut_ne (s : FibHeap K V) (x k : Nat)
    (h1 : ¬ (getN s x).next = k) (h2 : ¬ x = k) :
    (getN (spliceOut s x) k).prev = (getN s k).prev := by
  rw [spliceOut_eq]
  rw [prev_setPrev_ne _ _ _ _ h2, prev_setNext, prev_setNext,
    prev_setPrev_ne _ _ _ _ h1]

theorem next_spliceOut_self (s : FibHeap K V) (x : Nat)
    (h : x < s.nodes.length) :
    (getN (spliceOut s x) x).next = x := by
  rw [spliceOut_eq]
  rw [next_setPrev, next_setNext_self]
  simp only [length_setNext, length_setPrev]
  exact h

theorem prev_spliceOut_self (s : FibHeap K V) (x : Nat)
    (h : x < s.nodes.length) :
    (getN (spliceOut s x) x).prev = x := by
  rw [spliceOut_eq]
  rw [prev_setPrev_self]
  simp only [length_setNext, length_setPrev]
  exact h

/-- Splicing a node out of a realized ring leaves the rest of the ring
realized. -/
theorem ringr_spliceOut_erase {s : FibHeap K V} {x : Nat} {M : List Nat}
    (h : RingR s (x :: M)) (hM : M ≠ []) : RingR (spliceOut s x) M := by
  have hxM : x ∉ M := (List.nodup_cons.1 h.1).1
  have hpn : (getN s x).prev ∈ x :: M := by
    rw [ringr_prev_head h hM]
    exact List.mem_cons_of_mem _ (List.getLast_mem hM)
  have hnn : (getN s x).next ∈ x :: M := by
    rw [ringr_next_head h]
    rcases M with _ | ⟨m, M2⟩
    · simp
    · exact List.mem_cons_of_mem _ (List.mem_cons_self m M2)
  have hpl : (getN s x).prev < s.nodes.length := h.2.1 _ hpn
  have hnl : (getN s x).next < s.nodes.length := h.2.1 _ hnn
  have hsb : RingR (setNext (setPrev s (getN s x).next (getN s x).prev)
      ((getN s x).prev) ((getN s x).next)) M := by
    refine ring_erase_core h hM ?_ ?_ ?_ ?_ ?_
    · simp only [length_setNext, length_setPrev]
    · intro k hk
      rw [next_setNext_ne _ _ _ _ (fun h2 => hk h2.symm), next_setPrev]
    · rw [next_setNext_self]
      rw [length_setPrev]
      exact hpl
    · intro k hk
      rw [prev_setNext, prev_setPrev_ne _ _ _ _ (fun h2 => hk h2.symm)]
    · rw [prev_setNext, prev_setPrev_self _ _ _ hnl]
  rw [spliceOut_eq]
  exact ringr_setPrev_notmem (ringr_setNext_notmem hsb hxM x) hxM x

/-- After the splice the node is a realized singleton ring. -/
theorem ringr_spliceOut_singleton {s : FibHeap K V} {x : Nat}
    (h : x < s.nodes.length) : RingR (spliceOut s x) [x] := by
  refine ⟨by simp, ?_, ?_⟩
  · intro a ha
    rw [List.mem_singleton] at ha
    rw [ha, length_spliceOut]
    exact h
  · intro p hp
    have hp2 : p = (x, x) := by
      simpa [cyclePairs, pathPairs] using hp
    rw [hp2]
    exact ⟨next_spliceOut_self s x h, prev_spliceOut_self s x h⟩

theorem degree_setDegree_self (t : FibHeap K V) (i d : Nat)
    (h : i < t.nodes.length) : (getN (setDegree t i d) i).degree = d := by
  unfold setDegree
  rw [getN_setN]
  simp [h]

theorem child_setChild_self (t : FibHeap K V) (i : Nat) (c : Option Nat)
    (h : i < t.nodes.length) : (getN (setChild t i c) i).child = c := by
  unfold setChild
  rw [getN_setN]
  simp [h]

theorem getN_spliceOut_ne {s : FibHeap K V} {x k : Nat}
    (hx : ¬ x = k) (hp : ¬ (getN s x).prev = k) (hn : ¬ (getN s x).next = k) :
    getN (spliceOut s x) k = getN s k := by
  rw [spliceOut_eq]
  rw [getN_setPrev_ne _ hx, getN_setNext_ne _ hx, getN_setNext_ne _ hp,
    getN_setPrev_ne _ hn]

theorem getN_mergeCDLL_ne {s : FibHeap K V} {i j k : Nat} (hij : ¬ i = j)
    (hi : i < s.nodes.length) (hj : j < s.nodes.length)
    (hik : ¬ i = k) (hjk : ¬ j = k)
    (hni : ¬ (getN s i).next = k) (hnj : ¬ (getN s j).next = k) :
    getN (mergeCDLL s (some i) (some j)).1 k = getN s k := by
  show getN (setPrev (setPrev (setNext (setNext s i _) j _) _ i) _ j) k = _
  have e1 : (getN (setNext (setNext s i ((getN s j).next)) j ((getN s i).next)) i).next
      = (getN s j).next := by
    rw [next_setNext_ne _ _ _ _ (fun h => hij h.symm), next_setNext_self _ _ _ hi]
  rw [e1]
  have e2 : (getN (setPrev (setNext (setNext s i ((getN s j).next)) j
      ((getN s i).next)) ((getN s j).next) i) j).next = (getN s i).next := by
    rw [next_setPrev,
      next_setNext_self _ _ _ (by rw [length_setNext]; exact hj)]
  rw [e2]
  rw [getN_setPrev_ne _ hni, getN_setPrev_ne _ hnj, getN_setNext_ne _ hjk,
    getN_setNext_ne _ hik]

/-- A ring away from both entry points and their successors is untouched
by the merge. -/
theorem ringr_mergeCDLL_notmem {s : FibHeap K V} {L : List Nat}
    (h : RingR s L) (i j : Nat)
    (hiL : i ∉ L) (hjL : j ∉ L)
    (hniL : (getN s i).next ∉ L) (hnjL : (getN s j).next ∉ L)
    (hij : ¬ i = j) (hi : i < s.nodes.length) (hj : j < s.nodes.length) :
    RingR (mergeCDLL s (some i) (some j)).1 L := by
  refine ringr_transfer (length_mergeCDLL ..) (fun k hk => ?_) (fun k hk => ?_) h
  · exact next_mergeCDLL_ne k (fun h2 => hiL (h2 ▸ hk)) (fun h2 => hjL (h2 ▸ hk))
  · exact prev_mergeCDLL_ne hij hi hj k (fun h2 => hnjL (h2 ▸ hk))
      (fun h2 => hniL (h2 ▸ hk))

/-- The forest invariant maintained through consolidation: the top ring
is realized in the order listed, every tree is realized, all supports
are disjoint and duplicate-free, and every tree is heap-ordered from its
root. -/
def ForestInv (s : FibHeap K V) (ts : List ITree) : Prop :=
  RingR s (ts.map ITree.idx) ∧ treeRBList s ts = true ∧
    (ITree.supportList ts).Nodup ∧
    ∀ t ∈ ts, boundB s (getN s t.idx).key t = true

theorem forestInv_rotate {s : FibHeap K V} {A B : List ITree}
    (h : ForestInv s (A ++ B)) : ForestInv s (B ++ A) := by
  obtain ⟨h1, h2, h3, h4⟩ := h
  refine ⟨?_, ?_, ?_, ?_⟩
  · rw [List.map_append]
    rw [List.map_append] at h1
    exact RingR_append_comm.1 h1
  · rw [treeRBList_iff] at h2 ⊢
    intro t ht
    refine h2 t ?_
    rw [List.mem_append] at ht ⊢
    tauto
  · rw [supportList_append]
    rw [supportList_append] at h3
    exact List.perm_append_comm.nodup_iff.2 h3
  · intro t ht
    refine h4 t ?_
    rw [List.mem_append] at ht ⊢
    tauto

/-- `forestInv_rotate` with the two segments given positionally. -/
theorem forestInv_rotate_ex {s : FibHeap K V} (A B : List ITree)
    (h : ForestInv s (A ++ B)) : ForestInv s (B ++ A) :=
  forestInv_rotate h

theorem key_linkStep (s : FibHeap K V) (n x k : Nat) :
    (getN (linkStep s n x) k).key = (getN s k).key := by
  show (getN (setDegree (setMarked (setParent (setChild _ n _) x _) x false) n _) k).key = _
  simp only [key_setDegree, key_setMarked, key_setParent, key_setChild,
    key_mergeCDLL, key_spliceOut]

theorem length_linkStep (s : FibHeap K V) (n x : Nat) :
    (linkStep s n x).nodes.length = s.nodes.length := by
  show (setDegree (setMarked (setParent (setChild _ n _) x _) x false) n _).nodes.length = _
  simp only [length_setDegree, length_setMarked, length_setParent,
    length_setChild, length_mergeCDLL, length_spliceOut]

theorem degree_linkStep_ne (s : FibHeap K V) (n x k : Nat) (hn : ¬ n = k) :
    (getN (linkStep s n x) k).degree = (getN s k).degree := by
  show (getN (setDegree (setMarked (setParent (setChild _ n _) x _) x false) n _) k).degree = _
  rw [getN_setDegree_ne hn]
  simp only [degree_setMarked, degree_setParent, degree_setChild,
    degree_mergeCDLL, degree_spliceOut]

theorem degree_linkStep_self (s : FibHeap K V) (n x : Nat)
    (hn : n < s.nodes.length) :
    (getN (linkStep s n x) n).degree = (getN s n).degree + 1 := by
  have comp : ∀ t : FibHeap K V, t.nodes.length = s.nodes.length →
      (getN t n).degree = (getN s n).degree →
      (getN (setDegree t n ((getN t n).degree + 1)) n).degree
        = (getN s n).degree + 1 := by
    intro t h1 h2
    rw [degree_setDegree_self t n _ (h1 ▸ hn), h2]
  show (getN (setDegree (setMarked (setParent (setChild _ n _) x _) x false) n _) n).degree = _
  refine comp _ ?_ ?_
  · simp only [length_setMarked, length_setParent, length_setChild,
      length_mergeCDLL, length_spliceOut]
  · simp only [degree_setMarked, degree_setParent, degree_setChild,
      degree_mergeCDLL, degree_spliceOut]

theorem child_linkStep_ne (s : FibHeap K V) (n x k : Nat) (hn : ¬ n = k) :
    (getN (linkStep s n x) k).child = (getN s k).child := by
  show (getN (setDegree (setMarked (setParent (setChild _ n _) x _) x false) n _) k).child = _
  rw [getN_setDegree_ne hn]
  simp only [child_setMarked, child_setParent]
  rw [getN_setChild_ne _ hn]
  simp only [child_mergeCDLL, child_spliceOut]

theorem child_linkStep_self (s : FibHeap K V) (n x : Nat)
    (hn : n < s.nodes.length) :
    (getN (linkStep s n x) n).child =
      (mergeCDLL (spliceOut s x) ((getN (spliceOut s x) n).child) (some x)).2 := by
  have comp : ∀ (t : FibHeap K V) (c : Option Nat),
      t.nodes.length = s.nodes.length →
      (getN (setChild t n c) n).child = c := by
    intro t c h1
    exact child_setChild_self t n c (h1 ▸ hn)
  show (getN (setDegree (setMarked (setParent (setChild _ n _) x _) x false) n _) n).child = _
  simp only [child_setDegree, child_setMarked, child_setParent]
  refine comp _ _ ?_
  simp only [length_mergeCDLL, length_spliceOut]

theorem getN_linkStep_far_none {s : FibHeap K V} {n x k : Nat}
    (hch : (getN s n).child = none)
    (hn : ¬ n = k) (hx : ¬ x = k) (hp : ¬ (getN s x).prev = k)
    (hnx : ¬ (getN s x).next = k) :
    getN (linkStep s n x) k = getN s k := by
  show getN (setDegree (setMarked (setParent (setChild _ n _) x _) x false) n _) k = _
  rw [getN_setDegree_ne hn, getN_setMarked_ne _ hx, getN_setParent_ne _ hx,
    getN_setChild_ne _ hn]
  have hch2 : (getN (spliceOut s x) n).child = none := by
    rw [child_spliceOut, hch]
  rw [hch2]
  exact getN_spliceOut_ne hx hp hnx

theorem getN_linkStep_far_some {s : FibHeap K V} {n x k c0 : Nat}
    (hch : (getN s n).child = some c0)
    (hc0x : ¬ c0 = x) (hc0p : ¬ (getN s x).prev = c0)
    (hc0lt : c0 < s.nodes.length) (hxlt : x < s.nodes.length)
    (hn : ¬ n = k) (hx : ¬ x = k) (hp : ¬ (getN s x).prev = k)
    (hnx : ¬ (getN s x).next = k)
    (hc0 : ¬ c0 = k) (hnck : ¬ (getN s c0).next = k) :
    getN (linkStep s n x) k = getN s k := by
  show getN (setDegree (setMarked (setParent (setChild _ n _) x _) x false) n _) k = _
  rw [getN_setDegree_ne hn, getN_setMarked_ne _ hx, getN_setParent_ne _ hx,
    getN_setChild_ne _ hn]
  have hch2 : (getN (spliceOut s x) n).child = some c0 := by
    rw [child_spliceOut, hch]
  rw [hch2]
  have h1 : getN (mergeCDLL (spliceOut s x) (some c0) (some x)).1 k
      = getN (spliceOut s x) k := by
    refine getN_mergeCDLL_ne hc0x ?_ ?_ hc0 hx ?_ ?_
    · rw [length_spliceOut]
      exact hc0lt
    · rw [length_spliceOut]
      exact hxlt
    · rw [next_spliceOut_ne s x c0 hc0p (fun h => hc0x h.symm)]
      exact hnck
    · rw [next_spliceOut_self s x hxlt]
      exact hx
  rw [h1]
  exact getN_spliceOut_ne hx hp hnx

theorem support_sublist : ∀ {ts : List ITree} {t : ITree}, t ∈ ts →
    t.support.Sublist (ITree.supportList ts)
  | [], t, ht => absurd ht (by simp)
  | u :: us, t, ht => by
    rw [supportList_cons]
    rcases List.mem_cons.1 ht with rfl | ht2
    · exact List.sublist_append_left _ _
    · exact List.Sublist.trans (support_sublist ht2)
        (List.sublist_append_right _ _)

theorem support_nodup_of_mem {ts : List ITree}
    (hnd : (ITree.supportList ts).Nodup) {t : ITree} (ht : t ∈ ts) :
    t.support.Nodup :=
  (support_sublist ht).nodup hnd

theorem supportList_disjoint_of_ne :
    ∀ {ts : List ITree}, (ITree.supportList ts).Nodup →
      ∀ t1 ∈ ts, ∀ t2 ∈ ts, ¬ t1 = t2 → ∀ a ∈ t1.support, a ∉ t2.support
  | [], _, t1, ht1, _, _, _, _, _ => absurd ht1 (by simp)
  | u :: us, hnd, t1, ht1, t2, ht2, hne, a, ha => by
    rw [supportList_cons, List.nodup_append] at hnd
    rcases List.mem_cons.1 ht1 with rfl | h1
    · rcases List.mem_cons.1 ht2 with rfl | h2
      · exact absurd rfl hne
      · intro hmem
        exact hnd.2.2 ha (mem_supportList_of_mem h2 hmem)
    · rcases List.mem_cons.1 ht2 with rfl | h2
      · intro hmem
        exact hnd.2.2 hmem (mem_supportList_of_mem h1 ha)
      · exact supportList_disjoint_of_ne hnd.2.1 t1 h1 t2 h2 hne a ha

theorem headD_mem_cons (L : List Nat) (a : Nat) : L.headD a ∈ a :: L := by
  cases L with
  | nil => simp
  | cons w W => simp

theorem ringr_next_mem {s : FibHeap K V} {L : List Nat} (h : RingR s L)
    {a : Nat} (ha : a ∈ L) : (getN s a).next ∈ L := by
  obtain ⟨A, B, rfl⟩ := List.append_of_mem ha
  have h3 : RingR s ((a :: B) ++ A) := RingR_append_comm.1 h
  have h2 : RingR s (a :: (B ++ A)) := by simpa using h3
  rw [ringr_next_head h2]
  have h5 := headD_mem_cons (B ++ A) a
  simp only [List.mem_cons, List.mem_append] at h5 ⊢
  tauto

theorem ringr_prev_mem {s : FibHeap K V} {L : List Nat} (h : RingR s L)
    {a : Nat} (ha : a ∈ L) : (getN s a).prev ∈ L := by
  obtain ⟨A, B, rfl⟩ := List.append_of_mem ha
  have h3 : RingR s ((a :: B) ++ A) := RingR_append_comm.1 h
  have h2 : RingR s (a :: (B ++ A)) := by simpa using h3
  by_cases hBA : B ++ A = []
  · rw [hBA] at h2
    rw [ringr_singleton_prev h2]
    exact ha
  · rw [ringr_prev_head h2 hBA]
    have h5 : (B ++ A).getLast hBA ∈ B ++ A := List.getLast_mem hBA
    simp only [List.mem_append] at h5
    simp only [List.mem_append, List.mem_cons]
    tauto

theorem idx_node (i : Nat) (cs : List ITree) : (ITree.node i cs).idx = i := rfl

/-- A root index never equals a non-root support member, inside one
duplicate-free forest. -/
theorem root_ne_inner {ts : List ITree} (hnd : (ITree.supportList ts).Nodup)
    {t2 : ITree} (ht2 : t2 ∈ ts) {r : Nat} {rcs : List ITree}
    (ht : ITree.node r rcs ∈ ts) : ∀ k ∈ ITree.supportList rcs, ¬ t2.idx = k := by
  intro k hk heq
  by_cases hcase : t2 = ITree.node r rcs
  · subst hcase
    rw [idx_node] at heq
    have hndt := support_nodup_of_mem hnd ht
    rw [support_node, List.nodup_cons] at hndt
    refine hndt.1 ?_
    rw [heq]
    exact hk
  · refine supportList_disjoint_of_ne hnd t2 ht2 _ ht hcase t2.idx
      (idx_mem_support t2) ?_
    rw [support_node, heq]
    exact List.mem_cons_of_mem _ hk

theorem linkStep_spec {s : FibHeap K V} {n x : Nat} {mcs xcs P Q : List ITree}
    (hinv : ForestInv s (ITree.node n mcs :: (P ++ ITree.node x xcs :: Q)))
    (hkey : (getN s n).key ≤ (getN s x).key) :
    ∃ ncs : List ITree,
      ForestInv (linkStep s n x) (ITree.node n ncs :: (P ++ Q)) ∧
      (ITree.supportList (ITree.node n ncs :: (P ++ Q))).Perm
        (ITree.supportList
          (ITree.node n mcs :: (P ++ ITree.node x xcs :: Q))) := by
  obtain ⟨hring, htreesL, hnd, hheap⟩ := hinv
  have htrees := treeRBList_iff.1 htreesL
  have htnmem : ITree.node n mcs ∈
      ITree.node n mcs :: (P ++ ITree.node x xcs :: Q) :=
    List.mem_cons_self _ _
  have htxmem : ITree.node x xcs ∈
      ITree.node n mcs :: (P ++ ITree.node x xcs :: Q) :=
    List.mem_cons_of_mem _ (List.mem_append_right _ (List.mem_cons_self _ _))
  have htnF := htrees _ htnmem
  have htxF := htrees _ htxmem
  have htn := htnF
  rw [treeRB_node_iff] at htn
  obtain ⟨hnlt, hdegn, hchn, hringn, hmcsL⟩ := htn
  have htx := htxF
  rw [treeRB_node_iff] at htx
  obtain ⟨hxlt, hdegx, hchx, hringx, hxcsL⟩ := htx
  have hmap : (ITree.node n mcs :: (P ++ ITree.node x xcs :: Q)).map ITree.idx
      = n :: (P.map ITree.idx ++ x :: Q.map ITree.idx) := by
    simp [idx_node]
  have hringR : RingR s (n :: (P.map ITree.idx ++ x :: Q.map ITree.idx)) := by
    rw [hmap] at hring
    exact hring
  have hRnd := hringR.1
  have hPQmem : ∀ t ∈ P ++ Q,
      t ∈ ITree.node n mcs :: (P ++ ITree.node x xcs :: Q) := by
    intro t ht
    rcases List.mem_append.1 ht with h | h
    · exact List.mem_cons_of_mem _ (List.mem_append_left _ h)
    · exact List.mem_cons_of_mem _
        (List.mem_append_right _ (List.mem_cons_of_mem _ h))
  have hRootIdx : ∀ a ∈ n :: (P.map ITree.idx ++ x :: Q.map ITree.idx),
      ∃ t2, t2 ∈ ITree.node n mcs :: (P ++ ITree.node x xcs :: Q)
        ∧ t2.idx = a := by
    intro a ha
    rw [← hmap] at ha
    rcases List.mem_map.1 ha with ⟨t, ht, he⟩
    exact ⟨t, ht, he⟩
  have hMaster : ∀ a ∈ n :: (P.map ITree.idx ++ x :: Q.map ITree.idx),
      ∀ (r : Nat) (rcs : List ITree),
        ITree.node r rcs ∈ ITree.node n mcs :: (P ++ ITree.node x xcs :: Q) →
        ∀ k ∈ ITree.supportList rcs, ¬ a = k := by
    intro a ha r rcs ht k hk heq
    obtain ⟨t2, ht2, he⟩ := hRootIdx a ha
    exact root_ne_inner hnd ht2 ht k hk (he.trans heq)
  have hnR : n ∈ n :: (P.map ITree.idx ++ x :: Q.map ITree.idx) := by simp
  have hxR : x ∈ n :: (P.map ITree.idx ++ x :: Q.map ITree.idx) := by simp
  have hpxR := ringr_prev_mem hringR hxR
  have hnxR := ringr_next_mem hringR hxR
  have hMn := hMaster n hnR
  have hMx := hMaster x hxR
  have hMpx := hMaster _ hpxR
  have hMnx := hMaster _ hnxR
  have hxn : ¬ x = n := by
    have h2 := hRnd
    rw [List.nodup_cons] at h2
    intro h
    refine h2.1 ?_
    rw [← h]
    simp
  have hnrPQ : ∀ t ∈ P ++ Q, ¬ n = t.idx := by
    intro t ht h
    have h2 := hRnd
    rw [List.nodup_cons] at h2
    refine h2.1 ?_
    rw [h]
    rcases List.mem_append.1 ht with hp | hq
    · exact List.mem_append_left _ (List.mem_map.2 ⟨t, hp, rfl⟩)
    · exact List.mem_append_right _
        (List.mem_cons_of_mem _ (List.mem_map.2 ⟨t, hq, rfl⟩))
  have hringX : RingR s (x :: (Q.map ITree.idx ++ n :: P.map ITree.idx)) := by
    have h3 : RingR s ((n :: P.map ITree.idx) ++ (x :: Q.map ITree.idx)) := by
      have e : n :: (P.map ITree.idx ++ x :: Q.map ITree.idx)
          = (n :: P.map ITree.idx) ++ (x :: Q.map ITree.idx) := by simp
      rw [← e]
      exact hringR
    have h2 := RingR_append_comm.1 h3
    simpa using h2
  have hMne : Q.map ITree.idx ++ n :: P.map ITree.idx ≠ [] := by
    cases Q.map ITree.idx <;> simp
  have hSDtop0 : RingR (spliceOut s x) (Q.map ITree.idx ++ n :: P.map ITree.idx) :=
    ringr_spliceOut_erase hringX hMne
  have hSDtop : RingR (spliceOut s x)
      (n :: (P.map ITree.idx ++ Q.map ITree.idx)) := by
    have h2 := RingR_append_comm.1 hSDtop0
    simpa using h2
  have hSDx : RingR (spliceOut s x) [x] := ringr_spliceOut_singleton hxlt
  have hxtop : x ∉ n :: (P.map ITree.idx ++ Q.map ITree.idx) := by
    intro hmem
    have h2 := hRnd
    rw [List.nodup_cons] at h2
    have h3 := h2.2
    rw [List.nodup_append] at h3
    rcases List.mem_cons.1 hmem with he | hm2
    · exact hxn he
    · rcases List.mem_append.1 hm2 with hp | hq
      · exact h3.2.2 hp (List.mem_cons_self _ _)
      · have h4 := h3.2.1
        rw [List.nodup_cons] at h4
        exact h4.1 hq
  have hlift : ∀ a, a ∈ n :: (P.map ITree.idx ++ Q.map ITree.idx) →
      a ∈ n :: (P.map ITree.idx ++ x :: Q.map ITree.idx) := by
    intro a ha
    simp only [List.mem_cons, List.mem_append] at ha ⊢
    tauto
  have hmapN : ∀ ncs : List ITree,
      (ITree.node n ncs :: (P ++ Q)).map ITree.idx
        = n :: (P.map ITree.idx ++ Q.map ITree.idx) := by
    intro ncs
    simp [idx_node]
  rcases mcs with _ | ⟨⟨c0, c0cs⟩, mcr⟩
  · -- no previous children: the merged child ring is the singleton [x]
    have hchA : (getN s n).child = none := by simpa using hchn
    have hchSD : (getN (spliceOut s x) n).child = none := by
      rw [child_spliceOut]
      exact hchA
    have hLS : linkStep s n x =
        setDegree (setMarked (setParent (setChild (spliceOut s x) n (some x))
          x (some n)) x false) n
          ((getN (setMarked (setParent (setChild (spliceOut s x) n (some x))
            x (some n)) x false) n).degree + 1) := by
      show setDegree (setMarked (setParent (setChild
        (mergeCDLL (spliceOut s x) ((getN (spliceOut s x) n).child) (some x)).1 n
        ((mergeCDLL (spliceOut s x) ((getN (spliceOut s x) n).child)
          (some x)).2)) x (some n)) x false) n _ = _
      rw [hchSD]
      rfl
    have hperm : (ITree.supportList
          (ITree.node n [ITree.node x xcs] :: (P ++ Q))).Perm
        (ITree.supportList
          (ITree.node n [] :: (P ++ ITree.node x xcs :: Q))) := by
      rw [List.perm_iff_count]
      intro a
      simp only [supportList_cons, supportList_append, support_node,
        supportList_nil, List.count_append, List.count_cons, List.count_nil,
        List.append_nil]
      omega
    refine ⟨[ITree.node x xcs], ⟨?_, ?_, ?_, ?_⟩, hperm⟩
    · rw [hmapN, hLS]
      exact ringr_setDegree (ringr_setMarked (ringr_setParent
        (ringr_setChild hSDtop n (some x)) x (some n)) x false) n _
    · rw [treeRBList_iff]
      intro t ht
      rcases List.mem_cons.1 ht with rfl | htPQ
      · rw [treeRB_node_iff]
        refine ⟨?_, ?_, ?_, ?_, ?_⟩
        · rw [length_linkStep]
          exact hnlt
        · rw [degree_linkStep_self s n x hnlt]
          have h2 : (getN s n).degree = 0 := by simpa using hdegn
          rw [h2]
          rfl
        · rw [child_linkStep_self s n x hnlt, hchSD]
          rfl
        · have e : ([ITree.node x xcs].map ITree.idx) = [x] := by
            simp [idx_node]
          rw [e, hLS]
          exact ringr_setDegree (ringr_setMarked (ringr_setParent
            (ringr_setChild hSDx n (some x)) x (some n)) x false) n _
        · rw [treeRBList_iff]
          intro u hu
          rw [List.mem_singleton] at hu
          subst hu
          refine treeRB_frame_root x xcs (length_linkStep ..) ?_ ?_ ?_ htxF
          · intro k hk
            exact getN_linkStep_far_none hchA (hMn x xcs htxmem k hk)
              (hMx x xcs htxmem k hk) (hMpx x xcs htxmem k hk)
              (hMnx x xcs htxmem k hk)
          · exact degree_linkStep_ne s n x x (fun h => hxn h.symm)
          · exact child_linkStep_ne s n x x (fun h => hxn h.symm)
      · obtain ⟨r, rcs⟩ := t
        have htmem := hPQmem _ htPQ
        have hnr : ¬ n = r := hnrPQ _ htPQ
        refine treeRB_frame_root r rcs (length_linkStep ..) ?_ ?_ ?_
          (htrees _ htmem)
        · intro k hk
          exact getN_linkStep_far_none hchA (hMn r rcs htmem k hk)
            (hMx r rcs htmem k hk) (hMpx r rcs htmem k hk)
            (hMnx r rcs htmem k hk)
        · exact degree_linkStep_ne s n x r hnr
        · exact child_linkStep_ne s n x r hnr
    · exact hperm.nodup_iff.2 hnd
    · intro t ht
      have hkeq : ∀ k, (getN (linkStep s n x) k).key = (getN s k).key :=
        key_linkStep s n x
      rw [hkeq]
      refine boundB_keys t hkeq ?_
      rcases List.mem_cons.1 ht with rfl | htPQ
      · rw [idx_node, boundB_node_iff]
        refine ⟨le_refl _, ?_⟩
        rw [boundListB_iff]
        intro u hu
        rw [List.mem_singleton] at hu
        subst hu
        have hhx := hheap _ htxmem
        rw [idx_node] at hhx
        exact bound_mono _ hkey hhx
      · exact hheap t (hPQmem t htPQ)
  · -- previous children: merge x into the child ring of n
    have hchB : (getN s n).child = some c0 := by simpa [idx_node] using hchn
    have hchSDB : (getN (spliceOut s x) n).child = some c0 := by
      rw [child_spliceOut]
      exact hchB
    rw [List.map_cons, idx_node] at hringn
    have hndmcs : (ITree.supportList (ITree.node c0 c0cs :: mcr)).Nodup := by
      have h2 := support_nodup_of_mem hnd htnmem
      rw [support_node, List.nodup_cons] at h2
      exact h2.2
    have hc0supp : c0 ∈ ITree.supportList (ITree.node c0 c0cs :: mcr) := by
      have h2 := idx_mem_supportList (List.mem_cons_self (ITree.node c0 c0cs) mcr)
      rwa [idx_node] at h2
    have hCRsupp : ∀ k ∈ c0 :: mcr.map ITree.idx,
        k ∈ ITree.supportList (ITree.node c0 c0cs :: mcr) := by
      intro k hk
      refine map_idx_subset_supportList ?_
      rw [List.map_cons, idx_node]
      exact hk
    have hc0x : ¬ c0 = x :=
      fun h => hMx n _ htnmem c0 hc0supp h.symm
    have hpxc0 : ¬ (getN s x).prev = c0 := hMpx n _ htnmem c0 hc0supp
    have hc0lt : c0 < s.nodes.length := hringn.2.1 _ (List.mem_cons_self _ _)
    have hnextc0CR : (getN s c0).next ∈ c0 :: mcr.map ITree.idx :=
      ringr_next_mem hringn (List.mem_cons_self _ _)
    have hnextc0supp : (getN s c0).next ∈
        ITree.supportList (ITree.node c0 c0cs :: mcr) := hCRsupp _ hnextc0CR
    have hSDc : RingR (spliceOut s x) (c0 :: mcr.map ITree.idx) := by
      refine ringr_transfer (length_spliceOut ..) ?_ ?_ hringn
      · intro k hk
        exact next_spliceOut_ne s x k (hMpx n _ htnmem k (hCRsupp k hk))
          (hMx n _ htnmem k (hCRsupp k hk))
      · intro k hk
        exact prev_spliceOut_ne s x k (hMnx n _ htnmem k (hCRsupp k hk))
          (hMx n _ htnmem k (hCRsupp k hk))
    have hdisjcx : ∀ a ∈ c0 :: mcr.map ITree.idx, a ∉ [x] := by
      intro a ha hmem
      rw [List.mem_singleton] at hmem
      exact hMx n _ htnmem a (hCRsupp a ha) hmem.symm
    have hmring : RingR (mergeCDLL (spliceOut s x) (some c0) (some x)).1
        (c0 :: x :: mcr.map ITree.idx) := by
      have h2 := ring_mergeCDLL hSDc hSDx hdisjcx
      simpa using h2
    have hm2 : (mergeCDLL (spliceOut s x) (some c0) (some x)).2
        = some (if (getN s x).key < (getN s c0).key then x else c0) := by
      rw [snd_mergeCDLL]
      simp only [key_spliceOut]
    have hLSB : linkStep s n x =
        setDegree (setMarked (setParent (setChild
          (mergeCDLL (spliceOut s x) (some c0) (some x)).1 n
          ((mergeCDLL (spliceOut s x) (some c0) (some x)).2))
          x (some n)) x false) n
          ((getN (setMarked (setParent (setChild
            (mergeCDLL (spliceOut s x) (some c0) (some x)).1 n
            ((mergeCDLL (spliceOut s x) (some c0) (some x)).2))
            x (some n)) x false) n).degree + 1) := by
      show setDegree (setMarked (setParent (setChild
        (mergeCDLL (spliceOut s x) ((getN (spliceOut s x) n).child) (some x)).1 n
        ((mergeCDLL (spliceOut s x) ((getN (spliceOut s x) n).child)
          (some x)).2)) x (some n)) x false) n _ = _
      rw [hchSDB]
    have hFarB : ∀ k, ¬ n = k → ¬ x = k → ¬ (getN s x).prev = k →
        ¬ (getN s x).next = k → ¬ c0 = k → ¬ (getN s c0).next = k →
        getN (linkStep s n x) k = getN s k := by
      intro k h1 h2 h3 h4 h5 h6
      exact getN_linkStep_far_some hchB hc0x hpxc0 hc0lt hxlt h1 h2 h3 h4 h5 h6
    have hneqTnTx : ¬ ITree.node n (ITree.node c0 c0cs :: mcr)
        = ITree.node x xcs := by
      intro h
      injection h with h1 _
      exact hxn h1.symm
    have hc0notTx : ∀ k ∈ ITree.supportList xcs, ¬ c0 = k := by
      intro k hk heq
      refine supportList_disjoint_of_ne hnd _ htnmem _ htxmem hneqTnTx c0 ?_ ?_
      · rw [support_node]
        exact List.mem_cons_of_mem _ hc0supp
      · rw [support_node, heq]
        exact List.mem_cons_of_mem _ hk
    have hnc0notTx : ∀ k ∈ ITree.supportList xcs, ¬ (getN s c0).next = k := by
      intro k hk heq
      refine supportList_disjoint_of_ne hnd _ htnmem _ htxmem hneqTnTx
        ((getN s c0).next) ?_ ?_
      · rw [support_node]
        exact List.mem_cons_of_mem _ hnextc0supp
      · rw [support_node, heq]
        exact List.mem_cons_of_mem _ hk
    have hneqTnPQ : ∀ t ∈ P ++ Q,
        ¬ ITree.node n (ITree.node c0 c0cs :: mcr) = t := by
      intro t ht h
      refine hnrPQ t ht ?_
      rw [← h, idx_node]
    have hc0notPQ : ∀ t ∈ P ++ Q, ∀ k ∈ t.support, ¬ c0 = k := by
      intro t ht k hk heq
      refine supportList_disjoint_of_ne hnd _ htnmem _ (hPQmem t ht)
        (hneqTnPQ t ht) c0 ?_ ?_
      · rw [support_node]
        exact List.mem_cons_of_mem _ hc0supp
      · rw [heq]
        exact hk
    have hnc0notPQ : ∀ t ∈ P ++ Q, ∀ k ∈ t.support,
        ¬ (getN s c0).next = k := by
      intro t ht k hk heq
      refine supportList_disjoint_of_ne hnd _ htnmem _ (hPQmem t ht)
        (hneqTnPQ t ht) ((getN s c0).next) ?_ ?_
      · rw [support_node]
        exact List.mem_cons_of_mem _ hnextc0supp
      · rw [heq]
        exact hk
    have hmcsR := treeRBList_iff.1 hmcsL
    have hbtn := hheap _ htnmem
    rw [idx_node, boundB_node_iff] at hbtn
    have hbtnL := boundListB_iff.1 hbtn.2
    have hhx := hheap _ htxmem
    rw [idx_node] at hhx
    -- common pieces for the top ring of the result
    have hc0top : c0 ∉ n :: (P.map ITree.idx ++ Q.map ITree.idx) := by
      intro hmem
      exact hMaster c0 (hlift c0 hmem) n _ htnmem c0 hc0supp rfl
    have hxtop2 : x ∉ n :: (P.map ITree.idx ++ Q.map ITree.idx) := hxtop
    have hnSDc0 : (getN (spliceOut s x) c0).next = (getN s c0).next :=
      next_spliceOut_ne s x c0 hpxc0 (fun h => hc0x h.symm)
    have hnc0top : (getN (spliceOut s x) c0).next ∉
        n :: (P.map ITree.idx ++ Q.map ITree.idx) := by
      rw [hnSDc0]
      intro hmem
      exact hMaster _ (hlift _ hmem) n _ htnmem _ hnextc0supp rfl
    have hnxtop : (getN (spliceOut s x) x).next ∉
        n :: (P.map ITree.idx ++ Q.map ITree.idx) := by
      rw [next_spliceOut_self s x hxlt]
      exact hxtop
    have hringTopRes : RingR (linkStep s n x)
        (n :: (P.map ITree.idx ++ Q.map ITree.idx)) := by
      rw [hLSB]
      refine ringr_setDegree (ringr_setMarked (ringr_setParent
        (ringr_setChild ?_ n _) x (some n)) x false) n _
      refine ringr_mergeCDLL_notmem hSDtop c0 x hc0top hxtop2 hnc0top hnxtop
        hc0x ?_ ?_
      · rw [length_spliceOut]
        exact hc0lt
      · rw [length_spliceOut]
        exact hxlt
    -- realization of every subtree member of the new child list
    have hsubmcs : ∀ u ∈ ITree.node c0 c0cs :: mcr,
        treeRB (linkStep s n x) u = true := by
      intro u hu
      obtain ⟨r, rcs⟩ := u
      have hrsupp : r ∈ ITree.supportList (ITree.node c0 c0cs :: mcr) := by
        have h2 := idx_mem_supportList hu
        rwa [idx_node] at h2
      have hksupp : ∀ k ∈ ITree.supportList rcs,
          k ∈ ITree.supportList (ITree.node c0 c0cs :: mcr) := by
        intro k hk
        refine mem_supportList_of_mem hu ?_
        rw [support_node]
        exact List.mem_cons_of_mem _ hk
      refine treeRB_frame_root r rcs (length_linkStep ..) ?_ ?_ ?_ (hmcsR _ hu)
      · intro k hk
        refine hFarB k (hMn n _ htnmem k (hksupp k hk))
          (hMx n _ htnmem k (hksupp k hk)) (hMpx n _ htnmem k (hksupp k hk))
          (hMnx n _ htnmem k (hksupp k hk)) ?_ ?_
        · have h2 := root_ne_inner hndmcs (List.mem_cons_self _ _) hu k hk
          rwa [idx_node] at h2
        · have hmm2 : (getN s c0).next ∈
              (ITree.node c0 c0cs :: mcr).map ITree.idx := by
            rw [List.map_cons, idx_node]
            exact hnextc0CR
          rcases List.mem_map.1 hmm2 with ⟨t2, ht2, he⟩
          intro heq
          exact root_ne_inner hndmcs ht2 hu k hk (he.trans heq)
      · exact degree_linkStep_ne s n x r (hMn n _ htnmem r hrsupp)
      · exact child_linkStep_ne s n x r (hMn n _ htnmem r hrsupp)
    have hsubtx : treeRB (linkStep s n x) (ITree.node x xcs) = true := by
      refine treeRB_frame_root x xcs (length_linkStep ..) ?_ ?_ ?_ htxF
      · intro k hk
        exact hFarB k (hMn x xcs htxmem k hk) (hMx x xcs htxmem k hk)
          (hMpx x xcs htxmem k hk) (hMnx x xcs htxmem k hk)
          (hc0notTx k hk) (hnc0notTx k hk)
      · exact degree_linkStep_ne s n x x (fun h => hxn h.symm)
      · exact child_linkStep_ne s n x x (fun h => hxn h.symm)
    have hsubPQ : ∀ t ∈ P ++ Q, treeRB (linkStep s n x) t = true := by
      intro t ht
      obtain ⟨r, rcs⟩ := t
      have htmem := hPQmem _ ht
      have hnr : ¬ n = r := by
        have h2 := hnrPQ _ ht
        rwa [idx_node] at h2
      refine treeRB_frame_root r rcs (length_linkStep ..) ?_ ?_ ?_
        (htrees _ htmem)
      · intro k hk
        have hksupp : k ∈ (ITree.node r rcs).support := by
          rw [support_node]
          exact List.mem_cons_of_mem _ hk
        exact hFarB k (hMn r rcs htmem k hk) (hMx r rcs htmem k hk)
          (hMpx r rcs htmem k hk) (hMnx r rcs htmem k hk)
          (hc0notPQ _ ht k hksupp) (hnc0notPQ _ ht k hksupp)
      · exact degree_linkStep_ne s n x r hnr
      · exact child_linkStep_ne s n x r hnr
    have hkeq : ∀ k, (getN (linkStep s n x) k).key = (getN s k).key :=
      key_linkStep s n x
    have hdegRes : (getN (linkStep s n x) n).degree
        = mcr.length + 2 := by
      rw [degree_linkStep_self s n x hnlt]
      have h2 : (getN s n).degree = mcr.length + 1 := by simpa using hdegn
      omega
    by_cases hlt : (getN s x).key < (getN s c0).key
    · -- x becomes the new child pointer
      have hperm : (ITree.supportList (ITree.node n
            (ITree.node x xcs :: (mcr ++ [ITree.node c0 c0cs])) :: (P ++ Q))).Perm
          (ITree.supportList (ITree.node n (ITree.node c0 c0cs :: mcr)
            :: (P ++ ITree.node x xcs :: Q))) := by
        rw [List.perm_iff_count]
        intro a
        simp only [supportList_cons, supportList_append, support_node,
          supportList_nil, List.count_append, List.count_cons, List.count_nil,
          List.append_nil]
        omega
      refine ⟨ITree.node x xcs :: (mcr ++ [ITree.node c0 c0cs]),
        ⟨?_, ?_, ?_, ?_⟩, hperm⟩
      · rw [hmapN]
        exact hringTopRes
      · rw [treeRBList_iff]
        intro t ht
        rcases List.mem_cons.1 ht with rfl | htPQ
        · rw [treeRB_node_iff]
          refine ⟨?_, ?_, ?_, ?_, ?_⟩
          · rw [length_linkStep]
            exact hnlt
          · rw [hdegRes]
            simp
          · rw [child_linkStep_self s n x hnlt, hchSDB, hm2]
            simp [hlt, idx_node]
          · have e : ((ITree.node x xcs :: (mcr ++ [ITree.node c0 c0cs])).map
                ITree.idx) = x :: (mcr.map ITree.idx ++ [c0]) := by
              simp [idx_node]
            rw [e, hLSB]
            refine ringr_setDegree (ringr_setMarked (ringr_setParent
              (ringr_setChild ?_ n _) x (some n)) x false) n _
            have h3 : RingR (mergeCDLL (spliceOut s x) (some c0) (some x)).1
                ([c0] ++ (x :: mcr.map ITree.idx)) := by simpa using hmring
            have h2 := RingR_append_comm.1 h3
            simpa using h2
          · rw [treeRBList_iff]
            intro u hu
            rcases List.mem_cons.1 hu with rfl | hu2
            · exact hsubtx
            · rcases List.mem_append.1 hu2 with hu3 | hu3
              · exact hsubmcs _ (List.mem_cons_of_mem _ hu3)
              · rw [List.mem_singleton] at hu3
                subst hu3
                exact hsubmcs _ (List.mem_cons_self _ _)
        · exact treeRBList_iff.1 (by rw [treeRBList_iff]; exact hsubPQ) t htPQ
      · exact hperm.nodup_iff.2 hnd
      · intro t ht
        rw [hkeq]
        refine boundB_keys t hkeq ?_
        rcases List.mem_cons.1 ht with rfl | htPQ
        · rw [idx_node, boundB_node_iff]
          refine ⟨le_refl _, ?_⟩
          rw [boundListB_iff]
          intro u hu
          rcases List.mem_cons.1 hu with rfl | hu2
          · exact bound_mono _ hkey hhx
          · rcases List.mem_append.1 hu2 with hu3 | hu3
            · exact hbtnL _ (List.mem_cons_of_mem _ hu3)
            · rw [List.mem_singleton] at hu3
              subst hu3
              exact hbtnL _ (List.mem_cons_self _ _)
        · exact hheap t (hPQmem t htPQ)
    · -- c0 keeps the child pointer
      have hperm : (ITree.supportList (ITree.node n
            (ITree.node c0 c0cs :: ITree.node x xcs :: mcr) :: (P ++ Q))).Perm
          (ITree.supportList (ITree.node n (ITree.node c0 c0cs :: mcr)
            :: (P ++ ITree.node x xcs :: Q))) := by
        rw [List.perm_iff_count]
        intro a
        simp only [supportList_cons, supportList_append, support_node,
          supportList_nil, List.count_append, List.count_cons, List.count_nil,
          List.append_nil]
        omega
      refine ⟨ITree.node c0 c0cs :: ITree.node x xcs :: mcr,
        ⟨?_, ?_, ?_, ?_⟩, hperm⟩
      · rw [hmapN]
        exact hringTopRes
      · rw [treeRBList_iff]
        intro t ht
        rcases List.mem_cons.1 ht with rfl | htPQ
        · rw [treeRB_node_iff]
          refine ⟨?_, ?_, ?_, ?_, ?_⟩
          · rw [length_linkStep]
            exact hnlt
          · rw [hdegRes]
            simp
          · rw [child_linkStep_self s n x hnlt, hchSDB, hm2]
            simp [hlt, idx_node]
          · have e : ((ITree.node c0 c0cs :: ITree.node x xcs :: mcr).map
                ITree.idx) = c0 :: x :: mcr.map ITree.idx := by
              simp [idx_node]
            rw [e, hLSB]
            exact ringr_setDegree (ringr_setMarked (ringr_setParent
              (ringr_setChild hmring n _) x (some n)) x false) n _
          · rw [treeRBList_iff]
            intro u hu
            rcases List.mem_cons.1 hu with rfl | hu2
            · exact hsubmcs _ (List.mem_cons_self _ _)
            · rcases List.mem_cons.1 hu2 with rfl | hu3
              · exact hsubtx
              · exact hsubmcs _ (List.mem_cons_of_mem _ hu3)
        · exact hsubPQ t htPQ
      · exact hperm.nodup_iff.2 hnd
      · intro t ht
        rw [hkeq]
        refine boundB_keys t hkeq ?_
        rcases List.mem_cons.1 ht with rfl | htPQ
        · rw [idx_node, boundB_node_iff]
          refine ⟨le_refl _, ?_⟩
          rw [boundListB_iff]
          intro u hu
          rcases List.mem_cons.1 hu with rfl | hu2
          · exact hbtnL _ (List.mem_cons_self _ _)
          · rcases List.mem_cons.1 hu2 with rfl | hu3
            · exact bound_mono _ hkey hhx
            · exact hbtnL _ (List.mem_cons_of_mem _ hu3)
        · exact hheap t (hPQmem t htPQ)

theorem padTable_getD (t : List (Option Nat)) (d k : Nat) :
    (padTable t d).getD k none = t.getD k none := by
  unfold padTable
  rcases Nat.lt_or_ge k t.length with h | h
  · rw [List.getD_append _ _ _ _ h]
  · rw [List.getD_eq_getElem?_getD, List.getD_eq_getElem?_getD]
    rw [List.getElem?_append_right h, List.getElem?_replicate]
    rw [List.getElem?_eq_none h]
    split <;> rfl

theorem padTable_length (t : List (Option Nat)) (d : Nat) :
    d < (padTable t d).length := by
  unfold padTable
  rw [List.length_append, List.length_replicate]
  omega

theorem getD_set_self (t : List (Option Nat)) (d : Nat) (v : Option Nat)
    (h : d < t.length) : (t.set d v).getD d none = v := by
  rw [List.getD_eq_getElem?_getD, List.getElem?_set_self']
  simp [h]

theorem getD_set_ne (t : List (Option Nat)) (d k : Nat) (v : Option Nat)
    (h : ¬ d = k) : (t.set d v).getD k none = t.getD k none := by
  rw [List.getD_eq_getElem?_getD, List.getD_eq_getElem?_getD,
    List.getElem?_set_ne h]

theorem supportList_perm_append (A B : List ITree) :
    (ITree.supportList (A ++ B)).Perm (ITree.supportList (B ++ A)) := by
  rw [supportList_append, supportList_append]
  exact List.perm_append_comm

/-- The contract of the inner consolidation loop relative to its inputs:
the resulting forest, degree table and chain head. -/
structure InnerOut (s : FibHeap K V) (table : List (Option Nat)) (tc : ITree)
    (R : List ITree) (s2 : FibHeap K V) (table2 : List (Option Nat))
    (tc2 : ITree) (R2 : List ITree) : Prop where
  inv : ForestInv s2 (tc2 :: R2)
  perm : (ITree.supportList (tc2 :: R2)).Perm (ITree.supportList (tc :: R))
  keys : ∀ k, (getN s2 k).key = (getN s k).key
  len : s2.nodes.length = s.nodes.length
  entry : table2.getD ((getN s2 tc2.idx).degree) none = some tc2.idx
  tabOK : ∀ d e, table2.getD d none = some e →
    (e = tc2.idx ∧ (getN s2 e).degree = d) ∨
    (table.getD d none = some e ∧ ∃ u ∈ R2, u.idx = e ∧ (getN s2 e).degree = d)
  dom : ∀ a, a ∈ (tc :: R).map ITree.idx → a ∉ (tc2 :: R2).map ITree.idx →
    (getN s2 tc2.idx).key ≤ (getN s a).key
  start : (getN s2 tc2.idx).key ≤ (getN s tc.idx).key
  oldTab : ∀ d e, table.getD d none = some e → table2.getD d none = some e ∨
    e ∉ (tc2 :: R2).map ITree.idx ∨ e = tc2.idx
  removed : ∀ a, a ∈ (tc :: R).map ITree.idx → a ∉ (tc2 :: R2).map ITree.idx →
    (a = tc.idx ∨ ∃ d, table.getD d none = some a)
  newCurr : tc2.idx = tc.idx ∨ ∃ d, table.getD d none = some tc2.idx
  headFate : tc.idx = tc2.idx ∨ tc.idx ∉ (tc2 :: R2).map ITree.idx
  sub : ∀ a, a ∈ (tc2 :: R2).map ITree.idx → a ∈ (tc :: R).map ITree.idx

theorem innerCons_spec (fuel : Nat) :
    ∀ (s : FibHeap K V) (table : List (Option Nat)) (tc : ITree)
      (R : List ITree) (s2 : FibHeap K V) (table2 : List (Option Nat))
      (c2 : Nat),
      ForestInv s (tc :: R) →
      (∀ d e, table.getD d none = some e →
        ∃ u ∈ tc :: R, u.idx = e ∧ (getN s e).degree = d) →
      (∀ d, ¬ table.getD d none = some tc.idx) →
      innerCons fuel s table tc.idx = some (s2, table2, c2) →
      ∃ tc2 R2, c2 = tc2.idx ∧ InnerOut s table tc R s2 table2 tc2 R2 := by
  induction fuel with
  | zero =>
    intro s table tc R s2 table2 c2 _ _ _ hrun
    exact absurd hrun (by simp [innerCons])
  | succ fuel ih =>
    intro s table tc R s2 table2 c2 hinv hTab hNoc hrun
    obtain ⟨ci, ccs⟩ := tc
    simp only [idx_node] at hTab hNoc hrun ⊢
    rw [innerCons] at hrun
    split at hrun
    · -- a free slot: the current tree is recorded and the loop stops
      rename_i heq
      simp only [Option.some.injEq, Prod.mk.injEq] at hrun
      obtain ⟨hs2, htb2, hc2⟩ := hrun
      subst hs2
      subst htb2
      subst hc2
      refine ⟨ITree.node ci ccs, R, rfl, ?_⟩
      refine ⟨hinv, List.Perm.refl _, fun k => rfl, rfl, ?_, ?_, ?_,
        le_refl _, ?_, ?_, Or.inl rfl, Or.inl rfl, fun a ha => ha⟩
      · rw [idx_node]
        exact getD_set_self _ _ _ (padTable_length table _)
      · intro d e he
        by_cases hd : (getN s ci).degree = d
        · rw [← hd] at he
          rw [getD_set_self _ _ _ (padTable_length table _)] at he
          have he2 : e = ci := by
            have := he.symm
            injection this
          refine Or.inl ⟨by rw [he2, idx_node], ?_⟩
          rw [he2, ← hd]
        · rw [getD_set_ne _ _ _ _ hd, padTable_getD] at he
          obtain ⟨u, hu, huidx, hudeg⟩ := hTab d e he
          rcases List.mem_cons.1 hu with rfl | huR
          · rw [idx_node] at huidx
            exact absurd (by rw [huidx]; exact he) (hNoc d)
          · exact Or.inr ⟨he, u, huR, huidx, hudeg⟩
      · intro a ha hna
        exact absurd ha hna
      · intro d e he
        by_cases hd : (getN s ci).degree = d
        · exfalso
          rw [padTable_getD] at heq
          rw [← hd] at he
          rw [he] at heq
          exact absurd heq (by simp)
        · rw [getD_set_ne _ _ _ _ hd, padTable_getD]
          exact Or.inl he
      · intro a ha hna
        exact absurd ha hna
    · -- an occupied slot: link with the occupant and keep going
      rename_i other heq
      have heqT : table.getD ((getN s ci).degree) none = some other := by
        rw [← padTable_getD table ((getN s ci).degree)]
        exact heq
      obtain ⟨u, hu, huidx, hudeg⟩ := hTab _ other heqT
      have hune : ¬ u = ITree.node ci ccs := by
        intro h
        subst h
        rw [idx_node] at huidx
        exact hNoc _ (by rw [huidx]; exact heqT)
      have huR : u ∈ R := by
        rcases List.mem_cons.1 hu with h | h
        · exact absurd h hune
        · exact h
      obtain ⟨P1, Q1, hRdec⟩ := List.append_of_mem huR
      subst hRdec
      obtain ⟨uo, uocs⟩ := u
      rw [idx_node] at huidx
      subst huidx
      have hRingNd := hinv.1.1
      have hRingNd' : (ci :: (P1.map ITree.idx ++ uo :: Q1.map ITree.idx)).Nodup := by
        simpa only [List.map_cons, List.map_append, idx_node] using hRingNd
      rw [List.nodup_cons] at hRingNd'
      obtain ⟨hciT, hT⟩ := hRingNd'
      rw [List.nodup_append, List.nodup_cons] at hT
      obtain ⟨hP1nd, ⟨huoQ1, hQ1nd⟩, hdisjPQ⟩ := hT
      have hRingNd2 : ¬ uo = ci ∧ uo ∉ P1.map ITree.idx ∧
          uo ∉ Q1.map ITree.idx ∧ ci ∉ P1.map ITree.idx ∧
          ci ∉ Q1.map ITree.idx := by
        refine ⟨?_, ?_, huoQ1, ?_, ?_⟩
        · intro h
          refine hciT ?_
          rw [← h]
          exact List.mem_append_right _ (List.mem_cons_self _ _)
        · intro h
          exact hdisjPQ h (List.mem_cons_self _ _)
        · intro h
          exact hciT (List.mem_append_left _ h)
        · intro h
          exact hciT (List.mem_append_right _ (List.mem_cons_of_mem _ h))
      by_cases hcmp : (getN s uo).key < (getN s ci).key
      · -- the occupant wins: it becomes the new chain head
        simp only [if_pos hcmp] at hrun
        have hinv2 : ForestInv s
            (ITree.node uo uocs :: (Q1 ++ ITree.node ci ccs :: P1)) :=
          forestInv_rotate_ex (ITree.node ci ccs :: P1)
            (ITree.node uo uocs :: Q1) hinv
        obtain ⟨ncs, hlinkInv, hlinkPerm⟩ :=
          linkStep_spec hinv2 (le_of_lt hcmp)
        have hT1 : ∀ d e,
            ((padTable table ((getN s ci).degree)).set ((getN s ci).degree)
              none).getD d none = some e →
            ¬ (getN s ci).degree = d ∧ table.getD d none = some e := by
          intro d e he
          by_cases hd : (getN s ci).degree = d
          · rw [← hd, getD_set_self _ _ _ (padTable_length table _)] at he
            exact absurd he (by simp)
          · rw [getD_set_ne _ _ _ _ hd, padTable_getD] at he
            exact ⟨hd, he⟩
        have hT2 : ∀ d e, table.getD d none = some e →
            ¬ (getN s ci).degree = d →
            ((padTable table ((getN s ci).degree)).set ((getN s ci).degree)
              none).getD d none = some e := by
          intro d e he hd
          rw [getD_set_ne _ _ _ _ hd, padTable_getD]
          exact he
        have hTab2 : ∀ d e,
            ((padTable table ((getN s ci).degree)).set ((getN s ci).degree)
              none).getD d none = some e →
            ∃ u2 ∈ ITree.node uo ncs :: (Q1 ++ P1), u2.idx = e ∧
              (getN (linkStep s uo ci) e).degree = d := by
          intro d e he
          obtain ⟨hd, he2⟩ := hT1 d e he
          obtain ⟨u2, hu2, hid2, hdeg2⟩ := hTab d e he2
          have hne2 : ¬ u2 = ITree.node ci ccs := by
            intro h
            subst h
            rw [idx_node] at hid2
            exact hNoc d (by rw [hid2]; exact he2)
          have hne3 : ¬ u2 = ITree.node uo uocs := by
            intro h
            subst h
            rw [idx_node] at hid2
            rw [hid2] at hudeg
            exact hd (hudeg.symm.trans hdeg2)
          have hu2R : u2 ∈ Q1 ++ P1 := by
            rcases List.mem_cons.1 hu2 with h | h
            · exact absurd h hne2
            · rcases List.mem_append.1 h with h2 | h2
              · exact List.mem_append_right _ h2
              · rcases List.mem_cons.1 h2 with h3 | h3
                · exact absurd h3 hne3
                · exact List.mem_append_left _ h3
          have hnoth : ¬ uo = e := by
            intro h
            rw [← h] at hdeg2
            exact hd (hudeg.symm.trans hdeg2)
          refine ⟨u2, List.mem_cons_of_mem _ hu2R, hid2, ?_⟩
          rw [degree_linkStep_ne s uo ci e hnoth]
          exact hdeg2
        have hNoc2 : ∀ d,
            ¬ ((padTable table ((getN s ci).degree)).set ((getN s ci).degree)
              none).getD d none = some uo := by
          intro d he
          obtain ⟨hd, he2⟩ := hT1 d uo he
          obtain ⟨u2, hu2, hid2, hdeg2⟩ := hTab d uo he2
          exact hd (hudeg.symm.trans hdeg2)
        have hrun2 : innerCons fuel (linkStep s uo ci)
            ((padTable table ((getN s ci).degree)).set ((getN s ci).degree)
              none) (ITree.node uo ncs).idx = some (s2, table2, c2) := hrun
        obtain ⟨tc2, R2, hc2eq, hOut⟩ := ih (linkStep s uo ci) _
          (ITree.node uo ncs) (Q1 ++ P1) s2 table2 c2 hlinkInv hTab2
          hNoc2 hrun2
        have hmid_sub_old : ∀ a,
            a ∈ (ITree.node uo ncs :: (Q1 ++ P1)).map ITree.idx →
            a ∈ (ITree.node ci ccs ::
              (P1 ++ ITree.node uo uocs :: Q1)).map ITree.idx := by
          intro a ha
          simp only [List.map_cons, List.map_append, idx_node, List.mem_cons,
            List.mem_append] at ha ⊢
          tauto
        have hold_not_mid : ∀ a,
            a ∈ (ITree.node ci ccs ::
              (P1 ++ ITree.node uo uocs :: Q1)).map ITree.idx →
            a ∉ (ITree.node uo ncs :: (Q1 ++ P1)).map ITree.idx →
            a = ci := by
          intro a ha hna
          simp only [List.map_cons, List.map_append, idx_node, List.mem_cons,
            List.mem_append] at ha hna
          tauto
        have hstart2 : (getN s2 tc2.idx).key ≤ (getN s ci).key := by
          have h1 : (getN s2 tc2.idx).key ≤ (getN (linkStep s uo ci) uo).key :=
            hOut.start
          rw [key_linkStep] at h1
          exact le_trans h1 (le_of_lt hcmp)
        refine ⟨tc2, R2, hc2eq, ?_⟩
        refine ⟨hOut.inv, ?_, ?_, ?_, hOut.entry, ?_, ?_, ?_, ?_, ?_, ?_,
          ?_, ?_⟩
        · refine hOut.perm.trans (hlinkPerm.trans ?_)
          exact supportList_perm_append (ITree.node uo uocs :: Q1)
            (ITree.node ci ccs :: P1)
        · intro k
          rw [hOut.keys k, key_linkStep]
        · rw [hOut.len, length_linkStep]
        · intro d e he
          rcases hOut.tabOK d e he with h | ⟨htb, hex⟩
          · exact Or.inl h
          · exact Or.inr ⟨(hT1 d e htb).2, hex⟩
        · intro a ha hna
          by_cases hm : a ∈ (ITree.node uo ncs :: (Q1 ++ P1)).map ITree.idx
          · have h1 := hOut.dom a hm hna
            rw [key_linkStep] at h1
            exact h1
          · rw [hold_not_mid a ha hm]
            exact hstart2
        · exact hstart2
        · intro d e he
          by_cases hd : (getN s ci).degree = d
          · have heo : e = uo := by
              rw [← hd] at he
              rw [he] at heqT
              injection heqT
            subst e
            rcases hOut.headFate with hfe | hfe
            · have hfe2 : uo = tc2.idx := hfe
              exact Or.inr (Or.inr hfe2)
            · have hfe2 : uo ∉ (tc2 :: R2).map ITree.idx := hfe
              exact Or.inr (Or.inl hfe2)
          · rcases hOut.oldTab d e (hT2 d e he hd) with h | h
            · exact Or.inl h
            · exact Or.inr h
        · intro a ha hna
          by_cases hm : a ∈ (ITree.node uo ncs :: (Q1 ++ P1)).map ITree.idx
          · rcases hOut.removed a hm hna with h | ⟨d, hd⟩
            · have h2 : a = uo := h
              refine Or.inr ⟨(getN s ci).degree, ?_⟩
              rw [h2]
              exact heqT
            · exact Or.inr ⟨d, (hT1 d a hd).2⟩
          · exact Or.inl (hold_not_mid a ha hm)
        · rcases hOut.newCurr with h | ⟨d, hd⟩
          · have h2 : tc2.idx = uo := h
            refine Or.inr ⟨(getN s ci).degree, ?_⟩
            rw [h2]
            exact heqT
          · exact Or.inr ⟨d, (hT1 d _ hd).2⟩
        · refine Or.inr ?_
          intro hfin
          have h2 := hOut.sub ci hfin
          simp only [List.map_cons, List.map_append, idx_node, List.mem_cons,
            List.mem_append] at h2
          rcases h2 with h3 | h3
          · exact hRingNd2.1 h3.symm
          · rcases h3 with h4 | h4
            · exact hRingNd2.2.2.2.2 h4
            · exact hRingNd2.2.2.2.1 h4
        · intro a ha
          exact hmid_sub_old a (hOut.sub a ha)
      · -- the current tree wins and absorbs the occupant
        simp only [if_neg hcmp] at hrun
        obtain ⟨ncs, hlinkInv, hlinkPerm⟩ :=
          linkStep_spec hinv (not_lt.1 hcmp)
        have hT1 : ∀ d e,
            ((padTable table ((getN s ci).degree)).set ((getN s ci).degree)
              none).getD d none = some e →
            ¬ (getN s ci).degree = d ∧ table.getD d none = some e := by
          intro d e he
          by_cases hd : (getN s ci).degree = d
          · rw [← hd, getD_set_self _ _ _ (padTable_length table _)] at he
            exact absurd he (by simp)
          · rw [getD_set_ne _ _ _ _ hd, padTable_getD] at he
            exact ⟨hd, he⟩
        have hT2 : ∀ d e, table.getD d none = some e →
            ¬ (getN s ci).degree = d →
            ((padTable table ((getN s ci).degree)).set ((getN s ci).degree)
              none).getD d none = some e := by
          intro d e he hd
          rw [getD_set_ne _ _ _ _ hd, padTable_getD]
          exact he
        have hTab2 : ∀ d e,
            ((padTable table ((getN s ci).degree)).set ((getN s ci).degree)
              none).getD d none = some e →
            ∃ u2 ∈ ITree.node ci ncs :: (P1 ++ Q1), u2.idx = e ∧
              (getN (linkStep s ci uo) e).degree = d := by
          intro d e he
          obtain ⟨hd, he2⟩ := hT1 d e he
          obtain ⟨u2, hu2, hid2, hdeg2⟩ := hTab d e he2
          have hne2 : ¬ u2 = ITree.node ci ccs := by
            intro h
            subst h
            rw [idx_node] at hid2
            exact hNoc d (by rw [hid2]; exact he2)
          have hne3 : ¬ u2 = ITree.node uo uocs := by
            intro h
            subst h
            rw [idx_node] at hid2
            rw [hid2] at hudeg
            exact hd (hudeg.symm.trans hdeg2)
          have hu2R : u2 ∈ P1 ++ Q1 := by
            rcases List.mem_cons.1 hu2 with h | h
            · exact absurd h hne2
            · rcases List.mem_append.1 h with h2 | h2
              · exact List.mem_append_left _ h2
              · rcases List.mem_cons.1 h2 with h3 | h3
                · exact absurd h3 hne3
                · exact List.mem_append_right _ h3
          have hcie : ¬ ci = e := by
            intro h
            rw [← h] at he2
            exact hNoc d he2
          refine ⟨u2, List.mem_cons_of_mem _ hu2R, hid2, ?_⟩
          rw [degree_linkStep_ne s ci uo e hcie]
          exact hdeg2
        have hNoc2 : ∀ d,
            ¬ ((padTable table ((getN s ci).degree)).set ((getN s ci).degree)
              none).getD d none = some ci := by
          intro d he
          exact hNoc d (hT1 d ci he).2
        have hrun2 : innerCons fuel (linkStep s ci uo)
            ((padTable table ((getN s ci).degree)).set ((getN s ci).degree)
              none) (ITree.node ci ncs).idx = some (s2, table2, c2) := hrun
        obtain ⟨tc2, R2, hc2eq, hOut⟩ := ih (linkStep s ci uo) _
          (ITree.node ci ncs) (P1 ++ Q1) s2 table2 c2 hlinkInv hTab2
          hNoc2 hrun2
        have hmid_sub_old : ∀ a,
            a ∈ (ITree.node ci ncs :: (P1 ++ Q1)).map ITree.idx →
            a ∈ (ITree.node ci ccs ::
              (P1 ++ ITree.node uo uocs :: Q1)).map ITree.idx := by
          intro a ha
          simp only [List.map_cons, List.map_append, idx_node, List.mem_cons,
            List.mem_append] at ha ⊢
          tauto
        have hold_not_mid : ∀ a,
            a ∈ (ITree.node ci ccs ::
              (P1 ++ ITree.node uo uocs :: Q1)).map ITree.idx →
            a ∉ (ITree.node ci ncs :: (P1 ++ Q1)).map ITree.idx →
            a = uo := by
          intro a ha hna
          simp only [List.map_cons, List.map_append, idx_node, List.mem_cons,
            List.mem_append] at ha hna
          tauto
        have hstart2 : (getN s2 tc2.idx).key ≤ (getN s ci).key := by
          have h1 : (getN s2 tc2.idx).key ≤ (getN (linkStep s ci uo) ci).key :=
            hOut.start
          rw [key_linkStep] at h1
          exact h1
        refine ⟨tc2, R2, hc2eq, ?_⟩
        refine ⟨hOut.inv, ?_, ?_, ?_, hOut.entry, ?_, ?_, ?_, ?_, ?_, ?_,
          ?_, ?_⟩
        · exact hOut.perm.trans hlinkPerm
        · intro k
          rw [hOut.keys k, key_linkStep]
        · rw [hOut.len, length_linkStep]
        · intro d e he
          rcases hOut.tabOK d e he with h | ⟨htb, hex⟩
          · exact Or.inl h
          · exact Or.inr ⟨(hT1 d e htb).2, hex⟩
        · intro a ha hna
          by_cases hm : a ∈ (ITree.node ci ncs :: (P1 ++ Q1)).map ITree.idx
          · have h1 := hOut.dom a hm hna
            rw [key_linkStep] at h1
            exact h1
          · rw [hold_not_mid a ha hm]
            exact le_trans hstart2 (not_lt.1 hcmp)
        · exact hstart2
        · intro d e he
          by_cases hd : (getN s ci).degree = d
          · have heo : e = uo := by
              rw [← hd] at he
              rw [he] at heqT
              injection heqT
            subst e
            refine Or.inr (Or.inl ?_)
            intro hfin
            have h2 := hOut.sub uo hfin
            simp only [List.map_cons, List.map_append, idx_node,
              List.mem_cons, List.mem_append] at h2
            rcases h2 with h3 | h3
            · exact hRingNd2.1 h3
            · rcases h3 with h4 | h4
              · exact hRingNd2.2.1 h4
              · exact hRingNd2.2.2.1 h4
          · rcases hOut.oldTab d e (hT2 d e he hd) with h | h
            · exact Or.inl h
            · exact Or.inr h
        · intro a ha hna
          by_cases hm : a ∈ (ITree.node ci ncs :: (P1 ++ Q1)).map ITree.idx
          · rcases hOut.removed a hm hna with h | ⟨d, hd⟩
            · have h2 : a = ci := h
              exact Or.inl h2
            · exact Or.inr ⟨d, (hT1 d a hd).2⟩
          · refine Or.inr ⟨(getN s ci).degree, ?_⟩
            rw [hold_not_mid a ha hm]
            exact heqT
        · rcases hOut.newCurr with h | ⟨d, hd⟩
          · have h2 : tc2.idx = ci := h
            exact Or.inl h2
          · exact Or.inr ⟨d, (hT1 d _ hd).2⟩
        · rcases hOut.headFate with h | h
          · have h2 : ci = tc2.idx := h
            exact Or.inl h2
          · have h2 : ci ∉ (tc2 :: R2).map ITree.idx := h
            exact Or.inr h2
        · intro a ha
          exact hmid_sub_old a (hOut.sub a ha)

theorem consLoop_spec (fuel : Nat) :
    ∀ (pend : List Nat) (s : FibHeap K V) (table : List (Option Nat))
      (ts : List ITree) (root : Nat) (s4 : FibHeap K V) (rootF : Nat),
      ForestInv s ts →
      (∀ d e, table.getD d none = some e →
        ∃ u ∈ ts, u.idx = e ∧ (getN s e).degree = d) →
      (∀ t ∈ ts, (∃ d, table.getD d none = some t.idx) ∨ t.idx ∈ pend) →
      (∀ d e, table.getD d none = some e → e ∉ pend) →
      pend.Nodup →
      (∀ a ∈ pend, a ∈ ts.map ITree.idx) →
      root ∈ ts.map ITree.idx →
      (∀ d e, table.getD d none = some e →
        (getN s root).key ≤ (getN s e).key) →
      consLoop fuel s table pend root = some (s4, rootF) →
      ∃ ts4 : List ITree,
        ForestInv s4 ts4 ∧
        (ITree.supportList ts4).Perm (ITree.supportList ts) ∧
        rootF ∈ ts4.map ITree.idx ∧
        (∀ t1 ∈ ts4, ∀ t2 ∈ ts4,
          (getN s4 t1.idx).degree = (getN s4 t2.idx).degree →
          t1.idx = t2.idx) ∧
        (∀ t ∈ ts4, (getN s4 rootF).key ≤ (getN s4 t.idx).key) := by
  intro pend
  induction pend with
  | nil =>
    intro s table ts root s4 rootF hinv hTab hstat htp _ _ hrootm hrootmin hrun
    rw [consLoop] at hrun
    simp only [Option.some.injEq, Prod.mk.injEq] at hrun
    obtain ⟨hs4, hrf⟩ := hrun
    subst hs4
    subst hrf
    refine ⟨ts, hinv, List.Perm.refl _, hrootm, ?_, ?_⟩
    · intro t1 ht1 t2 ht2 hdeq
      rcases hstat t1 ht1 with ⟨d1, he1⟩ | hp
      · rcases hstat t2 ht2 with ⟨d2, he2⟩ | hp
        · obtain ⟨u1, _, _, hdeg1⟩ := hTab d1 _ he1
          obtain ⟨u2, _, _, hdeg2⟩ := hTab d2 _ he2
          have hd12 : d1 = d2 := by rw [← hdeg1, ← hdeg2, hdeq]
          rw [hd12] at he1
          rw [he1] at he2
          injection he2
        · exact absurd hp (by simp)
      · exact absurd hp (by simp)
    · intro t ht
      rcases hstat t ht with ⟨d, he⟩ | hp
      · exact hrootmin d t.idx he
      · exact absurd hp (by simp)
  | cons c rest ihp =>
    intro s table ts root s4 rootF hinv hTab hstat htp hnodup hpendR hrootm
      hrootmin hrun
    rw [consLoop] at hrun
    split at hrun
    · exact absurd hrun (by simp)
    · rename_i s2 table2 c2 heqI
      -- locate the tree of the head of the worklist inside the forest
      have hcR : c ∈ ts.map ITree.idx := hpendR c (List.mem_cons_self _ _)
      obtain ⟨tc, htcmem, htcidx⟩ := List.mem_map.1 hcR
      obtain ⟨A, B, hdec⟩ := List.append_of_mem htcmem
      subst hdec
      have hinvR : ForestInv s (tc :: (B ++ A)) :=
        forestInv_rotate_ex A (tc :: B) hinv
      have hmemRot : ∀ u, u ∈ A ++ tc :: B → u ∈ tc :: (B ++ A) := by
        intro u hu
        simp only [List.mem_cons, List.mem_append] at hu ⊢
        tauto
      have hmemRot2 : ∀ u, u ∈ tc :: (B ++ A) → u ∈ A ++ tc :: B := by
        intro u hu
        simp only [List.mem_cons, List.mem_append] at hu ⊢
        tauto
      have hTabR : ∀ d e, table.getD d none = some e →
          ∃ u ∈ tc :: (B ++ A), u.idx = e ∧ (getN s e).degree = d := by
        intro d e he
        obtain ⟨u, hu, h1, h2⟩ := hTab d e he
        exact ⟨u, hmemRot u hu, h1, h2⟩
      have hNoc : ∀ d, ¬ table.getD d none = some tc.idx := by
        intro d he
        rw [htcidx] at he
        exact htp d c he (List.mem_cons_self _ _)
      have heqI2 : innerCons fuel s table tc.idx = some (s2, table2, c2) := by
        rw [htcidx]
        exact heqI
      obtain ⟨tc2, R2, hc2eq, O⟩ := innerCons_spec fuel s table tc (B ++ A)
        s2 table2 c2 hinvR hTabR hNoc heqI2
      have hfinNd : ((tc2 :: R2).map ITree.idx).Nodup := O.inv.1.1
      -- the worklist head is never in the tail of the worklist
      have hcrest : c ∉ rest := (List.nodup_cons.1 hnodup).1
      -- facts about survival of pending indices
      have hrestSurv : ∀ a ∈ rest, a ∈ (tc2 :: R2).map ITree.idx := by
        intro a ha
        by_cases hfin : a ∈ (tc2 :: R2).map ITree.idx
        · exact hfin
        · exfalso
          have haR : a ∈ (tc :: (B ++ A)).map ITree.idx := by
            have h2 := hpendR a (List.mem_cons_of_mem _ ha)
            rcases List.mem_map.1 h2 with ⟨u, hu, hue⟩
            exact List.mem_map.2 ⟨u, hmemRot u hu, hue⟩
          rcases O.removed a haR hfin with h | ⟨d, hd⟩
          · rw [htcidx] at h
            exact hcrest (h ▸ ha)
          · exact htp d a hd (List.mem_cons_of_mem _ ha)
      have hc2rest : tc2.idx ∉ rest := by
        rcases O.newCurr with h | ⟨d, hd⟩
        · rw [htcidx] at h
          intro hmem
          exact hcrest (h ▸ hmem)
        · intro hmem
          exact htp d _ hd (List.mem_cons_of_mem _ hmem)
      -- hypotheses of the recursive call
      have hTab2 : ∀ d e, table2.getD d none = some e →
          ∃ u ∈ tc2 :: R2, u.idx = e ∧ (getN s2 e).degree = d := by
        intro d e he
        rcases O.tabOK d e he with ⟨h1, h2⟩ | ⟨_, u, hu, h1, h2⟩
        · exact ⟨tc2, List.mem_cons_self _ _, h1.symm, h2⟩
        · exact ⟨u, List.mem_cons_of_mem _ hu, h1, h2⟩
      have hstat2 : ∀ t ∈ tc2 :: R2,
          (∃ d, table2.getD d none = some t.idx) ∨ t.idx ∈ rest := by
        intro t ht
        rcases List.mem_cons.1 ht with rfl | htR2
        · exact Or.inl ⟨_, O.entry⟩
        · -- a surviving tree keeps its old status
          have htfin : t.idx ∈ (tc2 :: R2).map ITree.idx :=
            List.mem_map.2 ⟨t, ht, rfl⟩
          have htold : t.idx ∈ (tc :: (B ++ A)).map ITree.idx := O.sub _ htfin
          have htne : ¬ t.idx = tc2.idx := by
            intro h
            have h2 := hfinNd
            rw [List.map_cons, List.nodup_cons] at h2
            refine h2.1 ?_
            rw [← h]
            exact List.mem_map.2 ⟨t, htR2, rfl⟩
          rcases List.mem_map.1 htold with ⟨u, hu, hue⟩
          have hu2 := hmemRot2 u hu
          rcases hstat u (by
            rcases List.mem_append.1 hu2 with h | h
            · exact List.mem_append_left _ h
            · exact List.mem_append_right _ h) with ⟨d, hd⟩ | hp
          · rw [hue] at hd
            rcases O.oldTab d t.idx hd with h | h2
            · exact Or.inl ⟨d, h⟩
            · rcases h2 with h3 | h3
              · exact absurd htfin h3
              · exact absurd h3 htne
          · rw [hue] at hp
            rcases List.mem_cons.1 hp with h | h
            · exfalso
              rw [← htcidx] at h
              rcases O.headFate with h4 | h4
              · exact htne (h.trans h4)
              · rw [← h] at h4
                exact h4 htfin
            · exact Or.inr h
      have htp2 : ∀ d e, table2.getD d none = some e → e ∉ rest := by
        intro d e he
        rcases O.tabOK d e he with ⟨h1, _⟩ | ⟨hold, _⟩
        · rw [h1]
          exact hc2rest
        · intro hmem
          exact htp d e hold (List.mem_cons_of_mem _ hmem)
      have hrootold : root ∈ (tc :: (B ++ A)).map ITree.idx := by
        rcases List.mem_map.1 hrootm with ⟨u, hu, hue⟩
        exact List.mem_map.2 ⟨u, hmemRot u hu, hue⟩
      have hkeyc2 : (getN s2 c2).key = (getN s2 tc2.idx).key := by
        rw [hc2eq]
      have hroot2m : (if (getN s2 c2).key ≤ (getN s2 root).key then c2
          else root) ∈ (tc2 :: R2).map ITree.idx := by
        split
        · rw [hc2eq]
          exact List.mem_map.2 ⟨tc2, List.mem_cons_self _ _, rfl⟩
        · rename_i hcond
          by_cases hfin : root ∈ (tc2 :: R2).map ITree.idx
          · exact hfin
          · exfalso
            have h1 := O.dom root hrootold hfin
            rw [← O.keys root] at h1
            rw [← hkeyc2] at h1
            exact hcond h1
      have hroot2min : ∀ d e, table2.getD d none = some e →
          (getN s2 (if (getN s2 c2).key ≤ (getN s2 root).key then c2
            else root)).key ≤ (getN s2 e).key := by
        intro d e he
        rcases O.tabOK d e he with ⟨h1, _⟩ | ⟨hold, _⟩
        · rw [h1]
          split
          · rw [hc2eq]
          · rename_i hcond
            have h2 := not_le.1 hcond
            rw [hkeyc2] at h2
            exact le_of_lt h2
        · have hochain : (getN s root).key ≤ (getN s e).key :=
            hrootmin d e hold
          split
          · rename_i hcond
            refine le_trans hcond ?_
            rw [O.keys root, O.keys e]
            exact hochain
          · rw [O.keys root, O.keys e]
            exact hochain
      obtain ⟨ts4, h1, h2, h3, h4, h5⟩ := ihp s2 table2 (tc2 :: R2) _ s4 rootF
        O.inv hTab2 hstat2 htp2 (List.nodup_cons.1 hnodup).2 hrestSurv
        hroot2m hroot2min hrun
      refine ⟨ts4, h1, ?_, h3, h4, h5⟩
      refine h2.trans (O.perm.trans ?_)
      exact supportList_perm_append (tc :: B) A

theorem boundB_self {s : FibHeap K V} {lo : K} :
    ∀ {t : ITree}, boundB s lo t = true →
      boundB s (getN s t.idx).key t = true
  | .node i cs, h => by
    rw [boundB_node_iff] at h ⊢
    exact ⟨le_refl _, h.2⟩

theorem clearParentsGo_frames {stop : Nat} :
    ∀ (fuel : Nat) (s : FibHeap K V) (curr : Nat) (s2 : FibHeap K V),
      clearParentsGo stop fuel s curr = some s2 →
      s2.nodes.length = s.nodes.length ∧
      (∀ k, (getN s2 k).key = (getN s k).key) ∧
      (∀ k, (getN s2 k).next = (getN s k).next) ∧
      (∀ k, (getN s2 k).prev = (getN s k).prev) ∧
      (∀ k, (getN s2 k).child = (getN s k).child) ∧
      (∀ k, (getN s2 k).degree = (getN s k).degree)
  | 0, s, curr, s2, h => absurd h (by simp [clearParentsGo])
  | fuel + 1, s, curr, s2, h => by
    rw [clearParentsGo] at h
    split at h
    · have h2 : setParent s curr none = s2 := by
        injection h
      subst h2
      refine ⟨length_setParent .., fun k => key_setParent ..,
        fun k => next_setParent .., fun k => prev_setParent ..,
        fun k => child_setParent .., fun k => degree_setParent ..⟩
    · have h2 := clearParentsGo_frames fuel (setParent s curr none) _ s2 h
      obtain ⟨e1, e2, e3, e4, e5, e6⟩ := h2
      refine ⟨?_, ?_, ?_, ?_, ?_, ?_⟩
      · rw [e1, length_setParent]
      · intro k
        rw [e2 k, key_setParent]
      · intro k
        rw [e3 k, next_setParent]
      · intro k
        rw [e4 k, prev_setParent]
      · intro k
        rw [e5 k, child_setParent]
      · intro k
        rw [e6 k, degree_setParent]

theorem collectRing_go {s : FibHeap K V} {r : Nat} {M : List Nat}
    (hring : RingR s (r :: M)) :
    ∀ (fuel : Nat) (done todo : List Nat) (curr : Nat) (L : List Nat),
      r :: M = done ++ todo → done.head? = some r →
      curr = todo.headD r →
      collectRing s fuel done curr = some L → L = r :: M
  | 0, done, todo, curr, L, _, _, _, h => absurd h (by simp [collectRing])
  | fuel + 1, done, todo, curr, L, hdec, hhead, hcurr, h => by
    rcases done with _ | ⟨d0, done2⟩
    · exact absurd hhead (by simp)
    have hd0 : r = d0 := by
      rw [List.head?_cons] at hhead
      injection hhead with hh
      exact hh.symm
    subst hd0
    rw [collectRing] at h
    split at h
    · -- the accumulator has a head
      rename_i first heqf
      have hfr : r = first := by
        rw [List.head?_cons] at heqf
        injection heqf with hh
      subst hfr
      split at h
      · -- the walk closed: the accumulator is the full ring
        rename_i hrq
        have hL : r :: done2 = L := by
          injection h with hh
        rcases todo with _ | ⟨t, todo2⟩
        · rw [← hL]
          rw [List.append_nil] at hdec
          exact hdec.symm
        · exfalso
          have hct : curr = t := by simpa using hcurr
          have hrt : r = t := hrq.trans hct
          have hM : M = done2 ++ t :: todo2 := by
            rw [List.cons_append] at hdec
            injection hdec
          have hnd := hring.1
          rw [List.nodup_cons] at hnd
          refine hnd.1 ?_
          rw [hM, hrt]
          exact List.mem_append_right _ (List.mem_cons_self _ _)
      · -- keep walking
        rename_i hrq
        rcases todo with _ | ⟨t, todo2⟩
        · exact absurd hcurr.symm hrq
        have hct : curr = t := by simpa using hcurr
        subst hct
        have hringD : RingR s ((r :: done2) ++ curr :: todo2) := by
          rw [← hdec]
          exact hring
        have hringT : RingR s (curr :: (todo2 ++ (r :: done2))) := by
          have h2 := RingR_append_comm.1 hringD
          simpa using h2
        have hnext := ringr_next_head hringT
        have hnextv : (getN s curr).next = todo2.headD r := by
          rw [hnext]
          rcases todo2 with _ | ⟨y, ys⟩
          · rfl
          · rfl
        refine collectRing_go hring fuel ((r :: done2) ++ [curr]) todo2
          ((getN s curr).next) L ?_ ?_ hnextv h
        · rw [hdec, List.append_assoc]
          rfl
        · rfl
    · rename_i heqf
      rw [List.head?_cons] at heqf
      exact absurd heqf (by simp)

theorem collectRing_spec {s : FibHeap K V} {r : Nat} {M : List Nat}
    {fuel : Nat} {L : List Nat}
    (hring : RingR s (r :: M)) (h : collectRing s fuel [] r = some L) :
    L = r :: M := by
  cases fuel with
  | zero => exact absurd h (by simp [collectRing])
  | succ fuel =>
    exact collectRing_go hring fuel [r] M ((getN s r).next) L rfl rfl
      (ringr_next_head hring) h

/-- Detaching the head of a nontrivial top ring: pointwise effect of the
two pointer writes of `extract_min`, plus preservation of every tree. -/
theorem detach_spec {s : FibHeap K V} {m : Nat} {cs : List ITree}
    {u1 : ITree} {ts1 : List ITree}
    (hinv : ForestInv s (ITree.node m cs :: (u1 :: ts1))) :
    RingR (setPrev (setNext s ((getN s m).prev) ((getN s m).next))
        ((getN s m).next) ((getN s m).prev)) ((u1 :: ts1).map ITree.idx) ∧
    treeRBList (setPrev (setNext s ((getN s m).prev) ((getN s m).next))
        ((getN s m).next) ((getN s m).prev)) (u1 :: ts1) = true ∧
    treeRB (setPrev (setNext s ((getN s m).prev) ((getN s m).next))
        ((getN s m).next) ((getN s m).prev)) (ITree.node m cs) = true ∧
    (∀ k, (getN (setPrev (setNext s ((getN s m).prev) ((getN s m).next))
        ((getN s m).next) ((getN s m).prev)) k).key = (getN s k).key) ∧
    (setPrev (setNext s ((getN s m).prev) ((getN s m).next))
        ((getN s m).next) ((getN s m).prev)).nodes.length = s.nodes.length ∧
    getN (setPrev (setNext s ((getN s m).prev) ((getN s m).next))
        ((getN s m).next) ((getN s m).prev)) m = getN s m := by
  obtain ⟨hring, htreesL, hnd, hheap⟩ := hinv
  have htrees := treeRBList_iff.1 htreesL
  have hmap : (ITree.node m cs :: (u1 :: ts1)).map ITree.idx
      = m :: (u1 :: ts1).map ITree.idx := by
    simp [idx_node]
  have hringR : RingR s (m :: (u1 :: ts1).map ITree.idx) := by
    rw [hmap] at hring
    exact hring
  have hMne : (u1 :: ts1).map ITree.idx ≠ [] := by simp
  have hmlt : m < s.nodes.length :=
    hringR.2.1 m (List.mem_cons_self _ _)
  have hpmR : (getN s m).prev ∈ m :: (u1 :: ts1).map ITree.idx :=
    ringr_prev_mem hringR (List.mem_cons_self _ _)
  have hnmR : (getN s m).next ∈ m :: (u1 :: ts1).map ITree.idx :=
    ringr_next_mem hringR (List.mem_cons_self _ _)
  have hpmlt : (getN s m).prev < s.nodes.length := hringR.2.1 _ hpmR
  have hnmlt : (getN s m).next < s.nodes.length := hringR.2.1 _ hnmR
  have hndR := hringR.1
  have hpmm : ¬ (getN s m).prev = m := by
    have h2 := ringr_prev_head hringR hMne
    rw [h2]
    intro h3
    rw [List.nodup_cons] at hndR
    refine hndR.1 ?_
    rw [← h3]
    exact List.getLast_mem hMne
  have hnmm : ¬ (getN s m).next = m := by
    have h2 := ringr_next_head hringR
    rw [h2]
    intro h3
    rw [List.nodup_cons] at hndR
    refine hndR.1 ?_
    rw [← h3]
    rcases hu : (u1 :: ts1).map ITree.idx with _ | ⟨w, W⟩
    · exact absurd hu hMne
    · simp
  have hMaster : ∀ a ∈ m :: (u1 :: ts1).map ITree.idx,
      ∀ (r : Nat) (rcs : List ITree),
        ITree.node r rcs ∈ ITree.node m cs :: (u1 :: ts1) →
        ∀ k ∈ ITree.supportList rcs, ¬ a = k := by
    intro a ha r rcs ht k hk heq
    rw [← hmap] at ha
    rcases List.mem_map.1 ha with ⟨t2, ht2, he⟩
    exact root_ne_inner hnd ht2 ht k hk (he.trans heq)
  have hfar : ∀ k, ¬ (getN s m).prev = k → ¬ (getN s m).next = k →
      getN (setPrev (setNext s ((getN s m).prev) ((getN s m).next))
        ((getN s m).next) ((getN s m).prev)) k = getN s k := by
    intro k h1 h2
    rw [getN_setPrev_ne _ h2, getN_setNext_ne _ h1]
  refine ⟨?_, ?_, ?_, ?_, ?_, ?_⟩
  · refine ring_erase_core hringR hMne ?_ ?_ ?_ ?_ ?_
    · simp only [length_setPrev, length_setNext]
    · intro k hk
      rw [next_setPrev, next_setNext_ne _ _ _ _ (fun h => hk h.symm)]
    · rw [next_setPrev, next_setNext_self _ _ _ hpmlt]
    · intro k hk
      rw [prev_setPrev_ne _ _ _ _ (fun h => hk h.symm), prev_setNext]
    · rw [prev_setPrev_self]
      rw [length_setNext]
      exact hnmlt
  · rw [treeRBList_iff]
    intro t ht
    obtain ⟨r, rcs⟩ := t
    have htmem : ITree.node r rcs ∈ ITree.node m cs :: (u1 :: ts1) :=
      List.mem_cons_of_mem _ ht
    refine treeRB_frame_root r rcs (by simp only [length_setPrev,
      length_setNext]) ?_ ?_ ?_ (htrees _ htmem)
    · intro k hk
      exact hfar k (hMaster _ hpmR r rcs htmem k hk)
        (hMaster _ hnmR r rcs htmem k hk)
    · simp only [degree_setPrev, degree_setNext]
    · simp only [child_setPrev, child_setNext]
  · refine treeRB_frame_root m cs (by simp only [length_setPrev,
      length_setNext]) ?_ ?_ ?_ (htrees _ (List.mem_cons_self _ _))
    · intro k hk
      exact hfar k (hMaster _ hpmR m cs (List.mem_cons_self _ _) k hk)
        (hMaster _ hnmR m cs (List.mem_cons_self _ _) k hk)
    · simp only [degree_setPrev, degree_setNext]
    · simp only [child_setPrev, child_setNext]
  · intro k
    simp only [key_setPrev, key_setNext]
  · simp only [length_setPrev, length_setNext]
  · exact hfar m hpmm hnmm

mutual

/-- Transfer a tree realization along equal `next`, `prev`, `child` and
`degree` fields on the support (the `parent`, `marked` and `key` fields
are free to change). -/
theorem treeRB_frame_fields {s s2 : FibHeap K V} :
    ∀ (i : Nat) (cs : List ITree),
      s2.nodes.length = s.nodes.length →
      (∀ k ∈ ITree.supportList cs, (getN s2 k).next = (getN s k).next ∧
        (getN s2 k).prev = (getN s k).prev ∧
        (getN s2 k).child = (getN s k).child ∧
        (getN s2 k).degree = (getN s k).degree) →
      (getN s2 i).degree = (getN s i).degree →
      (getN s2 i).child = (getN s i).child →
      treeRB s (.node i cs) = true → treeRB s2 (.node i cs) = true
  | i, cs, hlen, heq, hdeg, hch, h => by
    rw [treeRB_node_iff] at h ⊢
    refine ⟨hlen ▸ h.1, hdeg ▸ h.2.1, hch ▸ h.2.2.1, ?_, ?_⟩
    · refine ringr_transfer hlen (fun k hk => ?_) (fun k hk => ?_) h.2.2.2.1
      · exact (heq k (map_idx_subset_supportList hk)).1
      · exact (heq k (map_idx_subset_supportList hk)).2.1
    · exact treeRBList_frame_fields cs hlen heq h.2.2.2.2

theorem treeRBList_frame_fields {s s2 : FibHeap K V} :
    ∀ (ts : List ITree),
      s2.nodes.length = s.nodes.length →
      (∀ k ∈ ITree.supportList ts, (getN s2 k).next = (getN s k).next ∧
        (getN s2 k).prev = (getN s k).prev ∧
        (getN s2 k).child = (getN s k).child ∧
        (getN s2 k).degree = (getN s k).degree) →
      treeRBList s ts = true → treeRBList s2 ts = true
  | [], _, _, _ => rfl
  | ITree.node i cs :: ts, hlen, heq, h => by
    have h2 : treeRB s (.node i cs) = true ∧ treeRBList s ts = true := by
      simpa [treeRBList] using h
    have heqi := heq i (by
      rw [supportList_cons]
      refine List.mem_append_left _ ?_
      rw [support_node]
      exact List.mem_cons_self i _)
    have hsub : ∀ k ∈ ITree.supportList cs, (getN s2 k).next = (getN s k).next ∧
        (getN s2 k).prev = (getN s k).prev ∧
        (getN s2 k).child = (getN s k).child ∧
        (getN s2 k).degree = (getN s k).degree := by
      intro k hk
      refine heq k ?_
      rw [supportList_cons]
      refine List.mem_append_left _ ?_
      rw [support_node]
      exact List.mem_cons_of_mem _ hk
    have hts : ∀ k ∈ ITree.supportList ts, (getN s2 k).next = (getN s k).next ∧
        (getN s2 k).prev = (getN s k).prev ∧
        (getN s2 k).child = (getN s k).child ∧
        (getN s2 k).degree = (getN s k).degree := by
      intro k hk
      exact heq k (by rw [supportList_cons]; exact List.mem_append_right _ hk)
    have hA := treeRB_frame_fields i cs hlen hsub heqi.2.2.2 heqi.2.2.1 h2.1
    have hB := treeRBList_frame_fields ts hlen hts h2.2
    simp [treeRBList, hA, hB]

end

/-- The consolidation phase of `extract_min`: collect the ring into the
visit list and run the linking loop.  Afterwards the ring carries
pairwise distinct degrees and the tracked root carries the minimum key
of the whole forest. -/
theorem consolidate_tail {s3 : FibHeap K V} {ts3 : List ITree} {r : Nat}
    {M : List Nat} {fuel : Nat} {toVisit : List Nat} {s4 : FibHeap K V}
    {rootF : Nat}
    (hinv3 : ForestInv s3 ts3)
    (hM : ts3.map ITree.idx = r :: M)
    (hCR : collectRing s3 fuel [] r = some toVisit)
    (hCL : consLoop fuel s3 [] toVisit r = some (s4, rootF)) :
    ∃ ts4 : List ITree,
      ForestInv s4 ts4 ∧
      (ITree.supportList ts4).Perm (ITree.supportList ts3) ∧
      rootF ∈ ts4.map ITree.idx ∧
      ((ts4.map ITree.idx).map (fun a => (getN s4 a).degree)).Nodup ∧
      (∀ k ∈ ITree.supportList ts4, (getN s4 rootF).key ≤ (getN s4 k).key) := by
  have hring : RingR s3 (r :: M) := by
    rw [← hM]
    exact hinv3.1
  have hTV : toVisit = r :: M := collectRing_spec hring hCR
  subst hTV
  have hnil : ∀ (d : Nat), ([] : List (Option Nat)).getD d none = none := by
    intro d
    rfl
  obtain ⟨ts4, hinv4, hperm4, hrootF, hinj, hmin⟩ :=
    consLoop_spec fuel (r :: M) s3 [] ts3 r s4 rootF hinv3
      (by intro d e he; rw [hnil] at he; exact absurd he (by simp))
      (by intro t ht
          refine Or.inr ?_
          rw [← hM]
          exact List.mem_map.2 ⟨t, ht, rfl⟩)
      (by intro d e he; rw [hnil] at he; exact absurd he (by simp))
      hring.1
      (by intro a ha; rw [← hM] at ha; exact ha)
      (by rw [hM]; exact List.mem_cons_self _ _)
      (by intro d e he; rw [hnil] at he; exact absurd he (by simp))
      hCL
  refine ⟨ts4, hinv4, hperm4, hrootF, ?_, ?_⟩
  · refine List.Nodup.map_on ?_ hinv4.1.1
    intro a ha b hb hde
    rcases List.mem_map.1 ha with ⟨t1, ht1, he1⟩
    rcases List.mem_map.1 hb with ⟨t2, ht2, he2⟩
    rw [← he1, ← he2]
    refine hinj t1 ht1 t2 ht2 ?_
    rw [he1, he2]
    exact hde
  · intro k hk
    rcases mem_supportList.1 hk with ⟨t, ht, hkt⟩
    have h1 := hinv4.2.2.2 t ht
    have h2 := bound_le t h1 k hkt
    exact le_trans (hmin t ht) h2

theorem getN_nodes_eq {s s2 : FibHeap K V} (h : s2.nodes = s.nodes)
    (k : Nat) : getN s2 k = getN s k := by
  unfold getN
  rw [h]

theorem forestInv_nodes_eq {s s2 : FibHeap K V} (h : s2.nodes = s.nodes)
    {ts : List ITree} (hf : ForestInv s ts) : ForestInv s2 ts := by
  obtain ⟨h1, h2, h3, h4⟩ := hf
  have hlen : s2.nodes.length = s.nodes.length := by rw [h]
  have hg := getN_nodes_eq h
  refine ⟨ringr_transfer hlen (fun k _ => by rw [hg]) (fun k _ => by rw [hg]) h1,
    treeRBList_frame ts hlen (fun k _ => hg k) h2, h3, ?_⟩
  intro t ht
  rw [hg]
  exact boundB_keys t (fun k => by rw [hg]) (h4 t ht)

theorem forestInv_withRoot {s : FibHeap K V} {r : Option Nat} {z : Int}
    {ts : List ITree} (hf : ForestInv s ts) :
    ForestInv { nodes := s.nodes, root := r, size := z } ts := by
  refine forestInv_nodes_eq ?_ hf
  rfl

/-- C9: on the Fibonacci heap engine, whenever `extract_min` returns leaving
the heap non-empty, consolidation has run: the resulting state is realized by a
root forest in which no two roots of the root ring share a degree, and the
designated root referenced by the heap holds the minimum key among all nodes
remaining in the heap (the original nodes minus the extracted minimum). -/
theorem fib_consolidation_main {s : FibHeap K V} {m : Nat} {cs ts1 : List ITree}
    {fuel : Nat} {res : Except PyErr (K × V)} {s5 : FibHeap K V} {r2 : Nat}
    (hroot : s.root = some m)
    (hinv : ForestInv s (ITree.node m cs :: ts1))
    (hrun : fibExtractMin fuel s = some (res, s5))
    (hr2 : s5.root = some r2) :
    ∃ tsf : List ITree,
      ForestInv s5 tsf ∧
      r2 ∈ tsf.map ITree.idx ∧
      ((tsf.map ITree.idx).map (fun a => (getN s5 a).degree)).Nodup ∧
      (∀ k ∈ ITree.supportList tsf, (getN s5 r2).key ≤ (getN s5 k).key) ∧
      (m :: ITree.supportList tsf).Perm
        (ITree.supportList (ITree.node m cs :: ts1)) := by
  rw [fibExtractMin] at hrun
  rw [hroot] at hrun
  dsimp only [] at hrun
  set sz : FibHeap K V :=
    { nodes := s.nodes, root := some m, size := s.size - 1 } with hsz
  have hinvZ : ForestInv sz (ITree.node m cs :: ts1) :=
    forestInv_nodes_eq (by rw [hsz]) hinv
  rcases ts1 with _ | ⟨⟨q, qcs⟩, ts1p⟩
  · -- the extracted node was the only root
    have hringZ : RingR sz [m] := by
      have h2 := hinvZ.1
      simpa [idx_node] using h2
    have hsel : (getN sz m).next = m := ringr_singleton_next hringZ
    rw [if_pos hsel] at hrun
    dsimp only [] at hrun
    have htm : treeRB sz (ITree.node m cs) = true :=
      treeRBList_iff.1 hinvZ.2.1 _ (List.mem_cons_self _ _)
    rw [treeRB_node_iff] at htm
    rcases cs with _ | ⟨⟨c0, c0cs⟩, cst⟩
    · -- no children either: the heap empties and the root is cleared
      have hch : (getN sz m).child = none := htm.2.2.1
      rw [hch] at hrun
      dsimp only [mergeCDLL] at hrun
      rw [hch] at hrun
      dsimp only [] at hrun
      simp only [Option.some.injEq, Prod.mk.injEq] at hrun
      obtain ⟨hres, hs5⟩ := hrun
      subst hs5
      exact absurd (show (none : Option Nat) = some r2 from hr2) (by simp)
    · -- the children become the new root ring
      have hch : (getN sz m).child = some c0 := by
        simpa [idx_node] using htm.2.2.1
      rw [hch] at hrun
      dsimp only [] at hrun
      split at hrun
      · exact absurd hrun (by simp)
      · rename_i s2cl heqCP
        obtain ⟨hfL, hfK, hfN, hfP, hfC, hfD⟩ :=
          clearParentsGo_frames fuel sz c0 s2cl heqCP
        have hclch : (getN s2cl m).child = some c0 := by
          rw [hfC m]
          exact hch
        rw [hclch] at hrun
        dsimp only [mergeCDLL] at hrun
        split at hrun
        · exact absurd hrun (by simp)
        · rename_i toVisit heqCR
          split at hrun
          · exact absurd hrun (by simp)
          · rename_i s4 rootF heqCL
            simp only [Option.some.injEq, Prod.mk.injEq] at hrun
            obtain ⟨hres, hs5⟩ := hrun
            subst hs5
            have hr2b : some rootF = some r2 := hr2
            injection hr2b with hrf
            subst hrf
            -- the forest entering consolidation: the former child trees
            have hringCsz : RingR sz (c0 :: cst.map ITree.idx) := by
              have h2 := htm.2.2.2.1
              simpa [idx_node] using h2
            have hinvC : ForestInv s2cl (ITree.node c0 c0cs :: cst) := by
              refine ⟨?_, ?_, ?_, ?_⟩
              · have h3 : RingR s2cl (c0 :: cst.map ITree.idx) := by
                  refine ringr_transfer hfL (fun k _ => hfN k)
                    (fun k _ => hfP k) hringCsz
                simpa [idx_node] using h3
              · refine treeRBList_frame_fields _ hfL ?_ htm.2.2.2.2
                intro k _
                exact ⟨hfN k, hfP k, hfC k, hfD k⟩
              · have h2 := hinvZ.2.2.1
                rw [supportList_cons, supportList_nil, List.append_nil,
                  support_node, List.nodup_cons] at h2
                exact h2.2
              · intro t ht
                have hb := hinvZ.2.2.2 _ (List.mem_cons_self _ _)
                have hb2 : boundB sz (getN sz m).key
                    (ITree.node m (ITree.node c0 c0cs :: cst)) = true := hb
                rw [boundB_node_iff] at hb2
                have hb3 := boundListB_iff.1 hb2.2 t ht
                rw [hfK t.idx]
                exact boundB_keys t hfK (boundB_self hb3)
            have hinv3 : ForestInv
                { nodes := s2cl.nodes, root := some c0, size := s2cl.size }
                (ITree.node c0 c0cs :: cst) :=
              forestInv_withRoot hinvC
            obtain ⟨ts4, hInv4, hperm4, hrootF, hdegnd, hmin⟩ :=
              consolidate_tail hinv3
                (show (ITree.node c0 c0cs :: cst).map ITree.idx
                  = c0 :: cst.map ITree.idx by simp [idx_node]) heqCR heqCL
            refine ⟨ts4, forestInv_withRoot hInv4, hrootF, hdegnd, hmin,
              ?_⟩
            refine (List.Perm.cons m hperm4).trans ?_
            rw [List.perm_iff_count]
            intro a
            simp only [supportList_cons, supportList_append, support_node,
              supportList_nil, List.count_append, List.count_cons,
              List.count_nil, List.append_nil]
  · -- there are other roots: detach the minimum from the ring
    have hmapZ : (ITree.node m cs :: (ITree.node q qcs :: ts1p)).map ITree.idx
        = m :: (q :: ts1p.map ITree.idx) := by simp [idx_node]
    have hringZ : RingR sz (m :: (q :: ts1p.map ITree.idx)) := by
      rw [← hmapZ]
      exact hinvZ.1
    have hndZ := hringZ.1
    have hnmv : (getN sz m).next = q := ringr_next_head hringZ
    have hmq : ¬ m = q := by
      rw [List.nodup_cons] at hndZ
      intro h
      refine hndZ.1 ?_
      rw [h]
      exact List.mem_cons_self _ _
    have hne : ¬ (getN sz m).next = m := by
      rw [hnmv]
      exact fun h => hmq h.symm
    have hpmR : (getN sz m).prev ∈ m :: (q :: ts1p.map ITree.idx) :=
      ringr_prev_mem hringZ (List.mem_cons_self _ _)
    have hpmm : (getN sz m).prev ≠ m := by
      have h2 := ringr_prev_head hringZ (by simp)
      rw [h2]
      intro h3
      rw [List.nodup_cons] at hndZ
      refine hndZ.1 ?_
      rw [← h3]
      exact List.getLast_mem (by simp)
    rw [if_neg hne] at hrun
    have hA1 : (getN (setNext sz ((getN sz m).prev) ((getN sz m).next)) m).next
        = (getN sz m).next := next_setNext_ne _ _ _ _ hpmm
    have hA2 : (getN (setNext sz ((getN sz m).prev) ((getN sz m).next)) m).prev
        = (getN sz m).prev := prev_setNext ..
    rw [hA1, hA2] at hrun
    dsimp only [] at hrun
    obtain ⟨hdRing, hdTrees, hdTm, hdKeys, hdLen, hdM⟩ :=
      detach_spec hinvZ
    rw [hdM] at hrun
    rw [hnmv] at hrun hdRing hdTrees hdTm hdKeys hdLen hdM
    have htm : treeRB sz (ITree.node m cs) = true :=
      treeRBList_iff.1 hinvZ.2.1 _ (List.mem_cons_self _ _)
    rw [treeRB_node_iff] at htm
    rcases cs with _ | ⟨⟨c0, c0cs⟩, cst⟩
    · -- no children: the remaining roots enter consolidation unchanged
      have hch : (getN sz m).child = none := htm.2.2.1
      rw [hch] at hrun
      dsimp only [mergeCDLL] at hrun
      rw [hdM] at hrun
      rw [hch] at hrun
      dsimp only [] at hrun
      split at hrun
      · exact absurd hrun (by simp)
      · rename_i toVisit heqCR
        split at hrun
        · exact absurd hrun (by simp)
        · rename_i s4 rootF heqCL
          simp only [Option.some.injEq, Prod.mk.injEq] at hrun
          obtain ⟨hres, hs5⟩ := hrun
          subst hs5
          have hr2b : some rootF = some r2 := hr2
          injection hr2b with hrf
          subst hrf
          have hinvC : ForestInv
              (setPrev (setNext sz ((getN sz m).prev) q) q ((getN sz m).prev))
              (ITree.node q qcs :: ts1p) := by
            refine ⟨?_, hdTrees, ?_, ?_⟩
            · exact hdRing
            · have h2 := hinvZ.2.2.1
              rw [supportList_cons, support_node, supportList_nil,
                List.cons_append, List.nil_append, List.nodup_cons] at h2
              exact h2.2
            · intro t ht
              have hb := hinvZ.2.2.2 t (List.mem_cons_of_mem _ ht)
              rw [hdKeys t.idx]
              exact boundB_keys t hdKeys hb
          have hinv3 : ForestInv
              { nodes := (setPrev (setNext sz ((getN sz m).prev) q) q
                  ((getN sz m).prev)).nodes, root := some q,
                size := (setPrev (setNext sz ((getN sz m).prev) q) q
                  ((getN sz m).prev)).size }
              (ITree.node q qcs :: ts1p) := forestInv_withRoot hinvC
          obtain ⟨ts4, hInv4, hperm4, hrootF, hdegnd, hmin⟩ :=
            consolidate_tail hinv3
              (show (ITree.node q qcs :: ts1p).map ITree.idx
                = q :: ts1p.map ITree.idx by simp [idx_node]) heqCR heqCL
          refine ⟨ts4, forestInv_withRoot hInv4, hrootF, hdegnd, hmin, ?_⟩
          refine (List.Perm.cons m hperm4).trans ?_
          rw [List.perm_iff_count]
          intro a
          simp only [supportList_cons, supportList_append, support_node,
            supportList_nil, List.count_append, List.count_cons,
            List.count_nil, List.append_nil]
          omega
    · -- children and other roots: splice the child ring into the root ring
      have hch : (getN sz m).child = some c0 := by
        simpa [idx_node] using htm.2.2.1
      rw [hch] at hrun
      dsimp only [] at hrun
      split at hrun
      · exact absurd hrun (by simp)
      · rename_i s2cl heqCP
        obtain ⟨hfL, hfK, hfN, hfP, hfC, hfD⟩ :=
          clearParentsGo_frames fuel _ c0 s2cl heqCP
        have hclch : (getN s2cl m).child = some c0 := by
          rw [hfC m, show (getN (setPrev (setNext sz ((getN sz m).prev) q) q
            ((getN sz m).prev)) m).child = (getN sz m).child from
            congrArg FNode.child hdM]
          exact hch
        rw [hclch] at hrun
        rw [snd_mergeCDLL] at hrun
        have hkc0 : (getN s2cl c0).key = (getN sz c0).key := by
          rw [hfK c0, hdKeys c0]
        have hkq : (getN s2cl q).key = (getN sz q).key := by
          rw [hfK q, hdKeys q]
        rw [hkc0, hkq] at hrun
        have hndmcs : (ITree.supportList (ITree.node c0 c0cs :: cst)).Nodup := by
          have h2 := hinvZ.2.2.1
          rw [supportList_cons, support_node, List.cons_append,
            List.nodup_cons, List.nodup_append] at h2
          exact h2.2.1
        have hTailNodup : (ITree.supportList (ITree.node c0 c0cs :: cst)
            ++ ITree.supportList (ITree.node q qcs :: ts1p)).Nodup := by
          have h2 := hinvZ.2.2.1
          rw [supportList_cons, support_node, List.cons_append,
            List.nodup_cons] at h2
          exact h2.2
        have hMasterZ : ∀ a, a ∈ (ITree.node m (ITree.node c0 c0cs :: cst)
              :: ITree.node q qcs :: ts1p).map ITree.idx →
            ∀ r3 rcs3, ITree.node r3 rcs3 ∈ (ITree.node m (ITree.node c0 c0cs :: cst)
              :: ITree.node q qcs :: ts1p) →
            ∀ k ∈ ITree.supportList rcs3, ¬ a = k := by
          intro a ha r3 rcs3 ht k hk
          obtain ⟨t2, ht2, rfl⟩ := List.mem_map.1 ha
          exact root_ne_inner hinvZ.2.2.1 ht2 ht k hk
        have hMasterM : ∀ a, a ∈ (ITree.node c0 c0cs :: cst).map ITree.idx →
            ∀ r3 rcs3, ITree.node r3 rcs3 ∈ (ITree.node c0 c0cs :: cst) →
            ∀ k ∈ ITree.supportList rcs3, ¬ a = k := by
          intro a ha r3 rcs3 ht k hk
          obtain ⟨t2, ht2, rfl⟩ := List.mem_map.1 ha
          exact root_ne_inner hndmcs ht2 ht k hk
        have hT2ne : ∀ t2 ∈ (ITree.node q qcs :: ts1p),
            ¬ t2 = ITree.node m (ITree.node c0 c0cs :: cst) := by
          intro t2 ht2 he
          have h2 := hinvZ.2.2.1
          rw [supportList_cons, List.nodup_append] at h2
          have hm1 : m ∈ (ITree.node m (ITree.node c0 c0cs :: cst)).support := by
            rw [support_node]
            exact List.mem_cons_self _ _
          have hm2 : m ∈ ITree.supportList (ITree.node q qcs :: ts1p) :=
            mem_supportList_of_mem ht2 (by
              rw [he, support_node]
              exact List.mem_cons_self _ _)
          exact h2.2.2 hm1 hm2
        have hProt : ∀ a, a ∈ (q :: ts1p.map ITree.idx)
              ++ (c0 :: cst.map ITree.idx) →
            ∀ r3 rcs3, ITree.node r3 rcs3 ∈ (ITree.node c0 c0cs :: cst)
              ++ (ITree.node q qcs :: ts1p) →
            ∀ k ∈ ITree.supportList rcs3, ¬ a = k := by
          intro a ha r3 rcs3 ht k hk
          rcases List.mem_append.1 ha with haL | haR
          · have haM : a ∈ (ITree.node m (ITree.node c0 c0cs :: cst)
                :: ITree.node q qcs :: ts1p).map ITree.idx := by
              rw [hmapZ]
              exact List.mem_cons_of_mem _ haL
            rcases List.mem_append.1 ht with htL | htR
            · have hkM : k ∈ ITree.supportList (ITree.node c0 c0cs :: cst) :=
                mem_supportList_of_mem htL (by
                  rw [support_node]; exact List.mem_cons_of_mem _ hk)
              exact hMasterZ a haM m (ITree.node c0 c0cs :: cst)
                (List.mem_cons_self _ _) k hkM
            · exact hMasterZ a haM r3 rcs3 (List.mem_cons_of_mem _ htR) k hk
          · have haS : a ∈ ITree.supportList (ITree.node c0 c0cs :: cst) := by
              refine map_idx_subset_supportList ?_
              show a ∈ (ITree.node c0 c0cs :: cst).map ITree.idx
              simpa [idx_node] using haR
            rcases List.mem_append.1 ht with htL | htR
            · exact hMasterM a (by
                show a ∈ (ITree.node c0 c0cs :: cst).map ITree.idx
                simpa [idx_node] using haR) r3 rcs3 htL k hk
            · intro he
              have haSup : a ∈ (ITree.node m (ITree.node c0 c0cs :: cst)).support := by
                rw [support_node]
                exact List.mem_cons_of_mem _ haS
              have hkSup : k ∈ (ITree.node r3 rcs3).support := by
                rw [support_node]
                exact List.mem_cons_of_mem _ hk
              have hneT : ¬ (ITree.node m (ITree.node c0 c0cs :: cst))
                  = ITree.node r3 rcs3 := fun he2 => hT2ne _ htR he2.symm
              have hnotin := supportList_disjoint_of_ne hinvZ.2.2.1 _
                (List.mem_cons_self _ _) _ (List.mem_cons_of_mem _ htR) hneT a haSup
              refine hnotin ?_
              rw [he]
              exact hkSup
        have hEWnext : ∀ k, k ∈ ITree.supportList (ITree.node c0 c0cs :: cst) →
            (getN (setPrev (setNext sz ((getN sz m).prev) q) q
              ((getN sz m).prev)) k).next = (getN sz k).next := by
          intro k hk
          rw [next_setPrev]
          refine next_setNext_ne _ _ _ _ ?_
          have hpmM : (getN sz m).prev ∈ (ITree.node m (ITree.node c0 c0cs :: cst)
              :: ITree.node q qcs :: ts1p).map ITree.idx := by
            rw [hmapZ]
            exact hpmR
          exact hMasterZ _ hpmM m _ (List.mem_cons_self _ _) k hk
        have hEWprev : ∀ k, k ∈ ITree.supportList (ITree.node c0 c0cs :: cst) →
            (getN (setPrev (setNext sz ((getN sz m).prev) q) q
              ((getN sz m).prev)) k).prev = (getN sz k).prev := by
          intro k hk
          have hqM : q ∈ (ITree.node m (ITree.node c0 c0cs :: cst)
              :: ITree.node q qcs :: ts1p).map ITree.idx := by
            rw [hmapZ]
            exact List.mem_cons_of_mem _ (List.mem_cons_self _ _)
          have hqk : q ≠ k := hMasterZ q hqM m _ (List.mem_cons_self _ _) k hk
          rw [prev_setPrev_ne _ _ _ _ hqk, prev_setNext]
        have hringC2 : RingR s2cl (c0 :: cst.map ITree.idx) := by
          have h0 : RingR sz ((ITree.node c0 c0cs :: cst).map ITree.idx) :=
            htm.2.2.2.1
          have h1 : RingR (setPrev (setNext sz ((getN sz m).prev) q) q
              ((getN sz m).prev)) ((ITree.node c0 c0cs :: cst).map ITree.idx) :=
            ringr_transfer hdLen
              (fun k hk => hEWnext k (map_idx_subset_supportList hk))
              (fun k hk => hEWprev k (map_idx_subset_supportList hk)) h0
          have h2 : RingR s2cl ((ITree.node c0 c0cs :: cst).map ITree.idx) :=
            ringr_transfer hfL (fun k _ => hfN k) (fun k _ => hfP k) h1
          simpa [idx_node] using h2
        have hringQ2 : RingR s2cl (q :: ts1p.map ITree.idx) := by
          have h2 : RingR s2cl ((ITree.node q qcs :: ts1p).map ITree.idx) :=
            ringr_transfer hfL (fun k _ => hfN k) (fun k _ => hfP k) hdRing
          simpa [idx_node] using h2
        have hTmcs2 : treeRBList s2cl (ITree.node c0 c0cs :: cst) = true := by
          have h0 : treeRBList sz (ITree.node c0 c0cs :: cst) = true :=
            htm.2.2.2.2
          have h1 : treeRBList (setPrev (setNext sz ((getN sz m).prev) q) q
              ((getN sz m).prev)) (ITree.node c0 c0cs :: cst) = true := by
            refine treeRBList_frame_fields _ hdLen (fun k hk => ?_) h0
            refine ⟨hEWnext k hk, hEWprev k hk, ?_, ?_⟩
            · rw [child_setPrev, child_setNext]
            · rw [degree_setPrev, degree_setNext]
          refine treeRBList_frame_fields _ hfL (fun k _ => ?_) h1
          exact ⟨hfN k, hfP k, hfC k, hfD k⟩
        have hTq2 : treeRBList s2cl (ITree.node q qcs :: ts1p) = true := by
          refine treeRBList_frame_fields _ hfL (fun k _ => ?_) hdTrees
          exact ⟨hfN k, hfP k, hfC k, hfD k⟩
        have hdisjRC : ∀ a ∈ q :: ts1p.map ITree.idx,
            a ∉ c0 :: cst.map ITree.idx := by
          intro a ha hmem
          have haM : a ∈ (ITree.node m (ITree.node c0 c0cs :: cst)
              :: ITree.node q qcs :: ts1p).map ITree.idx := by
            rw [hmapZ]
            exact List.mem_cons_of_mem _ ha
          have hmemS : a ∈ ITree.supportList (ITree.node c0 c0cs :: cst) := by
            refine map_idx_subset_supportList ?_
            show a ∈ (ITree.node c0 c0cs :: cst).map ITree.idx
            simpa [idx_node] using hmem
          exact hMasterZ a haM m _ (List.mem_cons_self _ _) a hmemS rfl
        have hringMerged : RingR (mergeCDLL s2cl (some q) (some c0)).1
            (q :: (cst.map ITree.idx ++ [c0]) ++ ts1p.map ITree.idx) :=
          ring_mergeCDLL hringQ2 hringC2 hdisjRC
        have hqlt : q < s2cl.nodes.length :=
          hringQ2.2.1 q (List.mem_cons_self _ _)
        have hc0lt : c0 < s2cl.nodes.length :=
          hringC2.2.1 c0 (List.mem_cons_self _ _)
        have hqc0 : ¬ q = c0 := by
          intro h
          refine hdisjRC q (List.mem_cons_self _ _) ?_
          rw [h]
          exact List.mem_cons_self _ _
        have hnq : (getN s2cl q).next ∈ q :: ts1p.map ITree.idx :=
          ringr_next_mem hringQ2 (List.mem_cons_self _ _)
        have hnc0 : (getN s2cl c0).next ∈ c0 :: cst.map ITree.idx :=
          ringr_next_mem hringC2 (List.mem_cons_self _ _)
        have hkeepK : ∀ r3 rcs3, ITree.node r3 rcs3 ∈ (ITree.node c0 c0cs :: cst)
              ++ (ITree.node q qcs :: ts1p) →
            ∀ k ∈ ITree.supportList rcs3,
              (getN (mergeCDLL s2cl (some q) (some c0)).1 k).next
                  = (getN s2cl k).next ∧
              (getN (mergeCDLL s2cl (some q) (some c0)).1 k).prev
                  = (getN s2cl k).prev ∧
              (getN (mergeCDLL s2cl (some q) (some c0)).1 k).child
                  = (getN s2cl k).child ∧
              (getN (mergeCDLL s2cl (some q) (some c0)).1 k).degree
                  = (getN s2cl k).degree := by
          intro r3 rcs3 ht k hk
          refine ⟨?_, ?_, child_mergeCDLL .., degree_mergeCDLL ..⟩
          · refine next_mergeCDLL_ne k ?_ ?_
            · exact hProt q (List.mem_append_left _ (List.mem_cons_self _ _))
                r3 rcs3 ht k hk
            · exact hProt c0 (List.mem_append_right _ (List.mem_cons_self _ _))
                r3 rcs3 ht k hk
          · refine prev_mergeCDLL_ne hqc0 hqlt hc0lt k ?_ ?_
            · exact hProt _ (List.mem_append_right _ hnc0) r3 rcs3 ht k hk
            · exact hProt _ (List.mem_append_left _ hnq) r3 rcs3 ht k hk
        have hTreesAll2 : ∀ t ∈ (ITree.node c0 c0cs :: cst)
            ++ (ITree.node q qcs :: ts1p), treeRB s2cl t = true := by
          intro t ht
          rcases List.mem_append.1 ht with h | h
          · exact treeRBList_iff.1 hTmcs2 t h
          · exact treeRBList_iff.1 hTq2 t h
        have hTreesAllM : ∀ t ∈ (ITree.node c0 c0cs :: cst)
            ++ (ITree.node q qcs :: ts1p),
            treeRB (mergeCDLL s2cl (some q) (some c0)).1 t = true := by
          intro t ht
          rcases t with ⟨r3, rcs3⟩
          exact treeRB_frame_fields r3 rcs3 (length_mergeCDLL ..)
            (fun k hk => hkeepK r3 rcs3 ht k hk)
            (degree_mergeCDLL ..) (child_mergeCDLL ..) (hTreesAll2 _ ht)
        have hKmcl : ∀ k, (getN (mergeCDLL s2cl (some q) (some c0)).1 k).key
            = (getN sz k).key := by
          intro k
          rw [key_mergeCDLL, hfK k, hdKeys k]
        have hBndAll : ∀ t ∈ (ITree.node c0 c0cs :: cst)
            ++ (ITree.node q qcs :: ts1p),
            boundB (mergeCDLL s2cl (some q) (some c0)).1
              ((getN (mergeCDLL s2cl (some q) (some c0)).1 t.idx).key) t
              = true := by
          intro t ht
          have hBsz : boundB sz ((getN sz t.idx).key) t = true := by
            rcases List.mem_append.1 ht with h | h
            · have hb0 := hinvZ.2.2.2 _ (List.mem_cons_self _ _)
              have hb1 : boundListB sz ((getN sz m).key)
                  (ITree.node c0 c0cs :: cst) = true := (boundB_node_iff.1 hb0).2
              exact boundB_self (boundListB_iff.1 hb1 t h)
            · exact hinvZ.2.2.2 _ (List.mem_cons_of_mem _ h)
          rw [hKmcl t.idx]
          exact boundB_keys t hKmcl hBsz
        by_cases hkcmp : (getN sz c0).key < (getN sz q).key
        · -- the child-ring head holds the smaller key: it becomes the new root
          rw [if_pos hkcmp] at hrun
          dsimp only [] at hrun
          split at hrun
          · exact absurd hrun (by simp)
          · rename_i toVisit heqCR
            split at hrun
            · exact absurd hrun (by simp)
            · rename_i s4 rootF heqCL
              simp only [Option.some.injEq, Prod.mk.injEq] at hrun
              obtain ⟨hres, hs5⟩ := hrun
              subst hs5
              have hr2b : some rootF = some r2 := hr2
              injection hr2b with hrf
              subst hrf
              have hinvM : ForestInv (mergeCDLL s2cl (some q) (some c0)).1
                  (ITree.node c0 c0cs :: (ts1p ++ (ITree.node q qcs :: cst))) := by
                refine ⟨?_, ?_, ?_, ?_⟩
                · have h1 : RingR (mergeCDLL s2cl (some q) (some c0)).1
                      ((q :: cst.map ITree.idx) ++ (c0 :: ts1p.map ITree.idx)) := by
                    have h0 := hringMerged
                    have he : (q :: (cst.map ITree.idx ++ [c0])
                          ++ ts1p.map ITree.idx)
                        = (q :: cst.map ITree.idx)
                          ++ (c0 :: ts1p.map ITree.idx) := by
                      simp
                    rw [he] at h0
                    exact h0
                  have h2 := RingR_append_comm.1 h1
                  have he2 : ((c0 :: ts1p.map ITree.idx) ++ (q :: cst.map ITree.idx))
                      = (ITree.node c0 c0cs
                          :: (ts1p ++ (ITree.node q qcs :: cst))).map ITree.idx := by
                    simp [idx_node]
                  rw [he2] at h2
                  exact h2
                · rw [treeRBList_iff]
                  intro t ht
                  refine hTreesAllM t ?_
                  simp only [List.mem_cons, List.mem_append] at ht ⊢
                  tauto
                · have hperm : (ITree.supportList (ITree.node c0 c0cs
                      :: (ts1p ++ (ITree.node q qcs :: cst)))).Perm
                      (ITree.supportList (ITree.node c0 c0cs :: cst)
                        ++ ITree.supportList (ITree.node q qcs :: ts1p)) := by
                    rw [List.perm_iff_count]
                    intro a
                    simp only [supportList_cons, supportList_append, support_node,
                      supportList_nil, List.count_append, List.count_cons,
                      List.count_nil, List.append_nil]
                    omega
                  exact hperm.nodup_iff.2 hTailNodup
                · intro t ht
                  refine hBndAll t ?_
                  simp only [List.mem_cons, List.mem_append] at ht ⊢
                  tauto
              obtain ⟨ts4, hInv4, hperm4, hrootF, hdegnd, hmin⟩ :=
                consolidate_tail (forestInv_withRoot hinvM)
                  (show (ITree.node c0 c0cs
                      :: (ts1p ++ (ITree.node q qcs :: cst))).map ITree.idx
                    = c0 :: (ts1p.map ITree.idx ++ (q :: cst.map ITree.idx)) by
                      simp [idx_node]) heqCR heqCL
              refine ⟨ts4, forestInv_withRoot hInv4, hrootF, hdegnd, hmin, ?_⟩
              refine (List.Perm.cons m hperm4).trans ?_
              rw [List.perm_iff_count]
              intro a
              simp only [supportList_cons, supportList_append, support_node,
                supportList_nil, List.count_append, List.count_cons,
                List.count_nil, List.append_nil]
              omega
        · -- the surviving root keeps the smaller or equal key
          rw [if_neg hkcmp] at hrun
          dsimp only [] at hrun
          split at hrun
          · exact absurd hrun (by simp)
          · rename_i toVisit heqCR
            split at hrun
            · exact absurd hrun (by simp)
            · rename_i s4 rootF heqCL
              simp only [Option.some.injEq, Prod.mk.injEq] at hrun
              obtain ⟨hres, hs5⟩ := hrun
              subst hs5
              have hr2b : some rootF = some r2 := hr2
              injection hr2b with hrf
              subst hrf
              have hinvM : ForestInv (mergeCDLL s2cl (some q) (some c0)).1
                  (ITree.node q qcs
                    :: ((cst ++ [ITree.node c0 c0cs]) ++ ts1p)) := by
                refine ⟨?_, ?_, ?_, ?_⟩
                · have h0 := hringMerged
                  have he : (q :: (cst.map ITree.idx ++ [c0])
                        ++ ts1p.map ITree.idx)
                      = (ITree.node q qcs
                          :: ((cst ++ [ITree.node c0 c0cs]) ++ ts1p)).map
                            ITree.idx := by
                    simp [idx_node]
                  rw [he] at h0
                  exact h0
                · rw [treeRBList_iff]
                  intro t ht
                  refine hTreesAllM t ?_
                  simp only [List.mem_cons, List.mem_append] at ht ⊢
                  tauto
                · have hperm : (ITree.supportList (ITree.node q qcs
                      :: ((cst ++ [ITree.node c0 c0cs]) ++ ts1p))).Perm
                      (ITree.supportList (ITree.node c0 c0cs :: cst)
                        ++ ITree.supportList (ITree.node q qcs :: ts1p)) := by
                    rw [List.perm_iff_count]
                    intro a
                    simp only [supportList_cons, supportList_append, support_node,
                      supportList_nil, List.count_append, List.count_cons,
                      List.count_nil, List.append_nil]
                    omega
                  exact hperm.nodup_iff.2 hTailNodup
                · intro t ht
                  refine hBndAll t ?_
                  simp only [List.mem_cons, List.mem_append] at ht ⊢
                  tauto
              obtain ⟨ts4, hInv4, hperm4, hrootF, hdegnd, hmin⟩ :=
                consolidate_tail (forestInv_withRoot hinvM)
                  (show (ITree.node q qcs
                      :: ((cst ++ [ITree.node c0 c0cs]) ++ ts1p)).map ITree.idx
                    = q :: ((cst.map ITree.idx ++ [c0]) ++ ts1p.map ITree.idx) by
                      simp [idx_node]) heqCR heqCL
              refine ⟨ts4, forestInv_withRoot hInv4, hrootF, hdegnd, hmin, ?_⟩
              refine (List.Perm.cons m hperm4).trans ?_
              rw [List.perm_iff_count]
              intro a
              simp only [supportList_cons, supportList_append, support_node,
                supportList_nil, List.count_append, List.count_cons,
                List.count_nil, List.append_nil]
              omega

/-- A concrete two-root Fibonacci heap used to instantiate the consolidation
theorem. -/
def c9s : FibHeap Nat Nat :=
  { nodes :=
      [ { key := 1, value := 10, degree := 0, marked := false,
          parent := none, child := none, next := 1, prev := 1 },
        { key := 2, value := 20, degree := 0, marked := false,
          parent := none, child := none, next := 0, prev := 0 } ],
    root := some 0, size := 2 }

def c9run : Option (Except PyErr (Nat × Nat) × FibHeap Nat Nat) :=
  fibExtractMin 20 c9s

def c9res : Except PyErr (Nat × Nat) :=
  (c9run.getD (Except.error PyErr.indexError, c9s)).1

def c9s5 : FibHeap Nat Nat :=
  (c9run.getD (Except.error PyErr.indexError, c9s)).2

theorem fib_consolidation_main_witness :
    c9s.root = some 0 ∧
    ForestInv c9s [ITree.node 0 [], ITree.node 1 []] ∧
    fibExtractMin 20 c9s = some (c9res, c9s5) ∧
    c9s5.root = some 1 ∧
    ∃ tsf : List ITree,
      ForestInv c9s5 tsf ∧
      1 ∈ tsf.map ITree.idx ∧
      ((tsf.map ITree.idx).map (fun a => (getN c9s5 a).degree)).Nodup ∧
      (∀ k ∈ ITree.supportList tsf, (getN c9s5 1).key ≤ (getN c9s5 k).key) ∧
      (0 :: ITree.supportList tsf).Perm
        (ITree.supportList [ITree.node 0 [], ITree.node 1 []]) :=
  ⟨rfl, by unfold ForestInv RingR pairOK; decide, rfl, rfl,
    @fib_consolidation_main Nat Nat _ _ _ c9s 0 [] [ITree.node 1 []] 20
      c9res c9s5 1 rfl (by unfold ForestInv RingR pairOK; decide) rfl rfl⟩
